import Mathlib

/-!
# Place clustering (`generator/place_processor.hpp`) and `base/stl_helpers.hpp`

A shallow embedding of `generator::ClustersFinder` (the breadth-first
clustering of place aggregates), of `SortUnique`, `EraseIf`, `LessBy` and
`EqualsBy` of `base/stl_helpers.hpp`, and of the place processor, whose implementation file
`generator/place_processor.cpp` is not part of the sources and is modelled from
the specification.

Conventions of the embedding.

* A `T const *` pointing into `m_container` is a position `Fin n`, with
  `n` the container size; `addr` gives the machine address of a position, which
  is what `std::set<ConstIterator>` orders by.
* Coordinates and distances (C++ `double`) live in an arbitrary linearly
  ordered type `K`.
* `while` loops take a fuel argument and return `none` when it runs out.
* Headers that are not part of the sources (`geometry/rect2d.hpp`,
  `geometry/tree4d.hpp`, `geometry/mercator.hpp`) are either modelled (the
  rectangle) or taken as parameters (the spatial index, the conversion from
  metres).
-/

namespace m2

/-- Modelled from the spec: `m2::PointD` of `geometry/point2d.hpp`, which is not
part of the sources: a point of the plane. -/
structure Point (K : Type) where
  x : K
  y : K
deriving DecidableEq, Repr

/-- Modelled from the spec: `m2::RectD` of `geometry/rect2d.hpp`, which is not
part of the sources: an axis-aligned rectangle `[minX, maxX] x [minY, maxY]`. -/
structure Rect (K : Type) where
  minX : K
  minY : K
  maxX : K
  maxY : K
deriving DecidableEq, Repr

namespace Rect

variable {K : Type}

/-- Modelled from the spec: the corner `(minX, maxY)`. -/
def LeftTop (r : Rect K) : Point K := ⟨r.minX, r.maxY⟩

/-- Modelled from the spec: the corner `(minX, minY)`. -/
def LeftBottom (r : Rect K) : Point K := ⟨r.minX, r.minY⟩

/-- Modelled from the spec: the corner `(maxX, minY)`. -/
def RightBottom (r : Rect K) : Point K := ⟨r.maxX, r.minY⟩

/-- Modelled from the spec: the corner `(maxX, maxY)`. -/
def RightTop (r : Rect K) : Point K := ⟨r.maxX, r.maxY⟩

/-- Modelled from the spec: `Rect::ForEachCorner`, the four corners in the order
in which the callback receives them. -/
def ForEachCorner (r : Rect K) : List (Point K) :=
  [r.LeftTop, r.LeftBottom, r.RightBottom, r.RightTop]

/-- Modelled from the spec: `Rect::Add(Rect const &)`, the smallest rectangle
containing both. -/
def Add [LinearOrder K] (b r : Rect K) : Rect K :=
  ⟨min r.minX b.minX, min r.minY b.minY, max r.maxX b.maxX, max r.maxY b.maxY⟩

/-- Modelled from the spec: `Rect::IsIntersect`, true when the two closed
rectangles share a point. -/
def IsIntersect [LinearOrder K] (a b : Rect K) : Bool :=
  !(decide (a.maxX < b.minX) || decide (b.maxX < a.minX) ||
    decide (a.maxY < b.minY) || decide (b.maxY < a.minY))

/-- Containment of rectangles: `a` lies inside `b`. -/
def Inside [LinearOrder K] (a b : Rect K) : Prop :=
  b.minX ≤ a.minX ∧ b.minY ≤ a.minY ∧ a.maxX ≤ b.maxX ∧ a.maxY ≤ b.maxY

end Rect

end m2

namespace generator

/-- The class template `ClustersFinder<T, Container, Alloc>`: its three data
members, and the parts of its environment that are not in the sources.

* `GetLimitRect` is `T::GetLimitRect`.
* `RectByCenterXYAndSizeInMeters` is the function of that name of
  `MercatorBounds` (`geometry/mercator.hpp`).
* `ForEachInRect r` is the sequence of elements that `m_tree.ForEachInRect(r, _)`
  passes to its callback, in the order of the calls (`m4::Tree`,
  `geometry/tree4d.hpp`); the tree holds pointers to container elements only.
* `addr` is the address of the element at a position. -/
structure ClustersFinder (T K : Type) where
  m_container : List T
  m_distanseFunc : T → K
  m_isSameFunc : T → T → Bool
  GetLimitRect : T → m2.Rect K
  RectByCenterXYAndSizeInMeters : m2.Point K → K → m2.Rect K
  ForEachInRect : m2.Rect K → List (Fin m_container.length)
  addr : Fin m_container.length → Nat

namespace ClustersFinder

variable {T K : Type}

/-- The type `ConstIterator = T const *`, restricted to the pointers the class
ever holds: pointers to the elements of `m_container`. -/
abbrev ConstIterator (F : ClustersFinder T K) : Type := Fin F.m_container.length

/-- Dereferencing: `*it`. -/
def deref (F : ClustersFinder T K) (it : F.ConstIterator) : T := F.m_container.get it

/-- The method `GetBboxFor`. The accumulator `bbox` starts as the empty rectangle,
to which `Add` of a rectangle gives that rectangle; the other three corners are
added to it in the order of `ForEachCorner`. -/
def GetBboxFor [LinearOrder K] (F : ClustersFinder T K) (it : F.ConstIterator) : m2.Rect K :=
  let r := F.GetLimitRect (F.deref it)
  let box := fun p => F.RectByCenterXYAndSizeInMeters p (F.m_distanseFunc (F.deref it))
  (((box r.LeftTop).Add (box r.LeftBottom)).Add (box r.RightBottom)).Add (box r.RightTop)

/-- The local state of `FindOneCluster`: the `queue`, the set `unviewed` (a list
in increasing address order), the `cluster` built so far, and `expanded`, a log
of the elements dequeued so far (one spatial query each), which the algorithm
never reads. -/
structure BfsState (n : Nat) where
  queue : List (Fin n)
  unviewed : List (Fin n)
  cluster : List (Fin n)
  expanded : List (Fin n)
deriving DecidableEq, Repr

/-- The body of the lambda given to `ForEachInRect` in `FindOneCluster`. -/
def visit (F : ClustersFinder T K) (current : F.ConstIterator)
    (st : BfsState F.m_container.length) (conditate : F.ConstIterator) :
    BfsState F.m_container.length :=
  if current == conditate || st.unviewed.count conditate == 0 ||
      !F.m_isSameFunc (F.deref current) (F.deref conditate) then st
  else
    { unviewed := st.unviewed.erase conditate
      queue := st.queue ++ [conditate]
      cluster := st.cluster ++ [conditate]
      expanded := st.expanded }

/-- One iteration of the `while (!queue.empty())` loop of `FindOneCluster`, for
the front element `current` and the rest of the queue. -/
def expand [LinearOrder K] (F : ClustersFinder T K) (current : F.ConstIterator)
    (rest : List F.ConstIterator) (st : BfsState F.m_container.length) :
    BfsState F.m_container.length :=
  (F.ForEachInRect (F.GetBboxFor current)).foldl (F.visit current)
    { st with queue := rest, expanded := st.expanded ++ [current] }

/-- The loop `while (!queue.empty())` of `FindOneCluster`; `none` when the fuel
runs out before the queue is empty. -/
def bfsLoop [LinearOrder K] (F : ClustersFinder T K) :
    Nat → BfsState F.m_container.length → Option (BfsState F.m_container.length)
  | fuel, st =>
    match st.queue with
    | [] => some st
    | current :: rest =>
      match fuel with
      | 0 => none
      | fuel + 1 => bfsLoop F fuel (F.expand current rest st)

/-- The method `FindOneCluster(it, unviewed)`. The result holds the returned
`cluster` and the updated `unviewed` set, which C++ passes by reference. -/
def FindOneCluster [LinearOrder K] (F : ClustersFinder T K) (fuel : Nat)
    (it : F.ConstIterator) (unviewed : List F.ConstIterator) :
    Option (BfsState F.m_container.length) :=
  F.bfsLoop fuel
    { cluster := [it], queue := [it], unviewed := unviewed.erase it, expanded := [] }

/-- Insertion `std::set<ConstIterator>::insert`: the set is kept in increasing
address order and a pointer that is already present is not inserted again. -/
def setInsert (addr : Fin n → Nat) (e : Fin n) : List (Fin n) → List (Fin n)
  | [] => [e]
  | y :: ys =>
    if addr e < addr y then e :: y :: ys
    else if addr e = addr y then y :: ys
    else y :: setInsert addr e ys

/-- The first loop of `Find`: `for (auto const & e : m_container) unviewed.insert(&e)`. -/
def initUnviewed (F : ClustersFinder T K) : List F.ConstIterator :=
  (List.finRange F.m_container.length).foldl (fun s e => setInsert F.addr e s) []

/-- The state of `Find`: the `clusters` returned so far, the `unviewed` set, and
the log of all elements dequeued by the calls of `FindOneCluster` so far. -/
structure FindState (n : Nat) where
  clusters : List (List (Fin n))
  unviewed : List (Fin n)
  expanded : List (Fin n)
deriving DecidableEq, Repr

/-- The loop `while (!unviewed.empty())` of `Find`, the seed being
`*std::cbegin(unviewed)`; `none` when the outer fuel `fuel` runs out or a call of
`FindOneCluster` runs out of its fuel `inner`. -/
def findLoop [LinearOrder K] (F : ClustersFinder T K) (inner : Nat) :
    Nat → FindState F.m_container.length → Option (FindState F.m_container.length)
  | fuel, st =>
    match st.unviewed with
    | [] => some st
    | it :: rest =>
      match fuel with
      | 0 => none
      | fuel + 1 =>
        match F.FindOneCluster inner it (it :: rest) with
        | none => none
        | some b =>
          findLoop F inner fuel
            { clusters := st.clusters ++ [b.cluster]
              unviewed := b.unviewed
              expanded := st.expanded ++ b.expanded }

/-- The run of `Find` with a given fuel for each of its loops. -/
def FindRun [LinearOrder K] (F : ClustersFinder T K) (fuel : Nat) :
    Option (FindState F.m_container.length) :=
  F.findLoop fuel fuel { clusters := [], unviewed := F.initUnviewed, expanded := [] }

/-- The method `Find`, each cluster being given by the positions of its members;
the loops run with fuel `n`, the container size. -/
def Find [LinearOrder K] (F : ClustersFinder T K) : Option (List (List F.ConstIterator)) :=
  (F.FindRun F.m_container.length).map (fun st => st.clusters)

/-- The value `Find` returns in C++: every cluster as the vector of copies of its
members. -/
def FindValues [LinearOrder K] (F : ClustersFinder T K) : Option (List (List T)) :=
  F.Find.map (fun cs => cs.map (fun c => c.map F.deref))

/-- The directed relation the expansion follows. -/
def edge [LinearOrder K] (F : ClustersFinder T K) (a b : F.ConstIterator) : Prop :=
  a ≠ b ∧ b ∈ F.ForEachInRect (F.GetBboxFor a) ∧ F.m_isSameFunc (F.deref a) (F.deref b) = true

/-- The quantity that every iteration of the breadth-first loop decreases by one. -/
def bfsMeasure {n : Nat} (st : BfsState n) : Nat := st.queue.length + st.unviewed.length

/-- The part of the invariant of the breadth-first loop of `FindOneCluster(it, U)`
that every call of the lambda preserves. -/
structure BfsCore [LinearOrder K] (F : ClustersFinder T K) (it : F.ConstIterator)
    (U : List F.ConstIterator) (st : BfsState F.m_container.length) : Prop where
  split : st.cluster = st.expanded ++ st.queue
  perm : (st.cluster ++ st.unviewed).Perm U
  head : ∃ tl, st.cluster = it :: tl
  reach : ∀ x ∈ st.cluster, Relation.ReflTransGen F.edge it x
  sub : st.unviewed.Sublist U

/-- The invariant of the breadth-first loop of `FindOneCluster(it, U)`: no
element dequeued so far has an edge to an element that is still unviewed. -/
structure BfsInv [LinearOrder K] (F : ClustersFinder T K) (it : F.ConstIterator)
    (U : List F.ConstIterator) (st : BfsState F.m_container.length) : Prop where
  core : F.BfsCore it U st
  closed : ∀ a ∈ st.expanded, ∀ y ∈ st.unviewed, ¬ F.edge a y

/-- The invariant of the loop of `Find`, for the initial set `U0`. -/
structure FindInv [LinearOrder K] (F : ClustersFinder T K) (U0 : List F.ConstIterator)
    (st : FindState F.m_container.length) : Prop where
  perm : (st.clusters.flatten ++ st.unviewed).Perm U0
  expanded : st.expanded = st.clusters.flatten
  reach : ∀ c ∈ st.clusters, ∃ s tl, c = s :: tl ∧ ∀ x ∈ c, Relation.ReflTransGen F.edge s x
  closedU : ∀ c ∈ st.clusters, ∀ a ∈ c, ∀ y ∈ st.unviewed, ¬ F.edge a y
  closedC : st.clusters.Pairwise (fun c c' => ∀ a ∈ c, ∀ y ∈ c', ¬ F.edge a y)
  sub : st.unviewed.Sublist U0

/-- The relation `link(a, b)` between two distinct elements: the limit rect of `b`
intersects `GetBboxFor(a)` and `isSame(a, b)` holds. -/
def link [LinearOrder K] (F : ClustersFinder T K) (a b : F.ConstIterator) : Prop :=
  a ≠ b ∧ (F.GetLimitRect (F.deref b)).IsIntersect (F.GetBboxFor a) = true ∧
    F.m_isSameFunc (F.deref a) (F.deref b) = true

/-- The spatial index reports no element whose limit rect misses the query. -/
def IndexSound [LinearOrder K] (F : ClustersFinder T K) : Prop :=
  ∀ r j, j ∈ F.ForEachInRect r → (F.GetLimitRect (F.deref j)).IsIntersect r = true

/-- The spatial index reports every element whose limit rect intersects the query. -/
def IndexComplete [LinearOrder K] (F : ClustersFinder T K) : Prop :=
  ∀ r j, (F.GetLimitRect (F.deref j)).IsIntersect r = true → j ∈ F.ForEachInRect r

/-- Two elements lie in one cluster of `cs`. -/
def SameCluster {n : Nat} (cs : List (List (Fin n))) (a b : Fin n) : Prop :=
  ∃ c ∈ cs, a ∈ c ∧ b ∈ c

/-- A point place for the examples: a name, planar coordinates and a link radius,
all in the same integer unit. -/
structure Village where
  name : Nat
  x : Int
  y : Int
  radius : Int
deriving DecidableEq, Repr

/-- An exact planar stand-in for `RectByCenterXYAndSizeInMeters`: the square of
half side `d` around `p`. -/
def squareAround (p : m2.Point Int) (d : Int) : m2.Rect Int :=
  ⟨p.x - d, p.y - d, p.x + d, p.y + d⟩

/-- A spatial index that reports, in container order, exactly the elements whose
rect intersects the query. -/
def scanIndex [LinearOrder K] (c : List T) (rect : T → m2.Rect K) (q : m2.Rect K) :
    List (Fin c.length) :=
  (List.finRange c.length).filter (fun i => (rect (c.get i)).IsIntersect q)

/-- The limit rect of a point place. -/
def Village.GetLimitRect (v : Village) : m2.Rect Int := ⟨v.x, v.y, v.x, v.y⟩

/-- The finder over a vector of point places, with the place's own radius as
distance and an exact index. -/
def villageFinder (c : List Village) (same : Village → Village → Bool) :
    ClustersFinder Village Int :=
  { m_container := c
    m_distanseFunc := fun v => v.radius
    m_isSameFunc := same
    GetLimitRect := Village.GetLimitRect
    RectByCenterXYAndSizeInMeters := squareAround
    ForEachInRect := scanIndex c Village.GetLimitRect
    addr := fun i => i.val }

/-- Equality of names, the `isSame` of the examples. -/
def sameName (a b : Village) : Bool := a.name == b.name

/-- Two places of the same name 10000 apart, each with radius 500. -/
def twoVillages : ClustersFinder Village Int :=
  villageFinder [⟨7, 0, 0, 500⟩, ⟨7, 10000, 0, 500⟩] sameName

/-- The same finder with another distance function. -/
def withDistance (F : ClustersFinder T K) (d : T → K) : ClustersFinder T K :=
  { m_container := F.m_container
    m_distanseFunc := d
    m_isSameFunc := F.m_isSameFunc
    GetLimitRect := F.GetLimitRect
    RectByCenterXYAndSizeInMeters := F.RectByCenterXYAndSizeInMeters
    ForEachInRect := F.ForEachInRect
    addr := F.addr }

/-- Two places of one name 35 apart, each with radius 35. -/
def twoNeighbours : ClustersFinder Village Int :=
  villageFinder [⟨7, 0, 0, 35⟩, ⟨7, 35, 0, 35⟩] sameName

/-- Four places of one name on a line: position 0 at 20 with radius 1,
position 1 at 0 with radius 10, positions 2 and 3 at 10 and -10 with radius 1. -/
def fourPlaces : ClustersFinder Village Int :=
  villageFinder [⟨7, 20, 0, 1⟩, ⟨7, 0, 0, 10⟩, ⟨7, 10, 0, 1⟩, ⟨7, -10, 0, 1⟩] sameName

/-- A distance function that is larger than the radius everywhere: the radius plus
9 for a place at abscissa 20, the radius plus 1 for any other place. -/
def widerRadius (v : Village) : Int := v.radius + (if v.x = 20 then 9 else 1)

/-- An `isSame` that is not symmetric: the name of the first is at most the name
of the second. -/
def nameLe (a b : Village) : Bool := decide (a.name ≤ b.name)

/-- A distance function one above the radius. -/
def radiusPlusOne (v : Village) : Int := v.radius + 1

/-- Every element of `c` but the first has an earlier element of `c` that is
related to it. -/
def Linked {α : Type} (R : α → α → Prop) (c : List α) : Prop :=
  ∀ pre b post, c = pre ++ b :: post → pre ≠ [] → ∃ a ∈ pre, R a b

/-- The edges that end in the set `U`. -/
def edgeIn [LinearOrder K] (F : ClustersFinder T K) (U : List F.ConstIterator)
    (a b : F.ConstIterator) : Prop :=
  F.edge a b ∧ b ∈ U

/-- More of the invariant of the breadth-first loop of `FindOneCluster(it, U)`:
the queue holds cluster members, every member but the first was added for an
earlier member, the members are reached from the seed along edges that stay in
`U`, and `unviewed` is `U` without the cluster, in the order of `U`. -/
structure BfsExtra [LinearOrder K] (F : ClustersFinder T K) (it : F.ConstIterator)
    (U : List F.ConstIterator) (st : BfsState F.m_container.length) : Prop where
  qsub : ∀ x ∈ st.queue, x ∈ st.cluster
  linked : Linked F.edge st.cluster
  reachU : ∀ x ∈ st.cluster, Relation.ReflTransGen (F.edgeIn U) it x
  filt : st.unviewed = U.filter (fun x => decide (x ∉ st.cluster))

/-- Two places within each other's radius, with the names 1 and 2, for which
`nameLe` holds from the first to the second only. -/
def orderedPair : ClustersFinder Village Int :=
  villageFinder [⟨1, 0, 0, 35⟩, ⟨2, 35, 0, 35⟩] nameLe

/-- The invariant of the loop of `Find` on the seeds, for an address order that
follows the positions: `unviewed` is in increasing order of position and the first
element of every cluster is below its other members, the members of the later
clusters and the unviewed elements. -/
structure SeedInv [LinearOrder K] (F : ClustersFinder T K)
    (st : FindState F.m_container.length) : Prop where
  sorted : st.unviewed.Pairwise (· < ·)
  own : ∀ c ∈ st.clusters, ∀ s ∈ c.head?, ∀ x ∈ c, s ≤ x
  later : st.clusters.Pairwise (fun c c' => ∀ s ∈ c.head?, ∀ x ∈ c', s < x)
  rest : ∀ c ∈ st.clusters, ∀ s ∈ c.head?, ∀ x ∈ st.unviewed, s < x

/-- The same finder with another spatial index over the same elements. -/
def withIndex (F : ClustersFinder T K) (idx : m2.Rect K → List (Fin F.m_container.length)) :
    ClustersFinder T K :=
  { m_container := F.m_container
    m_distanseFunc := F.m_distanseFunc
    m_isSameFunc := F.m_isSameFunc
    GetLimitRect := F.GetLimitRect
    RectByCenterXYAndSizeInMeters := F.RectByCenterXYAndSizeInMeters
    ForEachInRect := idx
    addr := F.addr }

/-- Two clusters have the same members and the same first element. -/
def SameGroup {n : Nat} (c c' : List (Fin n)) : Prop := c.Perm c' ∧ c.head? = c'.head?

/-- The exact index of `scanIndex`, reporting in the reverse order. -/
def reverseScanIndex [LinearOrder K] (c : List T) (rect : T → m2.Rect K) (q : m2.Rect K) :
    List (Fin c.length) :=
  (scanIndex c rect q).reverse

/-- Three places of one name: position 0 at 0 with radius 10, positions 1 and 2
at 10 and -10 with radius 1. -/
def threePlaces : ClustersFinder Village Int :=
  villageFinder [⟨7, 0, 0, 10⟩, ⟨7, 10, 0, 1⟩, ⟨7, -10, 0, 1⟩] sameName

/-- The exact planar model of `RectByCenterXYAndSizeInMeters`: the square
`[px - d, px + d] x [py - d, py + d]`. -/
def planarSquare [LinearOrderedAddCommGroup K] (p : m2.Point K) (d : K) : m2.Rect K :=
  ⟨p.x - d, p.y - d, p.x + d, p.y + d⟩

end ClustersFinder

end generator

/-! ## Helpers of `base/stl_helpers.hpp` -/

namespace my

/-- The call `std::sort(v.begin(), v.end())` of the standard library, with
`operator<` of a linear order: the sorted rearrangement of `v` (the algorithm does
not matter, on a linear order the result is unique). -/
def sort {α : Type} [LinearOrder α] (v : List α) : List α := v.insertionSort (· ≤ ·)

/-- The loop of `std::unique` after the first element: `last` is the element kept
last, and an element equal to it is skipped. -/
def uniqueAux {α : Type} [DecidableEq α] (last : α) : List α → List α
  | [] => []
  | y :: ys => if last = y then uniqueAux last ys else y :: uniqueAux y ys

/-- The call `std::unique(v.begin(), v.end())` of the standard library followed by
the erasure of the tail it returns: of every run of equal adjacent elements the
first is kept. -/
def unique {α : Type} [DecidableEq α] : List α → List α
  | [] => []
  | x :: xs => x :: uniqueAux x xs

/-- The function `SortUnique(v)`; the result is the new content of `v`. -/
def SortUnique {α : Type} [LinearOrder α] (v : List α) : List α := unique (sort v)

namespace impl

/-- The specialisation `Less<true, T, C>`: `p_` is a pointer to a field of `C`. -/
structure LessField (T C : Type) where
  p_ : C → T

/-- The specialisation `Less<false, T, C>`: `p_` is a pointer to a const method of
`C` without arguments. -/
structure LessMethod (T C : Type) where
  p_ : C → Unit → T

/-- The operator `Less<true, T, C>::operator()(C const &, C const &)`. -/
def LessField.call {T C : Type} [LT T] [DecidableRel (α := T) (· < ·)]
    (l : LessField T C) (lhs rhs : C) : Bool :=
  decide (l.p_ lhs < l.p_ rhs)

/-- The operator `Less<true, T, C>::operator()(C const *, C const *)`; a pointer is
an address in the memory `mem`. -/
def LessField.callPtr {T C : Type} [LT T] [DecidableRel (α := T) (· < ·)]
    (l : LessField T C) (mem : Nat → C) (lhs rhs : Nat) : Bool :=
  decide (l.p_ (mem lhs) < l.p_ (mem rhs))

/-- The operator `Less<false, T, C>::operator()(C const &, C const &)`. -/
def LessMethod.call {T C : Type} [LT T] [DecidableRel (α := T) (· < ·)]
    (l : LessMethod T C) (lhs rhs : C) : Bool :=
  decide (l.p_ lhs () < l.p_ rhs ())

/-- The operator `Less<false, T, C>::operator()(C const *, C const *)`. -/
def LessMethod.callPtr {T C : Type} [LT T] [DecidableRel (α := T) (· < ·)]
    (l : LessMethod T C) (mem : Nat → C) (lhs rhs : Nat) : Bool :=
  decide (l.p_ (mem lhs) () < l.p_ (mem rhs) ())

end impl

/-- The overload `LessBy(T(C::*p))`, for a field. -/
def LessBy {T C : Type} (p : C → T) : impl.LessField T C := ⟨p⟩

/-- The overload `LessBy(T (C::*p)() const)`, for a const method. -/
def LessByMethod {T C : Type} (p : C → Unit → T) : impl.LessMethod T C := ⟨p⟩

/-- The loop of `std::remove_if` of the standard library on the buffer `buf` of
the vector: `k` elements are left to read, `i` is the read position and `w` the
write position; an element for which `fn` is false is written at `w`. The result
is the buffer and the position that `remove_if` returns. -/
def removeIfLoop {T : Type} (fn : T → Bool) : Nat → Nat → Nat → List T → List T × Nat
  | 0, _, w, buf => (buf, w)
  | k + 1, i, w, buf =>
    match buf[i]? with
    | none => (buf, w)
    | some x =>
      if fn x then removeIfLoop fn k (i + 1) w buf
      else removeIfLoop fn k (i + 1) (w + 1) (buf.set w x)

/-- The call `remove_if(v.begin(), v.end(), fn)`. -/
def remove_if {T : Type} (fn : T → Bool) (v : List T) : List T × Nat :=
  removeIfLoop fn v.length 0 0 v

/-- The function `EraseIf(v, fn)`: the elements from the position returned by
`remove_if` to the end are erased; the result is the new content of `v`. -/
def EraseIf {T : Type} (v : List T) (fn : T → Bool) : List T :=
  (remove_if fn v).1.take (remove_if fn v).2

namespace impl

/-- The specialisation `Equals<true, T, C>`: `p_` is a pointer to a field of `C`. -/
structure EqualsField (T C : Type) where
  p_ : C → T

/-- The specialisation `Equals<false, T, C>`: `p_` is a pointer to a const method
of `C` without arguments. -/
structure EqualsMethod (T C : Type) where
  p_ : C → Unit → T

/-- The operator `Equals<true, T, C>::operator()(C const &, C const &)`. -/
def EqualsField.call {T C : Type} [BEq T] (e : EqualsField T C) (lhs rhs : C) : Bool :=
  e.p_ lhs == e.p_ rhs

/-- The operator `Equals<true, T, C>::operator()(C const *, C const *)`; a pointer
is an address in the memory `mem`. -/
def EqualsField.callPtr {T C : Type} [BEq T] (e : EqualsField T C) (mem : Nat → C)
    (lhs rhs : Nat) : Bool :=
  e.p_ (mem lhs) == e.p_ (mem rhs)

/-- The operator `Equals<false, T, C>::operator()(C const &, C const &)`. -/
def EqualsMethod.call {T C : Type} [BEq T] (e : EqualsMethod T C) (lhs rhs : C) : Bool :=
  e.p_ lhs () == e.p_ rhs ()

/-- The operator `Equals<false, T, C>::operator()(C const *, C const *)`. -/
def EqualsMethod.callPtr {T C : Type} [BEq T] (e : EqualsMethod T C) (mem : Nat → C)
    (lhs rhs : Nat) : Bool :=
  e.p_ (mem lhs) () == e.p_ (mem rhs) ()

end impl

/-- The overload `EqualsBy(T(C::*p))`, for a field. -/
def EqualsBy {T C : Type} (p : C → T) : impl.EqualsField T C := ⟨p⟩

/-- The overload `EqualsBy(T (C::*p)() const)`, for a const method. -/
def EqualsByMethod {T C : Type} (p : C → Unit → T) : impl.EqualsMethod T C := ⟨p⟩

end my

/-! ## The place processor -/

namespace base

/-- Modelled from the spec: the origin kind of a source identifier, `base::GeoObjectId::Type`
of `base/geo_object_id.hpp`, which is not part of the sources. -/
inductive OriginKind where
  | Node
  | Way
  | Relation
deriving DecidableEq, Repr

/-- Modelled from the spec: the ordinal of an origin kind. -/
def OriginKind.ordinal : OriginKind → Nat
  | Node => 0
  | Way => 1
  | Relation => 2

/-- Modelled from the spec: the source identifier `base::GeoObjectId`
(`base/geo_object_id.hpp` is not part of the sources): a number tagged with its
origin kind. -/
structure GeoObjectId where
  kind : OriginKind
  serial : Nat
deriving DecidableEq, Repr

end base

namespace feature

/-- Modelled from the spec: the geometry class of a raw feature, `feature::GeomType`. -/
inductive GeomType where
  | Point
  | Line
  | Area
deriving DecidableEq, Repr

/-- Modelled from the spec: the raw feature `feature::FeatureBuilder`
(`generator/feature_builder.hpp` is not part of the sources), with the parts that
the place processor reads: geometry class and bounding rectangle, classification,
primary name, rank and source identifier. -/
structure FeatureBuilder (K : Type) where
  geomType : GeomType
  limitRect : m2.Rect K
  types : List Nat
  name : String
  rank : Nat
  id : base.GeoObjectId
deriving DecidableEq, Repr

end feature

namespace generator

/-- Modelled from the spec: the class `FeaturePlace`, whose methods are defined in
`generator/place_processor.cpp`, which is not part of the sources. The members are
those of the declaration in `place_processor.hpp`. -/
structure FeaturePlace (K : Type) where
  m_limitRect : m2.Rect K
  m_fbs : List (feature.FeatureBuilder K)
  m_bestIndex : Nat
deriving DecidableEq, Repr

namespace FeaturePlace

variable {K : Type}

/-- Modelled from the spec: the selection rule of section 4.3, `a` is a better
canonical member than `b`: a point is preferred over a line or area; in the same
geometry class the higher rank wins; ties go to the lowest identifier number, then
to the lowest origin-kind ordinal. -/
def isBetter (a b : feature.FeatureBuilder K) : Bool :=
  if (a.geomType == .Point) != (b.geomType == .Point) then a.geomType == .Point
  else if a.rank != b.rank then decide (b.rank < a.rank)
  else if a.id.serial != b.id.serial then decide (a.id.serial < b.id.serial)
  else decide (a.id.kind.ordinal < b.id.kind.ordinal)

/-- Modelled from the spec: a new place aggregate containing just one feature. -/
def create (fb : feature.FeatureBuilder K) : FeaturePlace K :=
  { m_limitRect := fb.limitRect, m_fbs := [fb], m_bestIndex := 0 }

/-- Modelled from the spec: `FeaturePlace::GetFb`, the current best member. -/
def GetFb (p : FeaturePlace K) : Option (feature.FeatureBuilder K) := p.m_fbs[p.m_bestIndex]?

/-- Modelled from the spec: `FeaturePlace::GetFbs`. -/
def GetFbs (p : FeaturePlace K) : List (feature.FeatureBuilder K) := p.m_fbs

/-- Modelled from the spec: `FeaturePlace::GetLimitRect`. -/
def GetLimitRect (p : FeaturePlace K) : m2.Rect K := p.m_limitRect

/-- Modelled from the spec: `FeaturePlace::Append`: the feature joins the member
list, the bounding rectangle becomes the union, and the new member becomes the best
one when it is better than the current best. -/
def Append [LinearOrder K] (p : FeaturePlace K) (fb : feature.FeatureBuilder K) :
    FeaturePlace K :=
  { m_limitRect := p.m_limitRect.Add fb.limitRect
    m_fbs := p.m_fbs ++ [fb]
    m_bestIndex :=
      match p.GetFb with
      | some best => if isBetter fb best then p.m_fbs.length else p.m_bestIndex
      | none => p.m_fbs.length }

/-- Modelled from the spec: `FeaturePlace::IsPoint`, the best member is a point. -/
def IsPoint (p : FeaturePlace K) : Bool :=
  match p.GetFb with
  | some best => best.geomType == .Point
  | none => false

/-- Modelled from the spec: the order of source identifiers in the selection rule of
section 4.3: the lower number first, then the lower origin-kind ordinal. -/
def idLess (a b : base.GeoObjectId) : Bool :=
  if a.serial != b.serial then decide (a.serial < b.serial)
  else decide (a.kind.ordinal < b.kind.ordinal)

/-- Modelled from the spec: `FeaturePlace::GetMostGenericOsmId`, the smallest source
identifier across all members; an aggregate without members has none. -/
def GetMostGenericOsmId (p : FeaturePlace K) : Option base.GeoObjectId :=
  match p.m_fbs with
  | [] => none
  | fb :: rest => some (rest.foldl (fun best f => if idLess f.id best then f.id else best) fb.id)

/-- The aggregate that holds the features of a list, appended in the order of the
list; there is none for the empty list. -/
def ofList [LinearOrder K] : List (feature.FeatureBuilder K) → Option (FeaturePlace K)
  | [] => none
  | fb :: rest => some (rest.foldl Append (create fb))

/-- No two different features of the list tie under the selection rule. -/
def NoTies (l : List (feature.FeatureBuilder K)) : Prop :=
  ∀ a ∈ l, ∀ b ∈ l, a ≠ b → isBetter a b = true ∨ isBetter b a = true

/-- A relation named A, an area of rank 9. -/
def areaOfRelation : feature.FeatureBuilder Int :=
  ⟨.Area, ⟨0, 0, 50, 50⟩, [1], "A", 9, ⟨.Relation, 2⟩⟩

/-- A node named A, a point of rank 5. -/
def pointOfNode : feature.FeatureBuilder Int :=
  ⟨.Point, ⟨10, 10, 10, 10⟩, [1], "A", 5, ⟨.Node, 1⟩⟩

end FeaturePlace

/-- Modelled from the spec: the collaborators of the place processor, which are
outside the sources and stay parameters: the filter `NeedProcessPlace`, the
grouping key `GetKey`, the link radius and the equivalence given to the cluster
finder, the conversion from metres and the spatial index built over a vector of
places. -/
structure PlaceEnv (K : Type) where
  NeedProcessPlace : feature.FeatureBuilder K → Bool
  GetKey : feature.FeatureBuilder K → String
  linkRadius : FeaturePlace K → K
  sameEntity : FeaturePlace K → FeaturePlace K → Bool
  RectByCenterXYAndSizeInMeters : m2.Point K → K → m2.Rect K
  index : (places : List (FeaturePlace K)) → m2.Rect K → List (Fin places.length)

/-- Modelled from the spec: the class `PlaceProcessor`, whose methods are defined
in `generator/place_processor.cpp`, which is not part of the sources. The map
`m_nameToPlaces` is an association list in insertion order; the boundary table,
which no output depends on, is left out. -/
structure PlaceProcessor (K : Type) where
  m_nameToPlaces : List (String × List (base.GeoObjectId × FeaturePlace K))

namespace PlaceProcessor

variable {K : Type}

/-- The type `PlaceWithIds`: a canonical feature and its contributing identifiers. -/
abbrev PlaceWithIds (K : Type) : Type := feature.FeatureBuilder K × List base.GeoObjectId

/-- Modelled from the spec: the lookup by source identifier inside one bucket of
`add`: the feature is appended to the aggregate of its identifier, or starts a new
aggregate. -/
def addToBucket [LinearOrder K] (fb : feature.FeatureBuilder K) :
    List (base.GeoObjectId × FeaturePlace K) → List (base.GeoObjectId × FeaturePlace K)
  | [] => [(fb.id, FeaturePlace.create fb)]
  | (i, p) :: rest =>
    if i = fb.id then (i, p.Append fb) :: rest else (i, p) :: addToBucket fb rest

/-- Modelled from the spec: the lookup of the bucket of a grouping key in `add`. -/
def addToMap [LinearOrder K] (key : String) (fb : feature.FeatureBuilder K) :
    List (String × List (base.GeoObjectId × FeaturePlace K)) →
    List (String × List (base.GeoObjectId × FeaturePlace K))
  | [] => [(key, [(fb.id, FeaturePlace.create fb)])]
  | (k, b) :: rest =>
    if k = key then (k, addToBucket fb b) :: rest else (k, b) :: addToMap key fb rest

/-- Modelled from the spec: `PlaceProcessor::Add`: a feature that is not a place
candidate is ignored; a candidate goes to the bucket of its grouping key. -/
def Add [LinearOrder K] (env : PlaceEnv K) (st : PlaceProcessor K)
    (fb : feature.FeatureBuilder K) : PlaceProcessor K :=
  if env.NeedProcessPlace fb then
    { m_nameToPlaces := addToMap (env.GetKey fb) fb st.m_nameToPlaces }
  else st

/-- Modelled from the spec: the cluster finder that `processPlaces` runs over the
place aggregates of one bucket, held in a vector. -/
def MakePlaceClustersFinder (env : PlaceEnv K) (places : List (FeaturePlace K)) :
    ClustersFinder (FeaturePlace K) K :=
  { m_container := places
    m_distanseFunc := env.linkRadius
    m_isSameFunc := env.sameEntity
    GetLimitRect := FeaturePlace.GetLimitRect
    RectByCenterXYAndSizeInMeters := env.RectByCenterXYAndSizeInMeters
    ForEachInRect := env.index places
    addr := fun i => i.val }

/-- Modelled from the spec: the treatment of one cluster in `processPlaces`: the
raw features of all members are merged into one aggregate, whose best member is the
canonical feature, and the source identifiers are collected from the members, one
for each member aggregate, as `GetMostGenericOsmId` gives it (`Add` puts only
features of one source identifier into an aggregate, and makes no aggregate without
a feature). -/
def processCluster [LinearOrder K] (cluster : List (FeaturePlace K)) :
    Option (PlaceWithIds K) :=
  match cluster.flatMap FeaturePlace.GetFbs with
  | [] => none
  | fb :: rest =>
    match (rest.foldl FeaturePlace.Append (FeaturePlace.create fb)).GetFb with
    | none => none
    | some best => some (best, cluster.filterMap FeaturePlace.GetMostGenericOsmId)

/-- Modelled from the spec: the pairs emitted for the clusters of one bucket. -/
def processClusters [LinearOrder K] :
    List (List (FeaturePlace K)) → Option (List (PlaceWithIds K))
  | [] => some []
  | c :: cs =>
    match processCluster c, processClusters cs with
    | some o, some os => some (o :: os)
    | _, _ => none

/-- Modelled from the spec: the first internal check of section 7: the cluster,
found in the bucket of the grouping key `key`, holds no raw feature of another
grouping key. -/
def clusterInKey (env : PlaceEnv K) (key : String) (cluster : List (FeaturePlace K)) : Bool :=
  (cluster.flatMap FeaturePlace.GetFbs).all (fun f => env.GetKey f == key)

/-- Modelled from the spec: the second internal check of section 7: no identifier
is listed by two different clusters' outputs. -/
def noSharedId : List (List base.GeoObjectId) → Bool
  | [] => true
  | ids :: rest => rest.all (fun js => ids.all (fun i => !js.contains i)) && noSharedId rest

/-- Modelled from the spec: the loop of `processPlaces` over the buckets of the
grouping keys, each clustered on its own; a cluster that spans two grouping keys
aborts the run, which is the result `none`. -/
def processBuckets [LinearOrder K] (env : PlaceEnv K) :
    List (String × List (base.GeoObjectId × FeaturePlace K)) → Option (List (PlaceWithIds K))
  | [] => some []
  | (k, b) :: rest =>
    match (MakePlaceClustersFinder env (b.map Prod.snd)).FindValues with
    | none => none
    | some clusters =>
      if clusters.all (clusterInKey env k) then
        match processClusters clusters, processBuckets env rest with
        | some o, some os => some (o ++ os)
        | _, _ => none
      else none

/-- Modelled from the spec: `PlaceProcessor::ProcessPlaces`. The internal checks of
section 7 fail fast: when a cluster spans two grouping keys or an identifier is
listed by two different clusters' outputs, the run aborts, which is the result
`none`. -/
def ProcessPlaces [LinearOrder K] (env : PlaceEnv K) (st : PlaceProcessor K) :
    Option (List (PlaceWithIds K)) :=
  match processBuckets env st.m_nameToPlaces with
  | none => none
  | some out => if noSharedId (out.map Prod.snd) then some out else none

/-- The processor after a sequence of `Add` calls on a fresh instance. -/
def afterAdds [LinearOrder K] (env : PlaceEnv K) (fbs : List (feature.FeatureBuilder K)) :
    PlaceProcessor K :=
  fbs.foldl (Add env) { m_nameToPlaces := [] }

/-- An environment for the examples: a feature is a place when its classification
is not empty, the key is the name, every link radius is 100, all places of a bucket
are the same entity, and the index is exact. -/
def demoEnv : PlaceEnv Int :=
  { NeedProcessPlace := fun fb => !fb.types.isEmpty
    GetKey := fun fb => fb.name
    linkRadius := fun _ => 100
    sameEntity := fun _ _ => true
    RectByCenterXYAndSizeInMeters := ClustersFinder.squareAround
    index := fun places => ClustersFinder.scanIndex places FeaturePlace.GetLimitRect }

/-- The raw features stored in one bucket. -/
def bucketFbs (b : List (base.GeoObjectId × FeaturePlace K)) : List (feature.FeatureBuilder K) :=
  b.flatMap (fun ip => ip.2.m_fbs)

/-- The raw features stored in the processor. -/
def mapFbs (m : List (String × List (base.GeoObjectId × FeaturePlace K))) :
    List (feature.FeatureBuilder K) :=
  m.flatMap (fun kb => bucketFbs kb.2)

/-- Every place aggregate of the processor holds a raw feature. -/
def NonEmptyPlaces (m : List (String × List (base.GeoObjectId × FeaturePlace K))) : Prop :=
  ∀ kb ∈ m, ∀ ip ∈ kb.2, ip.2.m_fbs ≠ []

/-- The source identifiers under which the processor holds a place aggregate, bucket
by bucket. -/
def mapIds (m : List (String × List (base.GeoObjectId × FeaturePlace K))) :
    List base.GeoObjectId :=
  m.flatMap (fun kb => kb.2.map Prod.fst)

/-- The state of a bucket of the grouping key `key`: the source identifiers of its
place aggregates are pairwise different, and every aggregate holds a raw feature and
only raw features of its identifier and of the grouping key. -/
def BucketInv (env : PlaceEnv K) (key : String) (b : List (base.GeoObjectId × FeaturePlace K)) :
    Prop :=
  (b.map Prod.fst).Nodup ∧
  ∀ ip ∈ b, ip.2.m_fbs ≠ [] ∧ ∀ f ∈ ip.2.m_fbs, f.id = ip.1 ∧ env.GetKey f = key

/-- The state of the processor: the grouping keys of the buckets are pairwise
different and every bucket is in the state `BucketInv` of its key. -/
def MapInv (env : PlaceEnv K) (m : List (String × List (base.GeoObjectId × FeaturePlace K))) :
    Prop :=
  (m.map Prod.fst).Nodup ∧ ∀ kb ∈ m, BucketInv env kb.1 kb.2

/-- A feature without classification, which `demoEnv` does not accept. -/
def unclassified : feature.FeatureBuilder Int :=
  ⟨.Point, ⟨0, 0, 0, 0⟩, [], "A", 5, ⟨.Node, 9⟩⟩

/-- The first part of a relation named A, an area. -/
def relationPartOne : feature.FeatureBuilder Int :=
  ⟨.Area, ⟨0, 0, 50, 50⟩, [1], "A", 5, ⟨.Relation, 2⟩⟩

/-- The second part of the same relation, with the same source identifier. -/
def relationPartTwo : feature.FeatureBuilder Int :=
  ⟨.Area, ⟨60, 0, 70, 50⟩, [1], "A", 5, ⟨.Relation, 2⟩⟩

/-- A node named A. -/
def nodeNamedA : feature.FeatureBuilder Int :=
  ⟨.Point, ⟨10, 10, 10, 10⟩, [1], "A", 5, ⟨.Node, 1⟩⟩

/-- A feature with the identifier of `nodeNamedA` and the name B. -/
def nodeNamedB : feature.FeatureBuilder Int :=
  ⟨.Point, ⟨10, 10, 10, 10⟩, [1], "B", 5, ⟨.Node, 1⟩⟩

end PlaceProcessor

end generator

/-! ## Lemmas on the breadth-first expansion -/

namespace generator

namespace ClustersFinder

variable {T K : Type}

/-- The loop of `GetBboxFor` over the corners, with an accumulator that starts
empty (`none`), ends with the rectangle that `GetBboxFor` is defined as. -/
theorem GetBboxFor_corners [LinearOrder K] (F : ClustersFinder T K) (it : F.ConstIterator) :
    (F.GetLimitRect (F.deref it)).ForEachCorner.foldl
      (fun (bbox : Option (m2.Rect K)) p =>
        match bbox with
        | none => some (F.RectByCenterXYAndSizeInMeters p (F.m_distanseFunc (F.deref it)))
        | some b =>
          some (b.Add (F.RectByCenterXYAndSizeInMeters p (F.m_distanseFunc (F.deref it)))))
      none = some (F.GetBboxFor it) :=
  rfl

theorem visit_cases (F : ClustersFinder T K) (cur : F.ConstIterator)
    (st : BfsState F.m_container.length) (c : F.ConstIterator) :
    F.visit cur st c = st ∨
    (cur ≠ c ∧ c ∈ st.unviewed ∧ F.m_isSameFunc (F.deref cur) (F.deref c) = true ∧
      F.visit cur st c =
        { unviewed := st.unviewed.erase c, queue := st.queue ++ [c],
          cluster := st.cluster ++ [c], expanded := st.expanded }) := by
  unfold visit
  by_cases h : (cur == c || st.unviewed.count c == 0 ||
      !F.m_isSameFunc (F.deref cur) (F.deref c)) = true
  · left; rw [if_pos h]
  · right
    rw [if_neg h]
    simp only [Bool.or_eq_true, beq_iff_eq, Bool.not_eq_true', not_or, Bool.not_eq_false,
      List.count_eq_zero, not_not] at h
    exact ⟨h.1.1, h.1.2, h.2, rfl⟩

theorem foldl_visit_preserves (F : ClustersFinder T K) (cur : F.ConstIterator)
    (Q : BfsState F.m_container.length → Prop) (L : List F.ConstIterator)
    (h : ∀ s c, c ∈ L → Q s → Q (F.visit cur s c)) (st : BfsState F.m_container.length)
    (hst : Q st) : Q (L.foldl (F.visit cur) st) := by
  induction L generalizing st with
  | nil => exact hst
  | cons c L ih =>
    rw [List.foldl_cons]
    exact ih (fun s d hd hs => h s d (List.mem_cons_of_mem _ hd) hs) _
      (h st c (List.mem_cons_self _ _) hst)

theorem visit_measure (F : ClustersFinder T K) (cur : F.ConstIterator)
    (st : BfsState F.m_container.length) (c : F.ConstIterator) :
    bfsMeasure (F.visit cur st c) = bfsMeasure st := by
  rcases F.visit_cases cur st c with h | ⟨_, hc, _, h⟩
  · rw [h]
  · rw [h]
    have hpos : 0 < st.unviewed.length := List.length_pos_of_mem hc
    simp only [bfsMeasure, List.length_append, List.length_singleton,
      List.length_erase_of_mem hc]
    omega

theorem expand_measure [LinearOrder K] (F : ClustersFinder T K) (cur : F.ConstIterator)
    (rest : List F.ConstIterator) (st : BfsState F.m_container.length)
    (hq : st.queue = cur :: rest) :
    bfsMeasure (F.expand cur rest st) + 1 = bfsMeasure st := by
  unfold expand
  have := F.foldl_visit_preserves cur
    (fun s => bfsMeasure s + 1 = bfsMeasure st) (F.ForEachInRect (F.GetBboxFor cur))
    (fun s c _ hs => by
      show bfsMeasure (F.visit cur s c) + 1 = bfsMeasure st
      rw [visit_measure]; exact hs)
    { st with queue := rest, expanded := st.expanded ++ [cur] }
    (by simp [bfsMeasure, hq]; omega)
  exact this

theorem bfsLoop_terminates [LinearOrder K] (F : ClustersFinder T K) (fuel : Nat)
    (st : BfsState F.m_container.length) (h : bfsMeasure st ≤ fuel) :
    ∃ st', F.bfsLoop fuel st = some st' := by
  induction fuel generalizing st with
  | zero =>
    have hq : st.queue = [] := by
      have : st.queue.length = 0 := by simp only [bfsMeasure] at h; omega
      exact List.length_eq_zero.mp this
    exact ⟨st, by unfold bfsLoop; rw [hq]⟩
  | succ fuel ih =>
    unfold bfsLoop
    cases hq : st.queue with
    | nil => exact ⟨st, rfl⟩
    | cons cur rest =>
      have := F.expand_measure cur rest st hq
      exact ih _ (by omega)

theorem bfsLoop_mono [LinearOrder K] (F : ClustersFinder T K) (fuel k : Nat)
    (st st' : BfsState F.m_container.length) (h : F.bfsLoop fuel st = some st') :
    F.bfsLoop (fuel + k) st = some st' := by
  induction fuel generalizing st with
  | zero =>
    unfold bfsLoop at h ⊢
    cases hq : st.queue with
    | nil => rw [hq] at h; simpa using h
    | cons cur rest => rw [hq] at h; simp at h
  | succ fuel ih =>
    unfold bfsLoop at h ⊢
    cases hq : st.queue with
    | nil => rw [hq] at h; simpa using h
    | cons cur rest =>
      rw [hq] at h
      simp only at h
      have : fuel + 1 + k = (fuel + k) + 1 := by omega
      rw [this]
      exact ih _ h

theorem bfsLoop_induct [LinearOrder K] (F : ClustersFinder T K)
    (Q : BfsState F.m_container.length → Prop)
    (hstep : ∀ cur rest st, st.queue = cur :: rest → Q st → Q (F.expand cur rest st))
    (fuel : Nat) (st st' : BfsState F.m_container.length) (hst : Q st)
    (h : F.bfsLoop fuel st = some st') : Q st' ∧ st'.queue = [] := by
  induction fuel generalizing st with
  | zero =>
    unfold bfsLoop at h
    cases hq : st.queue with
    | nil =>
      rw [hq] at h
      simp only [Option.some.injEq] at h
      subst h
      exact ⟨hst, hq⟩
    | cons cur rest => rw [hq] at h; simp at h
  | succ fuel ih =>
    unfold bfsLoop at h
    cases hq : st.queue with
    | nil =>
      rw [hq] at h
      simp only [Option.some.injEq] at h
      subst h
      exact ⟨hst, hq⟩
    | cons cur rest =>
      rw [hq] at h
      exact ih _ (hstep cur rest st hq hst) h

theorem visit_unviewed_sublist (F : ClustersFinder T K) (cur : F.ConstIterator)
    (st : BfsState F.m_container.length) (c : F.ConstIterator) :
    (F.visit cur st c).unviewed.Sublist st.unviewed := by
  rcases F.visit_cases cur st c with h | ⟨_, _, _, h⟩
  · rw [h]
  · rw [h]; exact List.erase_sublist _ _

theorem foldl_visit_unviewed_sublist (F : ClustersFinder T K) (cur : F.ConstIterator)
    (L : List F.ConstIterator) (st : BfsState F.m_container.length) :
    (L.foldl (F.visit cur) st).unviewed.Sublist st.unviewed :=
  F.foldl_visit_preserves cur (fun s => s.unviewed.Sublist st.unviewed) L
    (fun s c _ hs => (F.visit_unviewed_sublist cur s c).trans hs) st (List.Sublist.refl _)

theorem foldl_visit_expanded (F : ClustersFinder T K) (cur : F.ConstIterator)
    (L : List F.ConstIterator) (st : BfsState F.m_container.length) :
    (L.foldl (F.visit cur) st).expanded = st.expanded :=
  F.foldl_visit_preserves cur (fun s => s.expanded = st.expanded) L
    (fun s c _ hs => by
      show (F.visit cur s c).expanded = st.expanded
      rcases F.visit_cases cur s c with h | ⟨_, _, _, h⟩ <;> rw [h] <;> exact hs) st rfl

/-- Every enumerated candidate that passes the test of the lambda has left
`unviewed` when the enumeration is over. -/
theorem foldl_visit_removes (F : ClustersFinder T K) (cur : F.ConstIterator)
    (L : List F.ConstIterator) (st : BfsState F.m_container.length)
    (hnd : st.unviewed.Nodup) (b : F.ConstIterator) (hb : b ∈ L) (hne : cur ≠ b)
    (hsame : F.m_isSameFunc (F.deref cur) (F.deref b) = true) :
    b ∉ (L.foldl (F.visit cur) st).unviewed := by
  induction L generalizing st with
  | nil => cases hb
  | cons c L ih =>
    rw [List.foldl_cons]
    have hnd' : (F.visit cur st c).unviewed.Nodup :=
      (F.visit_unviewed_sublist cur st c).nodup hnd
    rcases List.mem_cons.mp hb with hbc | hbL
    · subst hbc
      intro hmem
      have hmem' := (F.foldl_visit_unviewed_sublist cur L (F.visit cur st b)).subset hmem
      rcases F.visit_cases cur st b with h | ⟨_, _, _, h⟩
      · have hv : F.visit cur st b = st := h
        unfold visit at h
        by_cases hcond : (cur == b || st.unviewed.count b == 0 ||
            !F.m_isSameFunc (F.deref cur) (F.deref b)) = true
        · simp only [Bool.or_eq_true, beq_iff_eq, Bool.not_eq_true', List.count_eq_zero] at hcond
          rcases hcond with (h1 | h2) | h3
          · exact hne h1
          · rw [hv] at hmem'; exact h2 hmem'
          · rw [hsame] at h3; cases h3
        · rw [if_neg hcond] at h
          have : (st.unviewed.erase b).length = st.unviewed.length := by
            have := congrArg (fun s => s.unviewed.length) h
            simpa using this
          rw [hv] at hmem'
          rw [List.length_erase_of_mem hmem'] at this
          have := List.length_pos_of_mem hmem'
          omega
      · rw [h] at hmem'
        exact hnd.not_mem_erase hmem'
    · exact ih _ hnd' hbL

theorem visit_cluster_mono (F : ClustersFinder T K) (cur : F.ConstIterator)
    (st : BfsState F.m_container.length) (c x : F.ConstIterator) (hx : x ∈ st.cluster) :
    x ∈ (F.visit cur st c).cluster := by
  rcases F.visit_cases cur st c with h | ⟨_, _, _, h⟩
  · rw [h]; exact hx
  · rw [h]; exact List.mem_append_left _ hx

theorem visit_core [LinearOrder K] (F : ClustersFinder T K) (it cur : F.ConstIterator)
    (U : List F.ConstIterator) (st : BfsState F.m_container.length) (c : F.ConstIterator)
    (hc : c ∈ F.ForEachInRect (F.GetBboxFor cur)) (hcur : cur ∈ st.cluster)
    (hst : F.BfsCore it U st) : F.BfsCore it U (F.visit cur st c) := by
  rcases F.visit_cases cur st c with h | ⟨hne, hmem, hsame, h⟩
  · rw [h]; exact hst
  · rw [h]
    refine ⟨?_, ?_, ?_, ?_, ?_⟩
    · show st.cluster ++ [c] = st.expanded ++ (st.queue ++ [c])
      rw [hst.split, List.append_assoc]
    · show ((st.cluster ++ [c]) ++ st.unviewed.erase c).Perm U
      refine List.Perm.trans ?_ hst.perm
      rw [List.append_assoc]
      exact List.Perm.append_left _ (List.perm_cons_erase hmem).symm
    · obtain ⟨tl, htl⟩ := hst.head
      exact ⟨tl ++ [c], by show st.cluster ++ [c] = _; rw [htl]; rfl⟩
    · intro x hx
      have hx' : x ∈ st.cluster ++ [c] := hx
      rcases List.mem_append.mp hx' with hx1 | hx2
      · exact hst.reach x hx1
      · rw [List.mem_singleton] at hx2
        subst hx2
        exact (hst.reach cur hcur).tail ⟨hne, hc, hsame⟩
    · exact (List.erase_sublist _ _).trans hst.sub

theorem expand_inv [LinearOrder K] (F : ClustersFinder T K) (it : F.ConstIterator)
    (U : List F.ConstIterator) (hU : U.Nodup) (cur : F.ConstIterator)
    (rest : List F.ConstIterator) (st : BfsState F.m_container.length)
    (hq : st.queue = cur :: rest) (hst : F.BfsInv it U st) :
    F.BfsInv it U (F.expand cur rest st) := by
  have hcurmem : cur ∈ st.cluster := by
    rw [hst.core.split, hq]; simp
  have hnd : st.unviewed.Nodup := hst.core.sub.nodup hU
  have hcurU : cur ∉ st.unviewed := by
    intro hmem
    have hnd2 : (st.cluster ++ st.unviewed).Nodup := hst.core.perm.nodup_iff.mpr hU
    exact (List.disjoint_of_nodup_append hnd2) hcurmem hmem
  let st1 : BfsState F.m_container.length :=
    { st with queue := rest, expanded := st.expanded ++ [cur] }
  have hcore1 : F.BfsCore it U st1 :=
    ⟨by show st.cluster = (st.expanded ++ [cur]) ++ rest
        rw [hst.core.split, hq, List.append_assoc]; rfl,
      hst.core.perm, hst.core.head, hst.core.reach, hst.core.sub⟩
  have hboth := F.foldl_visit_preserves cur
    (fun s => F.BfsCore it U s ∧ cur ∈ s.cluster) (F.ForEachInRect (F.GetBboxFor cur))
    (fun s c hc hs => ⟨F.visit_core it cur U s c hc hs.2 hs.1,
      F.visit_cluster_mono cur s c cur hs.2⟩) st1 ⟨hcore1, hcurmem⟩
  refine ⟨hboth.1, ?_⟩
  intro a ha y hy
  have hexp : (F.expand cur rest st).expanded = st.expanded ++ [cur] :=
    F.foldl_visit_expanded cur _ st1
  rw [hexp] at ha
  have hy1 : y ∈ st.unviewed :=
    (F.foldl_visit_unviewed_sublist cur _ st1).subset hy
  rcases List.mem_append.mp ha with ha1 | ha2
  · exact hst.closed a ha1 y hy1
  · rw [List.mem_singleton] at ha2
    subst ha2
    intro hedge
    exact F.foldl_visit_removes a _ st1 hnd y hedge.2.1 hedge.1 hedge.2.2 hy

/-- What a call `FindOneCluster(it, U)` gives, for a duplicate-free `U` that holds
`it` and a fuel of at least the size of `U`. -/
theorem FindOneCluster_spec [LinearOrder K] (F : ClustersFinder T K) (fuel : Nat)
    (it : F.ConstIterator) (U : List F.ConstIterator) (hU : U.Nodup) (hit : it ∈ U)
    (hfuel : U.length ≤ fuel) :
    ∃ b, F.FindOneCluster fuel it U = some b ∧ b.queue = [] ∧ b.expanded = b.cluster ∧
      F.BfsInv it U b := by
  have hinit : F.BfsInv it U
      { cluster := [it], queue := [it], unviewed := U.erase it, expanded := [] } :=
    ⟨⟨rfl, (List.perm_cons_erase hit).symm, ⟨[], rfl⟩,
      fun x hx => by
        rw [List.mem_singleton.mp hx],
      List.erase_sublist _ _⟩, fun a ha => by cases ha⟩
  have hm : @bfsMeasure F.m_container.length
      { cluster := [it], queue := [it], unviewed := U.erase it, expanded := [] } ≤ fuel := by
    have := List.length_pos_of_mem hit
    simp only [bfsMeasure, List.length_singleton, List.length_erase_of_mem hit]
    omega
  obtain ⟨b, hb⟩ := F.bfsLoop_terminates fuel _ hm
  have := F.bfsLoop_induct (F.BfsInv it U) (fun cur rest st hq hst =>
    F.expand_inv it U hU cur rest st hq hst) fuel _ b hinit hb
  refine ⟨b, hb, this.2, ?_, this.1⟩
  rw [this.1.core.split, this.2, List.append_nil]

theorem findLoop_mono [LinearOrder K] (F : ClustersFinder T K) (inner fuel k j : Nat)
    (st st' : FindState F.m_container.length) (h : F.findLoop inner fuel st = some st') :
    F.findLoop (inner + j) (fuel + k) st = some st' := by
  induction fuel generalizing st with
  | zero =>
    unfold findLoop at h ⊢
    cases hq : st.unviewed with
    | nil => rw [hq] at h; simpa using h
    | cons it rest => rw [hq] at h; simp at h
  | succ fuel ih =>
    unfold findLoop at h ⊢
    cases hq : st.unviewed with
    | nil => rw [hq] at h; simpa using h
    | cons it rest =>
      rw [hq] at h
      simp only at h
      have hk : fuel + 1 + k = (fuel + k) + 1 := by omega
      rw [hk]
      simp only
      cases hb : F.FindOneCluster inner it (it :: rest) with
      | none => rw [hb] at h; simp at h
      | some b =>
        rw [hb] at h
        have hb' : F.FindOneCluster (inner + j) it (it :: rest) = some b :=
          F.bfsLoop_mono inner j _ b hb
        rw [hb']
        exact ih _ h

theorem findLoop_induct [LinearOrder K] (F : ClustersFinder T K) (inner : Nat)
    (Q : FindState F.m_container.length → Prop)
    (hstep : ∀ st it rest b, st.unviewed = it :: rest → Q st →
      F.FindOneCluster inner it (it :: rest) = some b →
      Q { clusters := st.clusters ++ [b.cluster], unviewed := b.unviewed,
          expanded := st.expanded ++ b.expanded })
    (fuel : Nat) (st st' : FindState F.m_container.length) (hst : Q st)
    (h : F.findLoop inner fuel st = some st') : Q st' ∧ st'.unviewed = [] := by
  induction fuel generalizing st with
  | zero =>
    unfold findLoop at h
    cases hq : st.unviewed with
    | nil =>
      rw [hq] at h
      simp only [Option.some.injEq] at h
      subst h
      exact ⟨hst, hq⟩
    | cons it rest => rw [hq] at h; simp at h
  | succ fuel ih =>
    unfold findLoop at h
    cases hq : st.unviewed with
    | nil =>
      rw [hq] at h
      simp only [Option.some.injEq] at h
      subst h
      exact ⟨hst, hq⟩
    | cons it rest =>
      rw [hq] at h
      simp only at h
      cases hb : F.FindOneCluster inner it (it :: rest) with
      | none => rw [hb] at h; simp at h
      | some b =>
        rw [hb] at h
        exact ih _ (hstep st it rest b hq hst hb) h

theorem find_step_inv [LinearOrder K] (F : ClustersFinder T K) (U0 : List F.ConstIterator)
    (st : FindState F.m_container.length) (it : F.ConstIterator)
    (rest : List F.ConstIterator) (b : BfsState F.m_container.length)
    (hq : st.unviewed = it :: rest) (hst : F.FindInv U0 st)
    (hexp : b.expanded = b.cluster) (hb : F.BfsInv it (it :: rest) b) :
    F.FindInv U0 { clusters := st.clusters ++ [b.cluster], unviewed := b.unviewed,
                   expanded := st.expanded ++ b.expanded } := by
  have hsubU : b.unviewed ⊆ st.unviewed := by rw [hq]; exact hb.core.sub.subset
  have hcsub : b.cluster ⊆ st.unviewed := by
    rw [hq]
    intro x hx
    exact hb.core.perm.subset (List.mem_append_left _ hx)
  refine ⟨?_, ?_, ?_, ?_, ?_, ?_⟩
  · show ((st.clusters ++ [b.cluster]).flatten ++ b.unviewed).Perm U0
    refine List.Perm.trans ?_ hst.perm
    rw [List.flatten_append, List.flatten_singleton, List.append_assoc, hq]
    exact List.Perm.append_left _ hb.core.perm
  · show st.expanded ++ b.expanded = (st.clusters ++ [b.cluster]).flatten
    rw [List.flatten_append, List.flatten_singleton, hst.expanded, hexp]
  · intro c hc
    rcases List.mem_append.mp hc with h1 | h2
    · exact hst.reach c h1
    · rw [List.mem_singleton] at h2
      subst h2
      obtain ⟨tl, htl⟩ := hb.core.head
      exact ⟨it, tl, htl, hb.core.reach⟩
  · intro c hc a ha y hy
    rcases List.mem_append.mp hc with h1 | h2
    · exact hst.closedU c h1 a ha y (hsubU hy)
    · rw [List.mem_singleton] at h2
      subst h2
      exact hb.closed a (by rw [hexp]; exact ha) y hy
  · show (st.clusters ++ [b.cluster]).Pairwise _
    rw [List.pairwise_append]
    refine ⟨hst.closedC, List.pairwise_singleton _ _, ?_⟩
    intro c hc c' hc' a ha y hy
    rw [List.mem_singleton] at hc'
    subst hc'
    exact hst.closedU c hc a ha y (hcsub hy)
  · show b.unviewed.Sublist U0
    exact (hb.core.sub.trans (by rw [← hq])).trans hst.sub

theorem findLoop_spec [LinearOrder K] (F : ClustersFinder T K) (U0 : List F.ConstIterator)
    (hU0 : U0.Nodup) (inner fuel : Nat) (st : FindState F.m_container.length)
    (hst : F.FindInv U0 st) (h1 : st.unviewed.length ≤ fuel)
    (h2 : st.unviewed.length ≤ inner) :
    ∃ st', F.findLoop inner fuel st = some st' ∧ st'.unviewed = [] ∧ F.FindInv U0 st' := by
  induction fuel generalizing st with
  | zero =>
    have hq : st.unviewed = [] := List.length_eq_zero.mp (by omega)
    exact ⟨st, by unfold findLoop; rw [hq], hq, hst⟩
  | succ fuel ih =>
    unfold findLoop
    cases hq : st.unviewed with
    | nil => exact ⟨st, rfl, hq, hst⟩
    | cons it rest =>
      simp only
      have hnd : (it :: rest).Nodup := by rw [← hq]; exact hst.sub.nodup hU0
      obtain ⟨b, hb, _, hexp, hinv⟩ := F.FindOneCluster_spec inner it (it :: rest) hnd
        (List.mem_cons_self _ _) (by rw [← hq]; exact h2)
      rw [hb]
      simp only
      have hlen : b.cluster.length + b.unviewed.length = (it :: rest).length := by
        rw [← List.length_append]; exact hinv.core.perm.length_eq
      have hpos : 0 < b.cluster.length := by
        obtain ⟨tl, htl⟩ := hinv.core.head
        rw [htl]; simp
      rw [hq] at h1 h2
      exact ih _ (F.find_step_inv U0 st it rest b hq hst hexp hinv)
        (by show b.unviewed.length ≤ fuel; omega)
        (by show b.unviewed.length ≤ inner; omega)

theorem setInsert_perm {n : Nat} (addr : Fin n → Nat) (hinj : Function.Injective addr)
    (e : Fin n) (s : List (Fin n)) (he : e ∉ s) : (setInsert addr e s).Perm (e :: s) := by
  induction s with
  | nil => exact List.Perm.refl _
  | cons y ys ih =>
    unfold setInsert
    by_cases h1 : addr e < addr y
    · rw [if_pos h1]
    · rw [if_neg h1]
      by_cases h2 : addr e = addr y
      · exact absurd (hinj h2 ▸ List.mem_cons_self _ _ : e ∈ y :: ys) he
      · rw [if_neg h2]
        exact ((ih (fun h => he (List.mem_cons_of_mem _ h))).cons y).trans (List.Perm.swap _ _ _)

theorem foldl_setInsert_perm {n : Nat} (addr : Fin n → Nat) (hinj : Function.Injective addr)
    (l acc : List (Fin n)) (hnd : (l ++ acc).Nodup) :
    (l.foldl (fun s e => setInsert addr e s) acc).Perm (l ++ acc) := by
  induction l generalizing acc with
  | nil => exact List.Perm.refl _
  | cons e l ih =>
    rw [List.foldl_cons]
    have hnd' : (e :: (l ++ acc)).Nodup := hnd
    have he : e ∉ acc := fun h => (List.nodup_cons.mp hnd').1 (List.mem_append_right _ h)
    have hp := setInsert_perm addr hinj e acc he
    have hnd2 : (l ++ setInsert addr e acc).Nodup := by
      have : (l ++ setInsert addr e acc).Perm (e :: (l ++ acc)) :=
        (List.Perm.append_left l hp).trans List.perm_middle
      exact this.nodup_iff.mpr hnd'
    exact (ih _ hnd2).trans ((List.Perm.append_left l hp).trans List.perm_middle)

theorem initUnviewed_perm (F : ClustersFinder T K) (hinj : Function.Injective F.addr) :
    F.initUnviewed.Perm (List.finRange F.m_container.length) := by
  have := foldl_setInsert_perm F.addr hinj (List.finRange F.m_container.length) []
    (by rw [List.append_nil]; exact List.nodup_finRange _)
  rw [List.append_nil] at this
  exact this

theorem initUnviewed_nodup (F : ClustersFinder T K) (hinj : Function.Injective F.addr) :
    F.initUnviewed.Nodup :=
  (F.initUnviewed_perm hinj).nodup_iff.mpr (List.nodup_finRange _)

theorem initUnviewed_length (F : ClustersFinder T K) (hinj : Function.Injective F.addr) :
    F.initUnviewed.length = F.m_container.length := by
  rw [(F.initUnviewed_perm hinj).length_eq, List.length_finRange]

/-- The run of `Find` ends for every fuel of at least the container size, with all
elements viewed and the invariant of the loop. -/
theorem FindRun_spec [LinearOrder K] (F : ClustersFinder T K)
    (hinj : Function.Injective F.addr) (k : Nat) :
    ∃ st, F.FindRun (F.m_container.length + k) = some st ∧ st.unviewed = [] ∧
      F.FindInv F.initUnviewed st := by
  have hinit : F.FindInv F.initUnviewed
      { clusters := [], unviewed := F.initUnviewed, expanded := [] } :=
    ⟨List.Perm.refl _, rfl, fun c hc => (by cases hc), fun c hc => (by cases hc),
      List.Pairwise.nil, List.Sublist.refl _⟩
  have hlen := F.initUnviewed_length hinj
  exact F.findLoop_spec F.initUnviewed (F.initUnviewed_nodup hinj) _ _ _ hinit
    (by show F.initUnviewed.length ≤ _; omega) (by show F.initUnviewed.length ≤ _; omega)

theorem edge_link [LinearOrder K] (F : ClustersFinder T K) (hs : F.IndexSound)
    (a b : F.ConstIterator) (h : F.edge a b) : F.link a b :=
  ⟨h.1, hs _ _ h.2.1, h.2.2⟩

theorem link_edge [LinearOrder K] (F : ClustersFinder T K) (hc : F.IndexComplete)
    (a b : F.ConstIterator) (h : F.link a b) : F.edge a b :=
  ⟨h.1, hc _ _ h.2.1, h.2.2⟩

/-- What `Find` returns: a list of clusters that together hold every position
once; every cluster starts with a seed from which all its members are reached
along edges; no edge leads from a cluster to a later one. -/
theorem Find_spec [LinearOrder K] (F : ClustersFinder T K)
    (hinj : Function.Injective F.addr) :
    ∃ cs, F.Find = some cs ∧ cs.flatten.Perm (List.finRange F.m_container.length) ∧
      (∀ c ∈ cs, ∃ s tl, c = s :: tl ∧ ∀ x ∈ c, Relation.ReflTransGen F.edge s x) ∧
      cs.Pairwise (fun c c' => ∀ a ∈ c, ∀ y ∈ c', ¬ F.edge a y) := by
  obtain ⟨st, hst, hu, hinv⟩ := F.FindRun_spec hinj 0
  rw [Nat.add_zero] at hst
  refine ⟨st.clusters, by unfold Find; rw [hst]; rfl, ?_, hinv.reach, hinv.closedC⟩
  have := hinv.perm
  rw [hu, List.append_nil] at this
  exact this.trans (F.initUnviewed_perm hinj)

theorem flatten_perm_nodup {n : Nat} (cs : List (List (Fin n)))
    (h : cs.flatten.Perm (List.finRange n)) : cs.flatten.Nodup :=
  h.nodup_iff.mpr (List.nodup_finRange n)

theorem flatten_perm_cover {n : Nat} (cs : List (List (Fin n)))
    (h : cs.flatten.Perm (List.finRange n)) (i : Fin n) : ∃ c ∈ cs, i ∈ c := by
  have : i ∈ cs.flatten := h.mem_iff.mpr (List.mem_finRange i)
  obtain ⟨c, hc, hi⟩ := List.mem_flatten.mp this
  exact ⟨c, hc, hi⟩

/-- In a partition, the cluster that holds a given element is unique. -/
theorem cluster_unique {n : Nat} (cs : List (List (Fin n))) (h : cs.flatten.Nodup)
    (c c' : List (Fin n)) (hc : c ∈ cs) (hc' : c' ∈ cs) (i : Fin n) (hi : i ∈ c)
    (hi' : i ∈ c') : c = c' := by
  by_contra hne
  have hd := (List.nodup_flatten.mp h).2
  have := hd.forall (fun _ _ hxy => hxy.symm) hc hc' hne
  exact this hi hi'

theorem sameCluster_symm {n : Nat} (cs : List (List (Fin n))) (a b : Fin n)
    (h : SameCluster cs a b) : SameCluster cs b a := by
  obtain ⟨c, hc, ha, hb⟩ := h
  exact ⟨c, hc, hb, ha⟩

theorem sameCluster_trans {n : Nat} (cs : List (List (Fin n))) (hnd : cs.flatten.Nodup)
    (a b d : Fin n) (h1 : SameCluster cs a b) (h2 : SameCluster cs b d) :
    SameCluster cs a d := by
  obtain ⟨c, hc, ha, hb⟩ := h1
  obtain ⟨c', hc', hb', hd⟩ := h2
  have := cluster_unique cs hnd c c' hc hc' b hb hb'
  subst this
  exact ⟨c, hc, ha, hd⟩

/-- When no edge leads from a cluster to a later one and the edges are symmetric,
a relation that implies edges in one direction or the other stays inside clusters. -/
theorem sameCluster_of_eqvGen [LinearOrder K] (F : ClustersFinder T K)
    (cs : List (List F.ConstIterator))
    (hperm : cs.flatten.Perm (List.finRange F.m_container.length))
    (hclosed : cs.Pairwise (fun c c' => ∀ a ∈ c, ∀ y ∈ c', ¬ F.edge a y))
    (R : F.ConstIterator → F.ConstIterator → Prop)
    (hR : ∀ a b, R a b → F.edge a b ∧ F.edge b a)
    (a b : F.ConstIterator) (h : Relation.EqvGen R a b) : SameCluster cs a b := by
  have hnd := flatten_perm_nodup cs hperm
  have hsym : cs.Pairwise (fun c c' => ∀ a ∈ c, ∀ y ∈ c', ¬ (F.edge a y ∧ F.edge y a)) :=
    hclosed.imp (fun {c c'} h a ha y hy hay => h a ha y hy hay.1)
  have hS : Symmetric (fun c c' : List F.ConstIterator =>
      ∀ a ∈ c, ∀ y ∈ c', ¬ (F.edge a y ∧ F.edge y a)) :=
    fun c c' h a ha y hy hay => h y hy a ha ⟨hay.2, hay.1⟩
  have hall := hsym.forall hS
  induction h with
  | rel x y hxy =>
    obtain ⟨c, hc, hx⟩ := flatten_perm_cover cs hperm x
    obtain ⟨c', hc', hy⟩ := flatten_perm_cover cs hperm y
    by_cases hcc : c = c'
    · subst hcc; exact ⟨c, hc, hx, hy⟩
    · exact absurd (hR x y hxy) (hall hc hc' hcc x hx y hy)
  | refl x =>
    obtain ⟨c, hc, hx⟩ := flatten_perm_cover cs hperm x
    exact ⟨c, hc, hx, hx⟩
  | symm x y _ ih => exact sameCluster_symm cs x y ih
  | trans x y z _ _ ih1 ih2 => exact sameCluster_trans cs hnd x y z ih1 ih2

theorem villageFinder_addr_injective (c : List Village) (same : Village → Village → Bool) :
    Function.Injective (villageFinder c same).addr :=
  fun _ _ h => Fin.ext h

theorem length_le_sum_of_nonempty {α : Type} (cs : List (List α))
    (h : ∀ c ∈ cs, 1 ≤ c.length) : cs.length ≤ (cs.map List.length).sum := by
  induction cs with
  | nil => simp
  | cons c cs ih =>
    have h1 := h c (List.mem_cons_self _ _)
    have h2 := ih (fun d hd => h d (List.mem_cons_of_mem _ hd))
    simp only [List.length_cons, List.map_cons, List.sum_cons]
    omega

theorem FindRun_fuel [LinearOrder K] (F : ClustersFinder T K)
    (hinj : Function.Injective F.addr) (k : Nat) :
    F.FindRun (F.m_container.length + k) = F.FindRun F.m_container.length := by
  obtain ⟨st, hst, _, _⟩ := F.FindRun_spec hinj 0
  rw [Nat.add_zero] at hst
  rw [hst]
  exact F.findLoop_mono _ _ k k _ st hst

/-- Claim C1. For every container, distance function, `isSame` predicate and
spatial index, `Find` returns clusters that partition the container by position:
the concatenation of the clusters is a permutation of the positions
`0, ..., n - 1`, every cluster is duplicate-free, two different clusters are
disjoint, every position lies in a cluster, and the sizes sum to `n`. -/
theorem C1_find_partitions [LinearOrder K] (F : ClustersFinder T K)
    (hinj : Function.Injective F.addr) :
    ∃ cs, F.Find = some cs ∧
      (cs.flatten.map Fin.val).Perm (List.range F.m_container.length) ∧
      (∀ c ∈ cs, c.Nodup) ∧ cs.Pairwise List.Disjoint ∧
      (∀ i : F.ConstIterator, ∃ c ∈ cs, i ∈ c) ∧
      (∀ i : F.ConstIterator, cs.flatten.count i = 1) ∧
      (cs.map List.length).sum = F.m_container.length := by
  obtain ⟨cs, hcs, hperm, _, _⟩ := F.Find_spec hinj
  have hnd := flatten_perm_nodup cs hperm
  refine ⟨cs, hcs, ?_, (List.nodup_flatten.mp hnd).1, (List.nodup_flatten.mp hnd).2,
    flatten_perm_cover cs hperm, ?_, ?_⟩
  · rw [← List.map_coe_finRange]
    exact hperm.map _
  · intro i
    exact List.count_eq_one_of_mem hnd (hperm.mem_iff.mpr (List.mem_finRange i))
  · rw [← List.length_flatten, hperm.length_eq, List.length_finRange]

/-- The theorem of claim C1 at the two places 10000 apart. -/
theorem C1_find_partitions_witness :
    ∃ cs, twoVillages.Find = some cs ∧
      (cs.flatten.map Fin.val).Perm (List.range twoVillages.m_container.length) ∧
      (∀ c ∈ cs, c.Nodup) ∧ cs.Pairwise List.Disjoint ∧
      (∀ i : twoVillages.ConstIterator, ∃ c ∈ cs, i ∈ c) ∧
      (∀ i : twoVillages.ConstIterator, cs.flatten.count i = 1) ∧
      (cs.map List.length).sum = twoVillages.m_container.length :=
  C1_find_partitions twoVillages (villageFinder_addr_injective _ _)

/-- Claim C3. `Find` terminates: with fuel `n` for each loop, and with any larger
fuel, the run ends with the same state and an empty `unviewed` set; the outer loop
has appended at most `n` clusters (one per iteration), the breadth-first loops have
dequeued at most `n` elements in total, and no element was enqueued twice (the
concatenation of the clusters, which records the enqueued elements in order, is
duplicate-free and equals the log of dequeued elements). Every call of
`FindOneCluster` on a non-empty `unviewed` set ends and leaves it strictly
smaller. -/
theorem C3_find_terminates [LinearOrder K] (F : ClustersFinder T K)
    (hinj : Function.Injective F.addr) :
    (∃ st, F.FindRun F.m_container.length = some st ∧
      (∀ k, F.FindRun (F.m_container.length + k) = some st) ∧
      st.unviewed = [] ∧ st.clusters.length ≤ F.m_container.length ∧
      st.expanded.length ≤ F.m_container.length ∧
      st.expanded = st.clusters.flatten ∧ st.clusters.flatten.Nodup) ∧
    (∀ fuel it rest, (it :: rest).Nodup → (it :: rest).length ≤ fuel →
      ∃ b, F.FindOneCluster fuel it (it :: rest) = some b ∧ b.queue = [] ∧
        b.unviewed.length < (it :: rest).length ∧ b.expanded = b.cluster ∧
        b.cluster.Nodup) := by
  constructor
  · obtain ⟨st, hst, hu, hinv⟩ := F.FindRun_spec hinj 0
    rw [Nat.add_zero] at hst
    have hperm : st.clusters.flatten.Perm (List.finRange F.m_container.length) := by
      have := hinv.perm
      rw [hu, List.append_nil] at this
      exact this.trans (F.initUnviewed_perm hinj)
    have hlen : st.clusters.flatten.length = F.m_container.length := by
      rw [hperm.length_eq, List.length_finRange]
    refine ⟨st, hst, fun k => by rw [F.FindRun_fuel hinj k, hst], hu, ?_, ?_, hinv.expanded,
      flatten_perm_nodup _ hperm⟩
    · have hle : st.clusters.length ≤ (st.clusters.map List.length).sum := by
        apply length_le_sum_of_nonempty
        intro c hc
        obtain ⟨s, tl, h, _⟩ := hinv.reach c hc
        rw [h]; simp
      rw [← List.length_flatten] at hle
      omega
    · rw [hinv.expanded]; omega
  · intro fuel it rest hnd hfuel
    obtain ⟨b, hb, hq, hexp, hinv⟩ := F.FindOneCluster_spec fuel it (it :: rest) hnd
      (List.mem_cons_self _ _) hfuel
    have hlen : b.cluster.length + b.unviewed.length = (it :: rest).length := by
      rw [← List.length_append]; exact hinv.core.perm.length_eq
    have hpos : 0 < b.cluster.length := by
      obtain ⟨tl, htl⟩ := hinv.core.head
      rw [htl]; simp
    refine ⟨b, hb, hq, by omega, hexp, ?_⟩
    exact (hinv.core.perm.nodup_iff.mpr hnd).of_append_left

/-- The theorem of claim C3 at the two places 10000 apart. -/
theorem C3_find_terminates_witness :
    (∃ st, twoVillages.FindRun twoVillages.m_container.length = some st ∧
      (∀ k, twoVillages.FindRun (twoVillages.m_container.length + k) = some st) ∧
      st.unviewed = [] ∧ st.clusters.length ≤ twoVillages.m_container.length ∧
      st.expanded.length ≤ twoVillages.m_container.length ∧
      st.expanded = st.clusters.flatten ∧ st.clusters.flatten.Nodup) ∧
    (∀ fuel it rest, (it :: rest).Nodup → (it :: rest).length ≤ fuel →
      ∃ b, twoVillages.FindOneCluster fuel it (it :: rest) = some b ∧ b.queue = [] ∧
        b.unviewed.length < (it :: rest).length ∧ b.expanded = b.cluster ∧
        b.cluster.Nodup) :=
  C3_find_terminates twoVillages (villageFinder_addr_injective _ _)

theorem reach_key [LinearOrder K] (F : ClustersFinder T K) {κ : Type} (key : T → κ)
    (hkey : ∀ a b, F.m_isSameFunc a b = true → key a = key b) (s x : F.ConstIterator)
    (h : Relation.ReflTransGen F.edge s x) : key (F.deref s) = key (F.deref x) := by
  induction h with
  | refl => rfl
  | tail _ hbc ih => exact ih.trans (hkey _ _ hbc.2.2)

/-- Claim C5. When `isSame(a, b)` implies `key(a) = key(b)`, all members of every
cluster returned by `Find` have the same key, whatever the rects, the radii and the
spatial index are. -/
theorem C5_clusters_have_one_key [LinearOrder K] (F : ClustersFinder T K)
    (hinj : Function.Injective F.addr) {κ : Type} (key : T → κ)
    (hkey : ∀ a b, F.m_isSameFunc a b = true → key a = key b) :
    ∃ cs, F.Find = some cs ∧
      ∀ c ∈ cs, ∀ a ∈ c, ∀ b ∈ c, key (F.deref a) = key (F.deref b) := by
  obtain ⟨cs, hcs, _, hreach, _⟩ := F.Find_spec hinj
  refine ⟨cs, hcs, ?_⟩
  intro c hc a ha b hb
  obtain ⟨s, tl, _, hr⟩ := hreach c hc
  exact (F.reach_key key hkey s a (hr a ha)).symm.trans (F.reach_key key hkey s b (hr b hb))

theorem eqvGen_of_reflTransGen {α : Type} {r p : α → α → Prop}
    (hrp : ∀ a b, r a b → p a b) {a b : α} (h : Relation.ReflTransGen r a b) :
    Relation.EqvGen p a b := by
  induction h with
  | refl => exact Relation.EqvGen.refl _
  | tail _ hbc ih => exact Relation.EqvGen.trans _ _ _ ih (Relation.EqvGen.rel _ _ (hrp _ _ hbc))

theorem scanIndex_mem [LinearOrder K] (c : List T) (rect : T → m2.Rect K) (q : m2.Rect K)
    (j : Fin c.length) : j ∈ scanIndex c rect q ↔ (rect (c.get j)).IsIntersect q = true := by
  unfold scanIndex
  rw [List.mem_filter]
  exact ⟨fun h => h.2, fun h => ⟨List.mem_finRange j, h⟩⟩

theorem villageFinder_sound (c : List Village) (same : Village → Village → Bool) :
    (villageFinder c same).IndexSound :=
  fun r j h => (scanIndex_mem c Village.GetLimitRect r j).mp h

theorem villageFinder_complete (c : List Village) (same : Village → Village → Bool) :
    (villageFinder c same).IndexComplete :=
  fun r j h => (scanIndex_mem c Village.GetLimitRect r j).mpr h

/-- Members of a cluster are joined by a chain of links. -/
theorem eqvGen_of_sameCluster [LinearOrder K] (F : ClustersFinder T K) (hs : F.IndexSound)
    (cs : List (List F.ConstIterator))
    (hreach : ∀ c ∈ cs, ∃ s tl, c = s :: tl ∧ ∀ x ∈ c, Relation.ReflTransGen F.edge s x)
    (a b : F.ConstIterator) (h : SameCluster cs a b) : Relation.EqvGen F.link a b := by
  obtain ⟨c, hc, ha, hb⟩ := h
  obtain ⟨s, tl, _, hr⟩ := hreach c hc
  exact Relation.EqvGen.trans _ _ _
    (Relation.EqvGen.symm _ _ (eqvGen_of_reflTransGen (F.edge_link hs) (hr a ha)))
    (eqvGen_of_reflTransGen (F.edge_link hs) (hr b hb))

/-- Claim C2. When the spatial index returns exactly the elements whose rect
intersects the query and `link` is symmetric, the clusters returned by `Find` are
the connected components of the graph of links: two elements lie in one cluster if
and only if a chain of links joins them, every element lies in a cluster, and a
cluster holds exactly the elements joined to any one of its members. -/
theorem C2_clusters_are_components [LinearOrder K] (F : ClustersFinder T K)
    (hinj : Function.Injective F.addr) (hs : F.IndexSound) (hc : F.IndexComplete)
    (hsym : ∀ a b, F.link a b → F.link b a) :
    ∃ cs, F.Find = some cs ∧
      (∀ a b, SameCluster cs a b ↔ Relation.EqvGen F.link a b) ∧
      (∀ a : F.ConstIterator, ∃ c ∈ cs, a ∈ c) ∧
      (∀ c ∈ cs, ∀ a ∈ c, ∀ b, b ∈ c ↔ Relation.EqvGen F.link a b) := by
  obtain ⟨cs, hcs, hperm, hreach, hclosed⟩ := F.Find_spec hinj
  have hback : ∀ a b, Relation.EqvGen F.link a b → SameCluster cs a b :=
    fun a b h => F.sameCluster_of_eqvGen cs hperm hclosed F.link
      (fun x y hxy => ⟨F.link_edge hc x y hxy, F.link_edge hc y x (hsym x y hxy)⟩) a b h
  refine ⟨cs, hcs, fun a b => ⟨F.eqvGen_of_sameCluster hs cs hreach a b, hback a b⟩,
    flatten_perm_cover cs hperm, ?_⟩
  intro c hcc a ha b
  constructor
  · intro hb
    exact F.eqvGen_of_sameCluster hs cs hreach a b ⟨c, hcc, ha, hb⟩
  · intro h
    obtain ⟨c', hc', ha', hb'⟩ := hback a b h
    have := cluster_unique cs (flatten_perm_nodup cs hperm) c c' hcc hc' a ha ha'
    rw [this]; exact hb'

theorem twoNeighbours_link_symm (a b : twoNeighbours.ConstIterator)
    (h : twoNeighbours.link a b) : twoNeighbours.link b a := by
  have key : ∀ a b : Fin 2, twoNeighbours.link a b → twoNeighbours.link b a := by
    unfold link
    decide
  exact key a b h

/-- The theorem of claim C2 at two places of one name within each other's radius,
whose hypotheses hold. -/
theorem C2_clusters_are_components_witness :
    Function.Injective twoNeighbours.addr ∧ twoNeighbours.IndexSound ∧
    twoNeighbours.IndexComplete ∧
    (∀ a b, twoNeighbours.link a b → twoNeighbours.link b a) ∧
    ∃ cs, twoNeighbours.Find = some cs ∧
      (∀ a b, SameCluster cs a b ↔ Relation.EqvGen twoNeighbours.link a b) ∧
      (∀ a : twoNeighbours.ConstIterator, ∃ c ∈ cs, a ∈ c) ∧
      (∀ c ∈ cs, ∀ a ∈ c, ∀ b, b ∈ c ↔ Relation.EqvGen twoNeighbours.link a b) :=
  ⟨villageFinder_addr_injective _ _, villageFinder_sound _ _, villageFinder_complete _ _,
    twoNeighbours_link_symm,
    C2_clusters_are_components twoNeighbours (villageFinder_addr_injective _ _)
      (villageFinder_sound _ _) (villageFinder_complete _ _) twoNeighbours_link_symm⟩

/-- The theorem of claim C5 with the name as key and equality of names as `isSame`. -/
theorem C5_clusters_have_one_key_witness :
    Function.Injective twoNeighbours.addr ∧
    (∀ a b, twoNeighbours.m_isSameFunc a b = true → a.name = b.name) ∧
    ∃ cs, twoNeighbours.Find = some cs ∧
      ∀ c ∈ cs, ∀ a ∈ c, ∀ b ∈ c,
        (twoNeighbours.deref a).name = (twoNeighbours.deref b).name :=
  ⟨villageFinder_addr_injective _ _, fun a b h => by simpa [twoNeighbours, villageFinder, sameName] using h,
    C5_clusters_have_one_key twoNeighbours (villageFinder_addr_injective _ _) Village.name
      (fun a b h => by simpa [twoNeighbours, villageFinder, sameName] using h)⟩

/-- A cluster whose seed has no outgoing edge is the seed alone. -/
theorem cluster_of_sink_seed [LinearOrder K] (F : ClustersFinder T K)
    (c : List F.ConstIterator) (s : F.ConstIterator) (tl : List F.ConstIterator)
    (hc : c = s :: tl) (hnd : c.Nodup)
    (hreach : ∀ x ∈ c, Relation.ReflTransGen F.edge s x) (hout : ∀ w, ¬ F.edge s w) :
    c = [s] := by
  have hall : ∀ z ∈ c, z = s := by
    intro z hz
    rcases (hreach z hz).cases_head with h | ⟨w, hw, _⟩
    · exact h.symm
    · exact absurd hw (hout w)
  subst hc
  cases tl with
  | nil => rfl
  | cons t tl =>
    have ht : t = s := hall t (by simp)
    subst ht
    simp at hnd

theorem sum_length_of_singletons {α : Type} (cs : List (List α))
    (h : ∀ c ∈ cs, c.length = 1) : (cs.map List.length).sum = cs.length := by
  induction cs with
  | nil => rfl
  | cons c cs ih =>
    simp only [List.map_cons, List.sum_cons, List.length_cons,
      h c (List.mem_cons_self _ _), ih (fun d hd => h d (List.mem_cons_of_mem _ hd))]
    omega

/-- Claim C7. When the spatial index reports no element whose rect misses the
query, every element `x` that no other element is linked with, in either
direction, is returned as the cluster `[x]`; when no two elements are linked at
all, `Find` returns `n` clusters of one element each. -/
theorem C7_unlinked_items_are_singletons [LinearOrder K] (F : ClustersFinder T K)
    (hinj : Function.Injective F.addr) (hs : F.IndexSound) :
    ∃ cs, F.Find = some cs ∧
      (∀ x, (∀ y, ¬ F.link x y ∧ ¬ F.link y x) → [x] ∈ cs) ∧
      ((∀ a b, ¬ F.link a b) →
        cs.length = F.m_container.length ∧ ∀ c ∈ cs, ∃ x, c = [x]) := by
  obtain ⟨cs, hcs, hperm, hreach, _⟩ := F.Find_spec hinj
  have hnd := flatten_perm_nodup cs hperm
  refine ⟨cs, hcs, ?_, ?_⟩
  · intro x hx
    obtain ⟨c, hc, hxc⟩ := flatten_perm_cover cs hperm x
    obtain ⟨s, tl, hst, hr⟩ := hreach c hc
    have hsx : s = x := by
      rcases (hr x hxc).cases_tail with h | ⟨z, _, hz⟩
      · exact h.symm
      · exact absurd (F.edge_link hs z x hz) (hx z).2
    subst hsx
    have := F.cluster_of_sink_seed c s tl hst ((List.nodup_flatten.mp hnd).1 c hc) hr
      (fun w hw => (hx w).1 (F.edge_link hs s w hw))
    rw [← this]; exact hc
  · intro hno
    have hsingle : ∀ c ∈ cs, ∃ x, c = [x] := by
      intro c hc
      obtain ⟨s, tl, hst, hr⟩ := hreach c hc
      exact ⟨s, F.cluster_of_sink_seed c s tl hst ((List.nodup_flatten.mp hnd).1 c hc) hr
        (fun w hw => hno s w (F.edge_link hs s w hw))⟩
    refine ⟨?_, hsingle⟩
    have h1 : (cs.map List.length).sum = cs.length :=
      sum_length_of_singletons cs (fun c hc => by
        obtain ⟨x, hx⟩ := hsingle c hc
        rw [hx]; rfl)
    rw [← h1, ← List.length_flatten, hperm.length_eq, List.length_finRange]

/-- The theorem of claim C7 at two places of one name 10000 apart with radius 500:
no two are linked and `Find` returns the two singletons. -/
theorem C7_unlinked_items_are_singletons_witness :
    Function.Injective twoVillages.addr ∧ twoVillages.IndexSound ∧
    (∀ a b, ¬ twoVillages.link a b) ∧
    twoVillages.Find = some [[⟨0, by decide⟩], [⟨1, by decide⟩]] ∧
    ∃ cs, twoVillages.Find = some cs ∧
      (∀ x, (∀ y, ¬ twoVillages.link x y ∧ ¬ twoVillages.link y x) → [x] ∈ cs) ∧
      ((∀ a b, ¬ twoVillages.link a b) →
        cs.length = twoVillages.m_container.length ∧ ∀ c ∈ cs, ∃ x, c = [x]) :=
  ⟨villageFinder_addr_injective _ _, villageFinder_sound _ _,
    (by
      have key : ∀ a b : Fin 2, ¬ twoVillages.link a b := by
        unfold link
        decide
      exact key),
    by decide,
    C7_unlinked_items_are_singletons twoVillages (villageFinder_addr_injective _ _)
      (villageFinder_sound _ _)⟩

theorem Rect.add_inside [LinearOrder K] (a a' b b' : m2.Rect K) (ha : a.Inside a')
    (hb : b.Inside b') : (a.Add b).Inside (a'.Add b') := by
  obtain ⟨a1, a2, a3, a4⟩ := ha
  obtain ⟨b1, b2, b3, b4⟩ := hb
  exact ⟨min_le_min b1 a1, min_le_min b2 a2, max_le_max b3 a3, max_le_max b4 a4⟩

theorem Rect.isIntersect_mono [LinearOrder K] (r q q' : m2.Rect K) (hq : q.Inside q')
    (h : r.IsIntersect q = true) : r.IsIntersect q' = true := by
  obtain ⟨q1, q2, q3, q4⟩ := hq
  simp only [m2.Rect.IsIntersect, Bool.not_eq_true', Bool.or_eq_false_iff,
    decide_eq_false_iff_not, not_lt] at h ⊢
  obtain ⟨⟨⟨h1, h2⟩, h3⟩, h4⟩ := h
  exact ⟨⟨⟨q1.trans h1, h2.trans q3⟩, q2.trans h3⟩, h4.trans q4⟩

theorem GetBboxFor_mono [LinearOrder K] (F : ClustersFinder T K) (d : T → K)
    (hd : ∀ x, F.m_distanseFunc x ≤ d x)
    (hmono : ∀ p d1 d2, d1 ≤ d2 →
      (F.RectByCenterXYAndSizeInMeters p d1).Inside (F.RectByCenterXYAndSizeInMeters p d2))
    (it : F.ConstIterator) :
    (F.GetBboxFor it).Inside ((F.withDistance d).GetBboxFor it) := by
  unfold GetBboxFor
  exact Rect.add_inside _ _ _ _
    (Rect.add_inside _ _ _ _
      (Rect.add_inside _ _ _ _ (hmono _ _ _ (hd _)) (hmono _ _ _ (hd _)))
      (hmono _ _ _ (hd _)))
    (hmono _ _ _ (hd _))

theorem link_mono [LinearOrder K] (F : ClustersFinder T K) (d : T → K)
    (hd : ∀ x, F.m_distanseFunc x ≤ d x)
    (hmono : ∀ p d1 d2, d1 ≤ d2 →
      (F.RectByCenterXYAndSizeInMeters p d1).Inside (F.RectByCenterXYAndSizeInMeters p d2))
    (a b : F.ConstIterator) (h : F.link a b) : (F.withDistance d).link a b :=
  ⟨h.1, Rect.isIntersect_mono _ _ _ (F.GetBboxFor_mono d hd hmono a) h.2.1, h.2.2⟩

theorem squareAround_mono (p : m2.Point Int) (d1 d2 : Int) (h : d1 ≤ d2) :
    (squareAround p d1).Inside (squareAround p d2) := by
  simp only [squareAround, m2.Rect.Inside]
  omega

/-- Claim C4, amended. For two distance functions `d ≤ d'` (and a conversion from
metres under which a larger distance gives a larger rectangle, so that every query
box under `d'` contains the one under `d`), an exact spatial index, and a `link`
relation that is symmetric under `d'`: two elements that `Find` puts in one cluster
under `d` are in one cluster under `d'`. -/
theorem C4_wider_radius_merges [LinearOrder K] (F : ClustersFinder T K) (d' : T → K)
    (hinj : Function.Injective F.addr) (hs : F.IndexSound) (hc : F.IndexComplete)
    (hd : ∀ x, F.m_distanseFunc x ≤ d' x)
    (hmono : ∀ p d1 d2, d1 ≤ d2 →
      (F.RectByCenterXYAndSizeInMeters p d1).Inside (F.RectByCenterXYAndSizeInMeters p d2))
    (hsym : ∀ a b, (F.withDistance d').link a b → (F.withDistance d').link b a) :
    ∃ cs cs', F.Find = some cs ∧ (F.withDistance d').Find = some cs' ∧
      ∀ a b, SameCluster cs a b → SameCluster cs' a b := by
  obtain ⟨cs, hcs, _, hreach, _⟩ := F.Find_spec hinj
  obtain ⟨cs', hcs', hperm', _, hclosed'⟩ := (F.withDistance d').Find_spec hinj
  refine ⟨cs, cs', hcs, hcs', ?_⟩
  intro a b hab
  have h1 := F.eqvGen_of_sameCluster hs cs hreach a b hab
  have h2 : Relation.EqvGen (F.withDistance d').link a b :=
    Relation.EqvGen.mono (F.link_mono d' hd hmono) h1
  exact (F.withDistance d').sameCluster_of_eqvGen cs' hperm' hclosed' (F.withDistance d').link
    (fun x y hxy => ⟨(F.withDistance d').link_edge hc x y hxy,
      (F.withDistance d').link_edge hc y x (hsym x y hxy)⟩) a b h2

theorem widerRadius_gt (v : Village) : v.radius < widerRadius v := by
  unfold widerRadius
  split <;> omega

/-- Claim C4 as stated fails. The four places of `fourPlaces` have one name, the
index is exact, `isSame` is symmetric, `widerRadius` is larger than the radius
everywhere and every query box grows with the distance; under the radius `Find`
returns `{0}, {1, 2, 3}`, under `widerRadius` it returns `{0, 2}, {1, 3}`:
positions 2 and 3 are together under the smaller distances and apart under the
larger ones. -/
theorem C4_counterexample :
    (∀ v, fourPlaces.m_distanseFunc v < widerRadius v) ∧
    (∀ v, fourPlaces.m_distanseFunc v ≤ widerRadius v) ∧
    (∀ p d1 d2, d1 ≤ d2 → (fourPlaces.RectByCenterXYAndSizeInMeters p d1).Inside
      (fourPlaces.RectByCenterXYAndSizeInMeters p d2)) ∧
    fourPlaces.IndexSound ∧ fourPlaces.IndexComplete ∧
    (∀ a b, fourPlaces.m_isSameFunc a b = fourPlaces.m_isSameFunc b a) ∧
    ∃ cs cs', fourPlaces.Find = some cs ∧
      (fourPlaces.withDistance widerRadius).Find = some cs' ∧
      cs.map (fun c => c.map Fin.val) = [[0], [1, 2, 3]] ∧
      cs'.map (fun c => c.map Fin.val) = [[0, 2], [1, 3]] ∧
      SameCluster cs ⟨2, by decide⟩ ⟨3, by decide⟩ ∧
      ¬ SameCluster cs' ⟨2, by decide⟩ ⟨3, by decide⟩ := by
  refine ⟨widerRadius_gt, fun v => le_of_lt (widerRadius_gt v), squareAround_mono,
    villageFinder_sound _ _,
    villageFinder_complete _ _, ?_, ?_⟩
  · intro a b
    show sameName a b = sameName b a
    unfold sameName
    exact Bool.beq_comm
  · refine ⟨[[⟨0, by decide⟩], [⟨1, by decide⟩, ⟨2, by decide⟩, ⟨3, by decide⟩]],
      [[⟨0, by decide⟩, ⟨2, by decide⟩], [⟨1, by decide⟩, ⟨3, by decide⟩]],
      by decide, by decide, by decide, by decide, ?_, ?_⟩
    · unfold SameCluster; decide
    · unfold SameCluster; decide

/-- The amended theorem of claim C4 at two places within each other's radius, with
every radius raised by one. -/
theorem C4_wider_radius_merges_witness :
    Function.Injective twoNeighbours.addr ∧ twoNeighbours.IndexSound ∧
    twoNeighbours.IndexComplete ∧
    (∀ x, twoNeighbours.m_distanseFunc x ≤ radiusPlusOne x) ∧
    (∀ a b, (twoNeighbours.withDistance radiusPlusOne).link a b →
      (twoNeighbours.withDistance radiusPlusOne).link b a) ∧
    ∃ cs cs', twoNeighbours.Find = some cs ∧
      (twoNeighbours.withDistance radiusPlusOne).Find = some cs' ∧
      ∀ a b, SameCluster cs a b → SameCluster cs' a b :=
  have hd : ∀ x, twoNeighbours.m_distanseFunc x ≤ radiusPlusOne x := fun x => by
    show x.radius ≤ x.radius + 1
    omega
  have hsym : ∀ a b : Fin 2, (twoNeighbours.withDistance radiusPlusOne).link a b →
      (twoNeighbours.withDistance radiusPlusOne).link b a := by
    unfold link
    decide
  ⟨villageFinder_addr_injective _ _, villageFinder_sound _ _, villageFinder_complete _ _,
    hd, hsym,
    C4_wider_radius_merges twoNeighbours radiusPlusOne (villageFinder_addr_injective _ _)
      (villageFinder_sound _ _) (villageFinder_complete _ _) hd squareAround_mono hsym⟩

/-- Claim C6. With an `isSame` that is not symmetric the partition depends on the
order of the container: for two places `a` and `b` within each other's radius and
`isSame = nameLe`, which holds from `a` to `b` only, `Find` on the container
`[a, b]` returns the single cluster `{a, b}` and on the container `[b, a]` it
returns the two clusters `{b}` and `{a}`; the cluster `{a, b}` of the first run has
the members of no cluster of the second run. -/
theorem C6_partition_depends_on_order :
    ∃ (F₁ F₂ : ClustersFinder Village Int),
      F₁.m_container.Perm F₂.m_container ∧
      F₁.m_distanseFunc = F₂.m_distanseFunc ∧ F₁.m_isSameFunc = F₂.m_isSameFunc ∧
      F₁.GetLimitRect = F₂.GetLimitRect ∧
      F₁.RectByCenterXYAndSizeInMeters = F₂.RectByCenterXYAndSizeInMeters ∧
      F₁.IndexSound ∧ F₁.IndexComplete ∧ F₂.IndexSound ∧ F₂.IndexComplete ∧
      (∃ a b, F₁.m_isSameFunc a b ≠ F₁.m_isSameFunc b a) ∧
      F₁.FindValues = some [[⟨1, 0, 0, 35⟩, ⟨2, 35, 0, 35⟩]] ∧
      F₂.FindValues = some [[⟨2, 35, 0, 35⟩], [⟨1, 0, 0, 35⟩]] ∧
      ∃ cs₁ cs₂, F₁.FindValues = some cs₁ ∧ F₂.FindValues = some cs₂ ∧
        ∃ c ∈ cs₁, ∀ c' ∈ cs₂, ¬ c.Perm c' := by
  refine ⟨villageFinder [⟨1, 0, 0, 35⟩, ⟨2, 35, 0, 35⟩] nameLe,
    villageFinder [⟨2, 35, 0, 35⟩, ⟨1, 0, 0, 35⟩] nameLe,
    List.Perm.swap _ _ _, rfl, rfl, rfl, rfl,
    villageFinder_sound _ _, villageFinder_complete _ _,
    villageFinder_sound _ _, villageFinder_complete _ _,
    ⟨⟨1, 0, 0, 35⟩, ⟨2, 35, 0, 35⟩, by decide⟩, by decide, by decide,
    [[⟨1, 0, 0, 35⟩, ⟨2, 35, 0, 35⟩]], [[⟨2, 35, 0, 35⟩], [⟨1, 0, 0, 35⟩]],
    by decide, by decide, ?_⟩
  refine ⟨[⟨1, 0, 0, 35⟩, ⟨2, 35, 0, 35⟩], List.mem_singleton.mpr rfl, ?_⟩
  intro c' hc' hperm
  have hlen := hperm.length_eq
  simp only [List.mem_cons, List.mem_singleton, List.not_mem_nil, or_false] at hc'
  rcases hc' with h | h <;> rw [h] at hlen <;> simp at hlen

theorem linked_append {α : Type} (R : α → α → Prop) (c : List α) (x a : α)
    (hc : Linked R c) (ha : a ∈ c) (hR : R a x) : Linked R (c ++ [x]) := by
  intro pre b post h hpre
  rcases List.eq_nil_or_concat post with hp | ⟨post', y, hp⟩
  · subst hp
    have := List.append_inj' (show c ++ [x] = pre ++ [b] from h) rfl
    obtain ⟨h1, h2⟩ := this
    subst h1
    have hb : x = b := by simpa using h2
    subst hb
    exact ⟨a, ha, hR⟩
  · rw [hp, List.concat_eq_append] at h
    have h' : c ++ [x] = (pre ++ b :: post') ++ [y] := by
      rw [h]; simp
    have := (List.append_inj' h' rfl).1
    exact hc pre b post' this hpre

theorem visit_extra [LinearOrder K] (F : ClustersFinder T K) (it cur : F.ConstIterator)
    (U : List F.ConstIterator) (hU : U.Nodup) (st : BfsState F.m_container.length)
    (c : F.ConstIterator) (hc : c ∈ F.ForEachInRect (F.GetBboxFor cur))
    (hcur : cur ∈ st.cluster) (hst : F.BfsExtra it U st) :
    F.BfsExtra it U (F.visit cur st c) := by
  rcases F.visit_cases cur st c with h | ⟨hne, hmem, hsame, h⟩
  · rw [h]; exact hst
  · rw [h]
    have hedge : F.edge cur c := ⟨hne, hc, hsame⟩
    have hcU : c ∈ U := by
      rw [hst.filt] at hmem
      exact (List.mem_filter.mp hmem).1
    refine ⟨?_, ?_, ?_, ?_⟩
    · intro x hx
      have hx' : x ∈ st.queue ++ [c] := hx
      show x ∈ st.cluster ++ [c]
      rcases List.mem_append.mp hx' with h1 | h1
      · exact List.mem_append_left _ (hst.qsub x h1)
      · exact List.mem_append_right _ h1
    · exact linked_append F.edge st.cluster c cur hst.linked hcur hedge
    · intro x hx
      have hx' : x ∈ st.cluster ++ [c] := hx
      rcases List.mem_append.mp hx' with h1 | h1
      · exact hst.reachU x h1
      · rw [List.mem_singleton] at h1
        subst h1
        exact (hst.reachU cur hcur).tail ⟨hedge, hcU⟩
    · show st.unviewed.erase c = U.filter (fun x => decide (x ∉ st.cluster ++ [c]))
      have hnd : st.unviewed.Nodup := by
        rw [hst.filt]; exact hU.filter _
      rw [hnd.erase_eq_filter, hst.filt, List.filter_filter]
      apply List.filter_congr
      intro x _
      simp only [List.mem_append, List.mem_singleton, not_or, Bool.decide_and, bne_iff_ne, ne_eq,
        decide_not]
      cases decide (x ∈ st.cluster) <;> simp [bne, beq_eq_decide]

theorem expand_extra [LinearOrder K] (F : ClustersFinder T K) (it : F.ConstIterator)
    (U : List F.ConstIterator) (hU : U.Nodup) (cur : F.ConstIterator)
    (rest : List F.ConstIterator) (st : BfsState F.m_container.length)
    (hq : st.queue = cur :: rest) (hst : F.BfsExtra it U st) :
    F.BfsExtra it U (F.expand cur rest st) := by
  have hcur : cur ∈ st.cluster := hst.qsub cur (by rw [hq]; exact List.mem_cons_self _ _)
  have h1 : F.BfsExtra it U { st with queue := rest, expanded := st.expanded ++ [cur] } :=
    ⟨fun x hx => hst.qsub x (by rw [hq]; exact List.mem_cons_of_mem _ hx),
      hst.linked, hst.reachU, hst.filt⟩
  have := F.foldl_visit_preserves cur
    (fun s => F.BfsExtra it U s ∧ cur ∈ s.cluster) (F.ForEachInRect (F.GetBboxFor cur))
    (fun s c hc hs => ⟨F.visit_extra it cur U hU s c hc hs.2 hs.1,
      F.visit_cluster_mono cur s c cur hs.2⟩) _ ⟨h1, hcur⟩
  exact this.1

/-- What a call `FindOneCluster(it, U)` that returns has built, for a
duplicate-free `U` that holds `it`. -/
theorem FindOneCluster_inv [LinearOrder K] (F : ClustersFinder T K) (fuel : Nat)
    (it : F.ConstIterator) (U : List F.ConstIterator) (hU : U.Nodup) (hit : it ∈ U)
    (b : BfsState F.m_container.length) (hb : F.FindOneCluster fuel it U = some b) :
    b.queue = [] ∧ b.expanded = b.cluster ∧ F.BfsInv it U b ∧ F.BfsExtra it U b := by
  have hinit : F.BfsInv it U
      { cluster := [it], queue := [it], unviewed := U.erase it, expanded := [] } :=
    ⟨⟨rfl, (List.perm_cons_erase hit).symm, ⟨[], rfl⟩,
      fun x hx => by
        rw [List.mem_singleton.mp hx],
      List.erase_sublist _ _⟩, fun a ha => by cases ha⟩
  have hinit2 : F.BfsExtra it U
      { cluster := [it], queue := [it], unviewed := U.erase it, expanded := [] } := by
    refine ⟨fun x hx => hx, ?_, ?_, ?_⟩
    · intro pre b post h hpre
      cases pre with
      | nil => exact absurd rfl hpre
      | cons p pre =>
        have := congrArg List.length h
        simp at this
    · intro x hx
      rw [List.mem_singleton.mp hx]
    · show U.erase it = _
      rw [hU.erase_eq_filter]
      apply List.filter_congr
      intro x _
      simp [bne, beq_eq_decide]
  have h1 := F.bfsLoop_induct (F.BfsInv it U) (fun cur rest st hq hst =>
    F.expand_inv it U hU cur rest st hq hst) fuel _ b hinit hb
  have h2 := F.bfsLoop_induct (F.BfsExtra it U) (fun cur rest st hq hst =>
    F.expand_extra it U hU cur rest st hq hst) fuel _ b hinit2 hb
  refine ⟨h1.2, ?_, h1.1, h2.1⟩
  rw [h1.1.core.split, h1.2, List.append_nil]

/-- The cluster that `FindOneCluster(it, U)` returns holds exactly the elements
reached from `it` along edges that stay in `U`. -/
theorem FindOneCluster_mem_iff [LinearOrder K] (F : ClustersFinder T K) (fuel : Nat)
    (it : F.ConstIterator) (U : List F.ConstIterator) (hU : U.Nodup) (hit : it ∈ U)
    (b : BfsState F.m_container.length) (hb : F.FindOneCluster fuel it U = some b)
    (x : F.ConstIterator) :
    x ∈ b.cluster ↔ Relation.ReflTransGen (F.edgeIn U) it x := by
  obtain ⟨_, hexp, hinv, hext⟩ := F.FindOneCluster_inv fuel it U hU hit b hb
  constructor
  · exact hext.reachU x
  · intro h
    induction h with
    | refl =>
      obtain ⟨tl, htl⟩ := hinv.core.head
      rw [htl]; exact List.mem_cons_self _ _
    | @tail y z _ hyz ih =>
      have hz : z ∈ b.cluster ++ b.unviewed := hinv.core.perm.mem_iff.mpr hyz.2
      rcases List.mem_append.mp hz with h1 | h1
      · exact h1
      · exact absurd hyz.1 (hinv.closed y (by rw [hexp]; exact ih) z h1)

/-- The induction of `findLoop_induct` for a duplicate-free `unviewed` set, with
the facts on the call of `FindOneCluster` at hand in the step. -/
theorem findLoop_induct_nodup [LinearOrder K] (F : ClustersFinder T K) (inner : Nat)
    (Q : FindState F.m_container.length → Prop)
    (hstep : ∀ st it rest b, st.unviewed = it :: rest → (it :: rest).Nodup → Q st →
      b.queue = [] → b.expanded = b.cluster → F.BfsInv it (it :: rest) b →
      F.BfsExtra it (it :: rest) b →
      Q { clusters := st.clusters ++ [b.cluster], unviewed := b.unviewed,
          expanded := st.expanded ++ b.expanded })
    (fuel : Nat) (st st' : FindState F.m_container.length) (hnd : st.unviewed.Nodup)
    (hst : Q st) (h : F.findLoop inner fuel st = some st') : Q st' ∧ st'.unviewed = [] := by
  have := F.findLoop_induct inner (fun s => Q s ∧ s.unviewed.Nodup)
    (fun s it rest b hq hs hb => by
      have hn : (it :: rest).Nodup := by rw [← hq]; exact hs.2
      obtain ⟨h1, h2, h3, h4⟩ :=
        F.FindOneCluster_inv inner it (it :: rest) hn (List.mem_cons_self _ _) b hb
      exact ⟨hstep s it rest b hq hn hs.1 h1 h2 h3 h4, h3.core.sub.nodup hn⟩)
    fuel st st' ⟨hst, hnd⟩ h
  exact ⟨this.1.1, this.2⟩

/-- Every cluster that `Find` returns is built by adding members for earlier members. -/
theorem Find_linked [LinearOrder K] (F : ClustersFinder T K)
    (hinj : Function.Injective F.addr) (cs : List (List F.ConstIterator))
    (hcs : F.Find = some cs) : ∀ c ∈ cs, Linked F.edge c := by
  unfold Find at hcs
  cases hrun : F.FindRun F.m_container.length with
  | none => rw [hrun] at hcs; cases hcs
  | some st =>
    rw [hrun] at hcs
    have hcs' : st.clusters = cs := Option.some.inj hcs
    have := F.findLoop_induct_nodup F.m_container.length
      (fun s => ∀ c ∈ s.clusters, Linked F.edge c)
      (fun s it rest b _ _ hs _ _ _ hext c hc => by
        rcases List.mem_append.mp hc with h1 | h1
        · exact hs c h1
        · rw [List.mem_singleton.mp h1]; exact hext.linked)
      F.m_container.length _ st (F.initUnviewed_nodup hinj) (fun c hc => by cases hc) hrun
    rw [← hcs']
    exact this.1

/-- In a list built by adding members for earlier members, every member is
reached from the first along a chain inside the list. -/
theorem linked_reach {α : Type} (R : α → α → Prop) (c : List α) (s : α) (tl : List α)
    (hc : c = s :: tl) (hl : Linked R c) (x : α) (hx : x ∈ c) :
    Relation.ReflTransGen (fun u v => u ∈ c ∧ v ∈ c ∧ R u v) s x := by
  have key : ∀ n pre y post, pre.length = n → c = pre ++ y :: post →
      Relation.ReflTransGen (fun u v => u ∈ c ∧ v ∈ c ∧ R u v) s y := by
    intro n
    induction n using Nat.strong_induction_on with
    | _ n ih =>
      intro pre y post hlen hdec
      cases pre with
      | nil =>
        rw [hc] at hdec
        have : s = y := by simpa using (List.cons.inj hdec).1
        rw [this]
      | cons p pre' =>
        obtain ⟨a, ha, hR⟩ := hl (p :: pre') y post hdec (List.cons_ne_nil _ _)
        obtain ⟨p1, p2, hp⟩ := List.append_of_mem ha
        have hdec' : c = p1 ++ a :: (p2 ++ y :: post) := by
          rw [hdec, hp]; simp
        have hlt : p1.length < n := by
          rw [← hlen, hp]; simp
        have hra := ih p1.length hlt p1 a _ rfl hdec'
        have hac : a ∈ c := by rw [hdec']; simp
        have hyc : y ∈ c := by rw [hdec]; simp
        exact hra.tail ⟨hac, hyc, hR⟩
  obtain ⟨pre, post, hp⟩ := List.append_of_mem hx
  exact key pre.length pre x post rfl hp

/-- Claim C13. When the spatial index reports every element whose rect
intersects the query: for every cluster `C` returned by `Find`, every member `a`
of `C` and every other element `b` whose limit rect intersects `GetBboxFor(a)` and
for which `isSame(a, b)` holds, `b` is in `C` or in a cluster returned before `C`.
Two elements that are linked to each other lie in one cluster, and in no other;
when, in addition, the index reports nothing else and the two are linked with no
third element, that cluster consists of the two of them. -/
theorem C13_linked_items_are_clustered [LinearOrder K] (F : ClustersFinder T K)
    (hinj : Function.Injective F.addr) (hc : F.IndexComplete) :
    ∃ cs, F.Find = some cs ∧
      (∀ pre C post, cs = pre ++ C :: post → ∀ a ∈ C, ∀ b, F.link a b →
        b ∈ C ∨ ∃ C' ∈ pre, b ∈ C') ∧
      (∀ a b, F.link a b → F.link b a →
        ∃ C ∈ cs, a ∈ C ∧ b ∈ C ∧ ∀ C' ∈ cs, a ∈ C' ∨ b ∈ C' → C' = C) ∧
      (F.IndexSound → ∀ a b, F.link a b → F.link b a →
        (∀ z, z ≠ a → z ≠ b →
          ¬ F.link a z ∧ ¬ F.link z a ∧ ¬ F.link b z ∧ ¬ F.link z b) →
        [a, b] ∈ cs ∨ [b, a] ∈ cs) := by
  obtain ⟨cs, hcs, hperm, hreach, hclosed⟩ := F.Find_spec hinj
  have hnd := flatten_perm_nodup cs hperm
  have hfirst : ∀ pre C post, cs = pre ++ C :: post → ∀ a ∈ C, ∀ b, F.link a b →
      b ∈ C ∨ ∃ C' ∈ pre, b ∈ C' := by
    intro pre C post hdec a ha b hab
    obtain ⟨Cb, hCb, hb⟩ := flatten_perm_cover cs hperm b
    rw [hdec] at hCb hclosed
    rcases List.mem_append.mp hCb with h1 | h1
    · exact Or.inr ⟨Cb, h1, hb⟩
    · rcases List.mem_cons.mp h1 with h2 | h2
      · left; rw [← h2]; exact hb
      · exfalso
        have hp := (List.pairwise_append.mp hclosed).2.1
        exact (List.rel_of_pairwise_cons hp h2) a ha b hb (F.link_edge hc a b hab)
  have hsame : ∀ a b, F.link a b → F.link b a → SameCluster cs a b := fun a b hab hba =>
    F.sameCluster_of_eqvGen cs hperm hclosed (fun x y => F.link x y ∧ F.link y x)
      (fun x y hxy => ⟨F.link_edge hc x y hxy.1, F.link_edge hc y x hxy.2⟩) a b
      (Relation.EqvGen.rel _ _ ⟨hab, hba⟩)
  refine ⟨cs, hcs, hfirst, ?_, ?_⟩
  · intro a b hab hba
    obtain ⟨C, hC, ha, hb⟩ := hsame a b hab hba
    refine ⟨C, hC, ha, hb, ?_⟩
    intro C' hC' h
    rcases h with h | h
    · exact cluster_unique cs hnd C' C hC' hC a h ha
    · exact cluster_unique cs hnd C' C hC' hC b h hb
  · intro hs a b hab hba hiso
    obtain ⟨C, hC, ha, hb⟩ := hsame a b hab hba
    obtain ⟨s, tl, hst, hr⟩ := hreach C hC
    have hCnd : C.Nodup := (List.nodup_flatten.mp hnd).1 C hC
    have hout : ∀ x y, (x = a ∨ x = b) → F.edge x y → (y = a ∨ y = b) := by
      intro x y hx hxy
      by_contra hy
      rw [not_or] at hy
      have hl := F.edge_link hs x y hxy
      rcases hx with hx | hx
      · rw [hx] at hl; exact (hiso y hy.1 hy.2).1 hl
      · rw [hx] at hl; exact (hiso y hy.1 hy.2).2.2.1 hl
    have hin : ∀ x y, ¬ (x = a ∨ x = b) → F.edge x y → ¬ (y = a ∨ y = b) := by
      intro x y hx hxy hy
      rw [not_or] at hx
      have hl := F.edge_link hs x y hxy
      rcases hy with hy | hy
      · rw [hy] at hl; exact (hiso x hx.1 hx.2).2.1 hl
      · rw [hy] at hl; exact (hiso x hx.1 hx.2).2.2.2 hl
    have hstay : ∀ x y, Relation.ReflTransGen F.edge x y → (x = a ∨ x = b) → (y = a ∨ y = b) := by
      intro x y h
      induction h with
      | refl => exact id
      | tail _ hyz ih => exact fun hx => hout _ _ (ih hx) hyz
    have hstay' : ∀ x y, Relation.ReflTransGen F.edge x y → ¬ (x = a ∨ x = b) →
        ¬ (y = a ∨ y = b) := by
      intro x y h
      induction h with
      | refl => exact id
      | tail _ hyz ih => exact fun hx => hin _ _ (ih hx) hyz
    have hs_in : s = a ∨ s = b := by
      by_contra hn
      exact hstay' s a (hr a ha) hn (Or.inl rfl)
    have hall : ∀ x ∈ C, x = a ∨ x = b := fun x hx => hstay s x (hr x hx) hs_in
    have hne : a ≠ b := hab.1
    have hlen : C.length = 2 := by
      have hsub : C ⊆ [a, b] := fun x hx => by
        rcases hall x hx with h | h <;> simp [h]
      have hsub' : [a, b] ⊆ C := fun x hx => by
        simp only [List.mem_cons, List.mem_singleton, List.not_mem_nil, or_false] at hx
        rcases hx with h | h
        · rw [h]; exact ha
        · rw [h]; exact hb
      have hnd2 : [a, b].Nodup := by simp [hne]
      have h1 := (List.subperm_of_subset hCnd hsub).length_le
      have h2 := (List.subperm_of_subset hnd2 hsub').length_le
      simp at h1 h2
      omega
    match C, hC, ha, hb, hall, hCnd, hlen with
    | [x, y], hC, ha, hb, hall, hCnd, _ =>
      have hxy : x ≠ y := by
        intro h; simp [h] at hCnd
      rcases hall x (by simp) with hx | hx <;> rcases hall y (by simp) with hy | hy
      · exact absurd (hx.trans hy.symm) hxy
      · left; rw [← hx, ← hy]; exact hC
      · right; rw [← hx, ← hy]; exact hC
      · exact absurd (hx.trans hy.symm) hxy

/-- The theorem of claim C13 at two places of one name within each other's radius:
they are linked to each other and `Find` returns them as one cluster. -/
theorem C13_linked_items_are_clustered_witness :
    Function.Injective twoNeighbours.addr ∧ twoNeighbours.IndexComplete ∧
    twoNeighbours.link ⟨0, by decide⟩ ⟨1, by decide⟩ ∧
    twoNeighbours.link ⟨1, by decide⟩ ⟨0, by decide⟩ ∧
    twoNeighbours.Find = some [[⟨0, by decide⟩, ⟨1, by decide⟩]] ∧
    ∃ cs, twoNeighbours.Find = some cs ∧
      (∀ pre C post, cs = pre ++ C :: post → ∀ a ∈ C, ∀ b, twoNeighbours.link a b →
        b ∈ C ∨ ∃ C' ∈ pre, b ∈ C') ∧
      (∀ a b, twoNeighbours.link a b → twoNeighbours.link b a →
        ∃ C ∈ cs, a ∈ C ∧ b ∈ C ∧ ∀ C' ∈ cs, a ∈ C' ∨ b ∈ C' → C' = C) ∧
      (twoNeighbours.IndexSound → ∀ a b, twoNeighbours.link a b → twoNeighbours.link b a →
        (∀ z, z ≠ a → z ≠ b →
          ¬ twoNeighbours.link a z ∧ ¬ twoNeighbours.link z a ∧
          ¬ twoNeighbours.link b z ∧ ¬ twoNeighbours.link z b) →
        [a, b] ∈ cs ∨ [b, a] ∈ cs) :=
  ⟨villageFinder_addr_injective _ _, villageFinder_complete _ _,
    (by unfold link; decide), (by unfold link; decide), (by decide),
    C13_linked_items_are_clustered twoNeighbours (villageFinder_addr_injective _ _)
      (villageFinder_complete _ _)⟩

/-- Claim C14. When the spatial index reports no element whose rect misses the
query: in every cluster returned by `Find`, every member `b` other than the first
has a member `a` placed before it in the cluster vector with `a` distinct from `b`,
the limit rect of `b` intersecting `GetBboxFor(a)` and `isSame(a, b)` true; hence
every member is reached from the first element by a chain of such links between
members of the cluster. -/
theorem C14_members_have_predecessors [LinearOrder K] (F : ClustersFinder T K)
    (hinj : Function.Injective F.addr) (hs : F.IndexSound) :
    ∃ cs, F.Find = some cs ∧
      (∀ c ∈ cs, ∀ pre b post, c = pre ++ b :: post → pre ≠ [] →
        ∃ a ∈ pre, a ≠ b ∧
          (F.GetLimitRect (F.deref b)).IsIntersect (F.GetBboxFor a) = true ∧
          F.m_isSameFunc (F.deref a) (F.deref b) = true) ∧
      (∀ c ∈ cs, ∃ s tl, c = s :: tl ∧
        ∀ x ∈ c, Relation.ReflTransGen (fun u v => u ∈ c ∧ v ∈ c ∧ F.link u v) s x) := by
  obtain ⟨cs, hcs, _, hreach, _⟩ := F.Find_spec hinj
  have hl := F.Find_linked hinj cs hcs
  have hlink : ∀ c ∈ cs, Linked F.link c := by
    intro c hc pre b post hdec hpre
    obtain ⟨a, ha, hab⟩ := hl c hc pre b post hdec hpre
    exact ⟨a, ha, F.edge_link hs a b hab⟩
  refine ⟨cs, hcs, ?_, ?_⟩
  · intro c hc pre b post hdec hpre
    obtain ⟨a, ha, hab⟩ := hlink c hc pre b post hdec hpre
    exact ⟨a, ha, hab.1, hab.2.1, hab.2.2⟩
  · intro c hc
    obtain ⟨s, tl, hst, _⟩ := hreach c hc
    exact ⟨s, tl, hst, fun x hx => linked_reach F.link c s tl hst (hlink c hc) x hx⟩

/-- The theorem of claim C14 at two places for which `isSame` holds from the first
to the second and not back: the second joins the cluster of the first. -/
theorem C14_members_have_predecessors_witness :
    Function.Injective orderedPair.addr ∧ orderedPair.IndexSound ∧
    orderedPair.m_isSameFunc (orderedPair.deref ⟨1, by decide⟩)
      (orderedPair.deref ⟨0, by decide⟩) = false ∧
    orderedPair.Find = some [[⟨0, by decide⟩, ⟨1, by decide⟩]] ∧
    ∃ cs, orderedPair.Find = some cs ∧
      (∀ c ∈ cs, ∀ pre b post, c = pre ++ b :: post → pre ≠ [] →
        ∃ a ∈ pre, a ≠ b ∧
          (orderedPair.GetLimitRect (orderedPair.deref b)).IsIntersect
            (orderedPair.GetBboxFor a) = true ∧
          orderedPair.m_isSameFunc (orderedPair.deref a) (orderedPair.deref b) = true) ∧
      (∀ c ∈ cs, ∃ s tl, c = s :: tl ∧
        ∀ x ∈ c, Relation.ReflTransGen
          (fun u v => u ∈ c ∧ v ∈ c ∧ orderedPair.link u v) s x) :=
  ⟨villageFinder_addr_injective _ _, villageFinder_sound _ _, (by decide), (by decide),
    C14_members_have_predecessors orderedPair (villageFinder_addr_injective _ _)
      (villageFinder_sound _ _)⟩

/-- Claim C15. During one run of `Find` on a container of `n` elements the log of
dequeued elements, one entry for each iteration of the breadth-first loop and so
for each pair of calls of `GetBboxFor` and `ForEachInRect`, is the concatenation of
the returned clusters; it has `n` entries and holds every element once. -/
theorem C15_one_query_per_item [LinearOrder K] (F : ClustersFinder T K)
    (hinj : Function.Injective F.addr) :
    ∃ st, F.FindRun F.m_container.length = some st ∧ F.Find = some st.clusters ∧
      st.expanded = st.clusters.flatten ∧
      st.expanded.length = F.m_container.length ∧
      ∀ i : F.ConstIterator, st.expanded.count i = 1 := by
  obtain ⟨st, hst, hu, hinv⟩ := F.FindRun_spec hinj 0
  rw [Nat.add_zero] at hst
  have hperm : st.expanded.Perm (List.finRange F.m_container.length) := by
    have := hinv.perm
    rw [hu, List.append_nil, ← hinv.expanded] at this
    exact this.trans (F.initUnviewed_perm hinj)
  refine ⟨st, hst, by unfold Find; rw [hst]; rfl, hinv.expanded, ?_, ?_⟩
  · rw [hperm.length_eq, List.length_finRange]
  · intro i
    exact List.count_eq_one_of_mem (hperm.nodup_iff.mpr (List.nodup_finRange _))
      (hperm.mem_iff.mpr (List.mem_finRange i))

/-- The theorem of claim C15 at the four places of `fourPlaces`: the log is
`0, 1, 2, 3`, the concatenation of the clusters `{0}` and `{1, 2, 3}`. -/
theorem C15_one_query_per_item_witness :
    Function.Injective fourPlaces.addr ∧
    (fourPlaces.FindRun fourPlaces.m_container.length).map
      (fun st => (st.clusters.map (fun c => c.map Fin.val), st.expanded.map Fin.val)) =
      some ([[0], [1, 2, 3]], [0, 1, 2, 3]) ∧
    ∃ st, fourPlaces.FindRun fourPlaces.m_container.length = some st ∧
      fourPlaces.Find = some st.clusters ∧
      st.expanded = st.clusters.flatten ∧
      st.expanded.length = fourPlaces.m_container.length ∧
      ∀ i : fourPlaces.ConstIterator, st.expanded.count i = 1 :=
  ⟨villageFinder_addr_injective _ _, (by decide),
    C15_one_query_per_item fourPlaces (villageFinder_addr_injective _ _)⟩

theorem bfsLoop_head [LinearOrder K] (F : ClustersFinder T K) (fuel : Nat)
    (it : F.ConstIterator) (U : List F.ConstIterator) (b : BfsState F.m_container.length)
    (hb : F.FindOneCluster fuel it U = some b) : ∃ tl, b.cluster = it :: tl := by
  have := F.bfsLoop_induct (fun s => ∃ tl, s.cluster = it :: tl)
    (fun cur rest st _ hst => by
      unfold expand
      exact F.foldl_visit_preserves cur (fun s => ∃ tl, s.cluster = it :: tl) _
        (fun s c _ hs => by
          show ∃ tl, (F.visit cur s c).cluster = it :: tl
          rcases F.visit_cases cur s c with h | ⟨_, _, _, h⟩
          · rw [h]; exact hs
          · rw [h]
            obtain ⟨tl, htl⟩ := hs
            exact ⟨tl ++ [c], by show s.cluster ++ [c] = _; rw [htl]; rfl⟩) _ hst)
    fuel _ b ⟨[], rfl⟩ hb
  exact this.1

/-- Claim C19. Every call of `FindOneCluster` that returns gives a cluster whose
first element is the seed it was started from; every cluster returned by `Find` is
non-empty; on an empty container `Find` returns no cluster, and on a container of
`n ≥ 1` elements it returns at least one and at most `n` clusters. -/
theorem C19_clusters_nonempty [LinearOrder K] (F : ClustersFinder T K)
    (hinj : Function.Injective F.addr) :
    (∀ fuel it U b, F.FindOneCluster fuel it U = some b → ∃ tl, b.cluster = it :: tl) ∧
    ∃ cs, F.Find = some cs ∧ (∀ c ∈ cs, c ≠ []) ∧
      (F.m_container.length = 0 → cs = []) ∧
      (1 ≤ F.m_container.length → 1 ≤ cs.length ∧ cs.length ≤ F.m_container.length) := by
  refine ⟨fun fuel it U b hb => F.bfsLoop_head fuel it U b hb, ?_⟩
  obtain ⟨cs, hcs, hperm, hreach, _⟩ := F.Find_spec hinj
  have hne : ∀ c ∈ cs, c ≠ [] := by
    intro c hc
    obtain ⟨s, tl, h, _⟩ := hreach c hc
    rw [h]; exact List.cons_ne_nil _ _
  have hlen : cs.flatten.length = F.m_container.length := by
    rw [hperm.length_eq, List.length_finRange]
  have hle : cs.length ≤ cs.flatten.length := by
    rw [List.length_flatten]
    exact length_le_sum_of_nonempty cs (fun c hc => by
      have := hne c hc
      cases c with
      | nil => exact absurd rfl this
      | cons _ _ => simp)
  refine ⟨cs, hcs, hne, ?_, ?_⟩
  · intro h0
    have : cs.length = 0 := by omega
    exact List.length_eq_zero.mp this
  · intro h1
    refine ⟨?_, by omega⟩
    cases cs with
    | nil => simp at hlen; omega
    | cons _ _ => simp

/-- The theorem of claim C19 at the four places of `fourPlaces`, for which `Find`
returns two clusters; on the empty vector `Find` returns no cluster. -/
theorem C19_clusters_nonempty_witness :
    Function.Injective fourPlaces.addr ∧
    (villageFinder [] sameName).Find = some [] ∧
    (∀ fuel it U b, fourPlaces.FindOneCluster fuel it U = some b →
      ∃ tl, b.cluster = it :: tl) ∧
    ∃ cs, fourPlaces.Find = some cs ∧ (∀ c ∈ cs, c ≠ []) ∧
      (fourPlaces.m_container.length = 0 → cs = []) ∧
      (1 ≤ fourPlaces.m_container.length →
        1 ≤ cs.length ∧ cs.length ≤ fourPlaces.m_container.length) :=
  ⟨villageFinder_addr_injective _ _, (by decide),
    C19_clusters_nonempty fourPlaces (villageFinder_addr_injective _ _)⟩

theorem setInsert_mem {n : Nat} (addr : Fin n → Nat) (e : Fin n) (s : List (Fin n))
    (z : Fin n) (hz : z ∈ setInsert addr e s) : z = e ∨ z ∈ s := by
  induction s with
  | nil => left; exact List.mem_singleton.mp hz
  | cons y ys ih =>
    unfold setInsert at hz
    by_cases h1 : addr e < addr y
    · rw [if_pos h1] at hz
      rcases List.mem_cons.mp hz with h | h
      · left; exact h
      · right; exact h
    · rw [if_neg h1] at hz
      by_cases h2 : addr e = addr y
      · rw [if_pos h2] at hz; right; exact hz
      · rw [if_neg h2] at hz
        rcases List.mem_cons.mp hz with h | h
        · right; rw [h]; exact List.mem_cons_self _ _
        · rcases ih h with h' | h'
          · left; exact h'
          · right; exact List.mem_cons_of_mem _ h'

/-- Insertion keeps the set in increasing address order. -/
theorem setInsert_sorted {n : Nat} (addr : Fin n → Nat) (e : Fin n) (s : List (Fin n))
    (hs : s.Pairwise (fun a b => addr a < addr b)) :
    (setInsert addr e s).Pairwise (fun a b => addr a < addr b) := by
  induction s with
  | nil => exact List.pairwise_singleton _ _
  | cons y ys ih =>
    unfold setInsert
    have hy : ∀ {z}, z ∈ ys → addr y < addr z := fun h => List.rel_of_pairwise_cons hs h
    have hys := List.Pairwise.of_cons hs
    by_cases h1 : addr e < addr y
    · rw [if_pos h1]
      refine List.Pairwise.cons ?_ hs
      intro z hz
      rcases List.mem_cons.mp hz with h | h
      · rw [h]; exact h1
      · exact h1.trans (hy h)
    · rw [if_neg h1]
      by_cases h2 : addr e = addr y
      · rw [if_pos h2]; exact hs
      · rw [if_neg h2]
        refine List.Pairwise.cons ?_ (ih hys)
        intro z hz
        rcases setInsert_mem addr e ys z hz with h | h
        · rw [h]; omega
        · exact hy h

theorem initUnviewed_sorted (F : ClustersFinder T K) :
    F.initUnviewed.Pairwise (fun a b => F.addr a < F.addr b) := by
  unfold initUnviewed
  have key : ∀ (l acc : List F.ConstIterator),
      acc.Pairwise (fun a b => F.addr a < F.addr b) →
      (l.foldl (fun s e => setInsert F.addr e s) acc).Pairwise
        (fun a b => F.addr a < F.addr b) := by
    intro l
    induction l with
    | nil => exact fun acc h => h
    | cons e l ih => exact fun acc h => ih _ (setInsert_sorted F.addr e acc h)
  exact key _ [] List.Pairwise.nil

theorem find_step_seed [LinearOrder K] (F : ClustersFinder T K)
    (st : FindState F.m_container.length) (it : F.ConstIterator)
    (rest : List F.ConstIterator) (b : BfsState F.m_container.length)
    (hq : st.unviewed = it :: rest) (hst : F.SeedInv st)
    (hb : F.BfsInv it (it :: rest) b) :
    F.SeedInv { clusters := st.clusters ++ [b.cluster], unviewed := b.unviewed,
                expanded := st.expanded ++ b.expanded } := by
  have hsorted : (it :: rest).Pairwise (· < ·) := by rw [← hq]; exact hst.sorted
  have hmin : ∀ x ∈ it :: rest, it ≤ x := by
    intro x hx
    rcases List.mem_cons.mp hx with h | h
    · rw [h]
    · exact le_of_lt (List.rel_of_pairwise_cons hsorted h)
  have hcU : ∀ x ∈ b.cluster, x ∈ it :: rest := fun x hx =>
    hb.core.perm.subset (List.mem_append_left _ hx)
  have huU : ∀ x ∈ b.unviewed, x ∈ it :: rest := fun x hx => hb.core.sub.subset hx
  obtain ⟨tl, htl⟩ := hb.core.head
  have hnd : (b.cluster ++ b.unviewed).Nodup :=
    hb.core.perm.nodup_iff.mpr hsorted.nodup
  have hitu : ∀ x ∈ b.unviewed, it < x := by
    intro x hx
    have hne : it ≠ x := by
      intro h
      exact (List.disjoint_of_nodup_append hnd) (by rw [htl]; exact List.mem_cons_self _ _)
        (h ▸ hx)
    exact lt_of_le_of_ne (hmin x (huU x hx)) hne
  refine ⟨hsorted.sublist hb.core.sub, ?_, ?_, ?_⟩
  · intro c hc s hs x hx
    rcases List.mem_append.mp hc with h | h
    · exact hst.own c h s hs x hx
    · rw [List.mem_singleton] at h
      subst h
      rw [htl] at hs
      simp only [List.head?_cons, Option.mem_def, Option.some.injEq] at hs
      subst hs
      exact hmin x (hcU x hx)
  · show (st.clusters ++ [b.cluster]).Pairwise _
    rw [List.pairwise_append]
    refine ⟨hst.later, List.pairwise_singleton _ _, ?_⟩
    intro c hc c' hc' s hs x hx
    rw [List.mem_singleton] at hc'
    subst hc'
    exact hst.rest c hc s hs x (by rw [hq]; exact hcU x hx)
  · intro c hc s hs x hx
    rcases List.mem_append.mp hc with h | h
    · exact hst.rest c h s hs x (by rw [hq]; exact huU x hx)
    · rw [List.mem_singleton] at h
      subst h
      rw [htl] at hs
      simp only [List.head?_cons, Option.mem_def, Option.some.injEq] at hs
      subst hs
      exact hitu x hx

/-- Claim C18. When the addresses of the elements increase with their positions,
as in a `std::vector`: the first element of every cluster returned by `Find` is the
lowest position that lies in no earlier cluster; the first element of the first
cluster is position 0; and the first elements of the clusters are in strictly
increasing order of position. -/
theorem C18_seeds_by_position [LinearOrder K] (F : ClustersFinder T K)
    (haddr : StrictMono F.addr) :
    ∃ cs, F.Find = some cs ∧
      (∀ pre c post, cs = pre ++ c :: post → ∀ s ∈ c.head?, ∀ x,
        (∀ c' ∈ pre, x ∉ c') → s ≤ x) ∧
      (∀ c tl, cs = c :: tl → ∀ s ∈ c.head?, s.val = 0) ∧
      cs.Pairwise (fun c c' => ∀ s ∈ c.head?, ∀ s' ∈ c'.head?, s < s') := by
  have hinj : Function.Injective F.addr := haddr.injective
  obtain ⟨st, hst, hu, hinv⟩ := F.FindRun_spec hinj 0
  rw [Nat.add_zero] at hst
  have hperm : st.clusters.flatten.Perm (List.finRange F.m_container.length) := by
    have := hinv.perm
    rw [hu, List.append_nil] at this
    exact this.trans (F.initUnviewed_perm hinj)
  have hinit : F.SeedInv { clusters := [], unviewed := F.initUnviewed, expanded := [] } :=
    ⟨F.initUnviewed_sorted.imp (fun h => haddr.lt_iff_lt.mp h), fun c hc => (by cases hc),
      List.Pairwise.nil, fun c hc => (by cases hc)⟩
  have hseed := (F.findLoop_induct_nodup F.m_container.length F.SeedInv
    (fun s it rest b hq _ hs _ _ hb _ => F.find_step_seed s it rest b hq hs hb)
    F.m_container.length _ st (F.initUnviewed_nodup hinj) hinit hst).1
  have hlow : ∀ pre c post, st.clusters = pre ++ c :: post → ∀ s ∈ c.head?, ∀ x,
      (∀ c' ∈ pre, x ∉ c') → s ≤ x := by
    intro pre c post hdec s hs x hx
    obtain ⟨cx, hcx, hxc⟩ := flatten_perm_cover st.clusters hperm x
    have hlater := hseed.later
    rw [hdec] at hcx hlater
    rcases List.mem_append.mp hcx with h | h
    · exact absurd hxc (hx cx h)
    · rcases List.mem_cons.mp h with h' | h'
      · exact hseed.own c (by rw [hdec]; simp) s hs x (h' ▸ hxc)
      · have hp := (List.pairwise_append.mp hlater).2.1
        exact le_of_lt (List.rel_of_pairwise_cons hp h' s hs x hxc)
  refine ⟨st.clusters, by unfold Find; rw [hst]; rfl, hlow, ?_, ?_⟩
  · intro c tl hdec s hs
    have hpos : 0 < F.m_container.length := s.pos
    have := hlow [] c tl hdec s hs ⟨0, hpos⟩ (fun c' hc' => by cases hc')
    have hle : s.val ≤ 0 := this
    omega
  · refine hseed.later.imp_of_mem ?_
    intro c c' _ hc' h s hs s' hs'
    exact h s hs s' (List.mem_of_mem_head? hs')

/-- The theorem of claim C18 at the four places of `fourPlaces`, held in a vector:
the clusters `{0}` and `{1, 2, 3}` start with the positions 0 and 1. -/
theorem C18_seeds_by_position_witness :
    StrictMono fourPlaces.addr ∧
    fourPlaces.Find.map (fun cs => cs.map (fun c => c.map Fin.val)) =
      some [[0], [1, 2, 3]] ∧
    ∃ cs, fourPlaces.Find = some cs ∧
      (∀ pre c post, cs = pre ++ c :: post → ∀ s ∈ c.head?, ∀ x,
        (∀ c' ∈ pre, x ∉ c') → s ≤ x) ∧
      (∀ c tl, cs = c :: tl → ∀ s ∈ c.head?, s.val = 0) ∧
      cs.Pairwise (fun c c' => ∀ s ∈ c.head?, ∀ s' ∈ c'.head?, s < s') :=
  ⟨fun _ _ h => h, (by decide), C18_seeds_by_position fourPlaces (fun _ _ h => h)⟩

theorem withIndex_edge [LinearOrder K] (F : ClustersFinder T K)
    (idx : m2.Rect K → List (Fin F.m_container.length))
    (hidx : ∀ r x, x ∈ idx r ↔ x ∈ F.ForEachInRect r) (a b : F.ConstIterator) :
    (F.withIndex idx).edge a b ↔ F.edge a b := by
  unfold edge
  exact ⟨fun h => ⟨h.1, (hidx _ _).mp h.2.1, h.2.2⟩, fun h => ⟨h.1, (hidx _ _).mpr h.2.1, h.2.2⟩⟩

theorem withIndex_reach [LinearOrder K] (F : ClustersFinder T K)
    (idx : m2.Rect K → List (Fin F.m_container.length))
    (hidx : ∀ r x, x ∈ idx r ↔ x ∈ F.ForEachInRect r) (U : List F.ConstIterator)
    (a b : F.ConstIterator) :
    Relation.ReflTransGen ((F.withIndex idx).edgeIn U) a b ↔
      Relation.ReflTransGen (F.edgeIn U) a b := by
  constructor
  · intro h
    exact Relation.ReflTransGen.mono
      (fun x y hxy => ⟨(F.withIndex_edge idx hidx x y).mp hxy.1, hxy.2⟩) h
  · intro h
    exact Relation.ReflTransGen.mono
      (fun x y hxy => ⟨(F.withIndex_edge idx hidx x y).mpr hxy.1, hxy.2⟩) h

/-- Two calls of `FindOneCluster` on the same seed and set, with indexes that
report the same elements, return clusters with the same members and leave the
same `unviewed` set. -/
theorem FindOneCluster_sim [LinearOrder K] (F : ClustersFinder T K)
    (idx : m2.Rect K → List (Fin F.m_container.length))
    (hidx : ∀ r x, x ∈ idx r ↔ x ∈ F.ForEachInRect r) (fuel fuel' : Nat)
    (it : F.ConstIterator) (U : List F.ConstIterator) (hU : U.Nodup) (hit : it ∈ U)
    (b b' : BfsState F.m_container.length)
    (hb : F.FindOneCluster fuel it U = some b)
    (hb' : (F.withIndex idx).FindOneCluster fuel' it U = some b') :
    SameGroup b.cluster b'.cluster ∧ b.unviewed = b'.unviewed := by
  have hmem : ∀ x, x ∈ b.cluster ↔ x ∈ b'.cluster := by
    intro x
    rw [F.FindOneCluster_mem_iff fuel it U hU hit b hb x,
      (F.withIndex idx).FindOneCluster_mem_iff fuel' it U hU hit b' hb' x]
    exact (F.withIndex_reach idx hidx U it x).symm
  obtain ⟨_, _, hinv, hext⟩ := F.FindOneCluster_inv fuel it U hU hit b hb
  obtain ⟨_, _, hinv', hext'⟩ := (F.withIndex idx).FindOneCluster_inv fuel' it U hU hit b' hb'
  have hnd : b.cluster.Nodup := (hinv.core.perm.nodup_iff.mpr hU).of_append_left
  have hnd' : b'.cluster.Nodup := (hinv'.core.perm.nodup_iff.mpr hU).of_append_left
  obtain ⟨tl, htl⟩ := hinv.core.head
  obtain ⟨tl', htl'⟩ := hinv'.core.head
  refine ⟨⟨(List.perm_ext_iff_of_nodup hnd hnd').mpr hmem, ?_⟩, ?_⟩
  · rw [htl, htl']; rfl
  · rw [hext.filt, hext'.filt]
    apply List.filter_congr
    intro x _
    simp only [decide_not, hmem x]

theorem findLoop_sim [LinearOrder K] (F : ClustersFinder T K)
    (idx : m2.Rect K → List (Fin F.m_container.length))
    (hidx : ∀ r x, x ∈ idx r ↔ x ∈ F.ForEachInRect r) (inner inner' fuel : Nat) :
    ∀ (fuel' : Nat) (st st' r r' : FindState F.m_container.length),
      st.unviewed = st'.unviewed → st.unviewed.Nodup →
      List.Forall₂ SameGroup st.clusters st'.clusters →
      F.findLoop inner fuel st = some r →
      (F.withIndex idx).findLoop inner' fuel' st' = some r' →
      List.Forall₂ SameGroup r.clusters r'.clusters := by
  induction fuel with
  | zero =>
    intro fuel' st st' r r' hu hnd hrel h h'
    unfold findLoop at h
    cases hq : st.unviewed with
    | nil =>
      rw [hq] at h
      have hq' : st'.unviewed = [] := by rw [← hu]; exact hq
      unfold findLoop at h'
      rw [hq'] at h'
      simp only [Option.some.injEq] at h h'
      rw [← h, ← h']; exact hrel
    | cons it rest => rw [hq] at h; simp at h
  | succ fuel ih =>
    intro fuel' st st' r r' hu hnd hrel h h'
    unfold findLoop at h
    cases hq : st.unviewed with
    | nil =>
      rw [hq] at h
      have hq' : st'.unviewed = [] := by rw [← hu]; exact hq
      unfold findLoop at h'
      rw [hq'] at h'
      simp only [Option.some.injEq] at h h'
      rw [← h, ← h']; exact hrel
    | cons it rest =>
      rw [hq] at h
      simp only at h
      have hq' : st'.unviewed = it :: rest := by rw [← hu]; exact hq
      unfold findLoop at h'
      rw [hq'] at h'
      cases fuel' with
      | zero => simp at h'
      | succ fuel' =>
        simp only at h'
        cases hb : F.FindOneCluster inner it (it :: rest) with
        | none => rw [hb] at h; simp at h
        | some b =>
          cases hb' : (F.withIndex idx).FindOneCluster inner' it (it :: rest) with
          | none => rw [hb'] at h'; simp at h'
          | some b' =>
            rw [hb] at h
            rw [hb'] at h'
            have hn : (it :: rest).Nodup := by rw [← hq]; exact hnd
            obtain ⟨hg, hun⟩ := F.FindOneCluster_sim idx hidx inner inner' it (it :: rest) hn
              (List.mem_cons_self _ _) b b' hb hb'
            obtain ⟨_, _, hinv, _⟩ :=
              F.FindOneCluster_inv inner it (it :: rest) hn (List.mem_cons_self _ _) b hb
            exact ih fuel' _ _ r r' hun (hinv.core.sub.nodup hn)
              (List.rel_append hrel (List.Forall₂.cons hg List.Forall₂.nil)) h h'

/-- Claim C17. For two spatial indexes that report the same elements for every
query, in whatever order each, `Find` returns the same number of clusters and the
clusters at the same place in the two results have the same members and the same
first element. -/
theorem C17_enumeration_order_irrelevant [LinearOrder K] (F : ClustersFinder T K)
    (idx : m2.Rect K → List (Fin F.m_container.length))
    (hinj : Function.Injective F.addr)
    (hidx : ∀ r x, x ∈ idx r ↔ x ∈ F.ForEachInRect r) :
    ∃ cs cs', F.Find = some cs ∧ (F.withIndex idx).Find = some cs' ∧
      cs.length = cs'.length ∧
      List.Forall₂ (fun c c' => c.Perm c' ∧ c.head? = c'.head?) cs cs' := by
  obtain ⟨st, hst, _, _⟩ := F.FindRun_spec hinj 0
  obtain ⟨st', hst', _, _⟩ := (F.withIndex idx).FindRun_spec hinj 0
  rw [Nat.add_zero] at hst hst'
  have hrel := F.findLoop_sim idx hidx _ _ _ _ _ _ st st' rfl (F.initUnviewed_nodup hinj)
    List.Forall₂.nil hst hst'
  exact ⟨st.clusters, st'.clusters, by unfold Find; rw [hst]; rfl,
    by unfold Find; rw [hst']; rfl, hrel.length_eq, hrel⟩

/-- The theorem of claim C17 at three places and the reversed index: the cluster
is `0, 1, 2` with one index and `0, 2, 1` with the other. -/
theorem C17_enumeration_order_irrelevant_witness :
    Function.Injective threePlaces.addr ∧
    (∀ r x, x ∈ reverseScanIndex threePlaces.m_container Village.GetLimitRect r ↔
      x ∈ threePlaces.ForEachInRect r) ∧
    threePlaces.Find.map (fun cs => cs.map (fun c => c.map Fin.val)) = some [[0, 1, 2]] ∧
    (threePlaces.withIndex
      (reverseScanIndex threePlaces.m_container Village.GetLimitRect)).Find.map
        (fun cs => cs.map (fun c => c.map Fin.val)) = some [[0, 2, 1]] ∧
    ∃ cs cs', threePlaces.Find = some cs ∧
      (threePlaces.withIndex
        (reverseScanIndex threePlaces.m_container Village.GetLimitRect)).Find = some cs' ∧
      cs.length = cs'.length ∧
      List.Forall₂ (fun c c' => c.Perm c' ∧ c.head? = c'.head?) cs cs' :=
  ⟨villageFinder_addr_injective _ _, fun _ _ => List.mem_reverse, (by decide), (by decide),
    C17_enumeration_order_irrelevant threePlaces
      (reverseScanIndex threePlaces.m_container Village.GetLimitRect)
      (villageFinder_addr_injective _ _) (fun _ _ => List.mem_reverse)⟩

theorem Rect.inside_add_left [LinearOrder K] (a b : m2.Rect K) : a.Inside (a.Add b) :=
  ⟨min_le_right _ _, min_le_right _ _, le_max_right _ _, le_max_right _ _⟩

theorem Rect.inside_add_right [LinearOrder K] (a b : m2.Rect K) : b.Inside (a.Add b) :=
  ⟨min_le_left _ _, min_le_left _ _, le_max_left _ _, le_max_left _ _⟩

theorem Rect.inside_trans [LinearOrder K] (a b c : m2.Rect K) (h1 : a.Inside b)
    (h2 : b.Inside c) : a.Inside c :=
  ⟨h2.1.trans h1.1, h2.2.1.trans h1.2.1, h1.2.2.1.trans h2.2.2.1, h1.2.2.2.trans h2.2.2.2⟩

theorem Rect.add_inside_of [LinearOrder K] (a b R : m2.Rect K) (ha : a.Inside R)
    (hb : b.Inside R) : (a.Add b).Inside R :=
  ⟨le_min hb.1 ha.1, le_min hb.2.1 ha.2.1, max_le hb.2.2.1 ha.2.2.1, max_le hb.2.2.2 ha.2.2.2⟩

/-- Claim C16. The rectangle that `GetBboxFor` returns contains the four
rectangles `RectByCenterXYAndSizeInMeters(corner, d)` built around the corners of
the limit rect, and lies inside every rectangle that contains the four. When that
function is the planar square of half side `d` and the limit rect is
`[x1, x2] x [y1, y2]`, the result is `[x1 - d, x2 + d] x [y1 - d, y2 + d]`, which
for `d ≥ 0` contains the limit rect. -/
theorem C16_bbox_is_expanded_rect [LinearOrderedAddCommGroup K] (F : ClustersFinder T K)
    (it : F.ConstIterator) :
    (∀ p ∈ (F.GetLimitRect (F.deref it)).ForEachCorner,
      (F.RectByCenterXYAndSizeInMeters p (F.m_distanseFunc (F.deref it))).Inside
        (F.GetBboxFor it)) ∧
    (∀ R : m2.Rect K,
      (∀ p ∈ (F.GetLimitRect (F.deref it)).ForEachCorner,
        (F.RectByCenterXYAndSizeInMeters p (F.m_distanseFunc (F.deref it))).Inside R) →
      (F.GetBboxFor it).Inside R) ∧
    ((∀ p d, F.RectByCenterXYAndSizeInMeters p d = planarSquare p d) →
      (F.GetLimitRect (F.deref it)).minX ≤ (F.GetLimitRect (F.deref it)).maxX →
      (F.GetLimitRect (F.deref it)).minY ≤ (F.GetLimitRect (F.deref it)).maxY →
      F.GetBboxFor it =
        ⟨(F.GetLimitRect (F.deref it)).minX - F.m_distanseFunc (F.deref it),
         (F.GetLimitRect (F.deref it)).minY - F.m_distanseFunc (F.deref it),
         (F.GetLimitRect (F.deref it)).maxX + F.m_distanseFunc (F.deref it),
         (F.GetLimitRect (F.deref it)).maxY + F.m_distanseFunc (F.deref it)⟩ ∧
      (0 ≤ F.m_distanseFunc (F.deref it) →
        (F.GetLimitRect (F.deref it)).Inside (F.GetBboxFor it))) := by
  refine ⟨?_, ?_, ?_⟩
  · intro p hp
    simp only [m2.Rect.ForEachCorner, List.mem_cons, List.mem_singleton, List.not_mem_nil,
      or_false] at hp
    unfold GetBboxFor
    rcases hp with h | h | h | h <;> subst h
    · exact Rect.inside_trans _ _ _ (Rect.inside_add_left _ _)
        (Rect.inside_trans _ _ _ (Rect.inside_add_left _ _) (Rect.inside_add_left _ _))
    · exact Rect.inside_trans _ _ _ (Rect.inside_add_right _ _)
        (Rect.inside_trans _ _ _ (Rect.inside_add_left _ _) (Rect.inside_add_left _ _))
    · exact Rect.inside_trans _ _ _ (Rect.inside_add_right _ _) (Rect.inside_add_left _ _)
    · exact Rect.inside_add_right _ _
  · intro R hR
    unfold GetBboxFor
    have h := fun p hp => hR p hp
    simp only [m2.Rect.ForEachCorner, List.mem_cons, List.mem_singleton, List.not_mem_nil,
      or_false, forall_eq_or_imp, forall_eq] at h
    exact Rect.add_inside_of _ _ _
      (Rect.add_inside_of _ _ _ (Rect.add_inside_of _ _ _ h.1 h.2.1) h.2.2.1) h.2.2.2
  · intro hsq hx hy
    have heq : F.GetBboxFor it =
        ⟨(F.GetLimitRect (F.deref it)).minX - F.m_distanseFunc (F.deref it),
         (F.GetLimitRect (F.deref it)).minY - F.m_distanseFunc (F.deref it),
         (F.GetLimitRect (F.deref it)).maxX + F.m_distanseFunc (F.deref it),
         (F.GetLimitRect (F.deref it)).maxY + F.m_distanseFunc (F.deref it)⟩ := by
      unfold GetBboxFor
      simp only [hsq, planarSquare, m2.Rect.Add, m2.Rect.LeftTop, m2.Rect.LeftBottom,
        m2.Rect.RightBottom, m2.Rect.RightTop, min_self, max_self]
      have h1 := sub_le_sub_right hx (F.m_distanseFunc (F.deref it))
      have h2 := sub_le_sub_right hy (F.m_distanseFunc (F.deref it))
      have h3 := add_le_add_right hx (F.m_distanseFunc (F.deref it))
      have h4 := add_le_add_right hy (F.m_distanseFunc (F.deref it))
      simp only [min_eq_left h1, min_eq_right h1, min_eq_left h2, min_eq_right h2,
        max_eq_left h3, max_eq_right h3, max_eq_left h4, max_eq_right h4, min_self, max_self]
    refine ⟨heq, ?_⟩
    intro hd
    rw [heq]
    exact ⟨sub_le_self _ hd, sub_le_self _ hd, le_add_of_nonneg_right hd,
      le_add_of_nonneg_right hd⟩

/-- The theorem of claim C16 at the first of `threePlaces`, a point at the origin
with radius 10 and the planar square as conversion: the query box is
`[-10, 10] x [-10, 10]`. -/
theorem C16_bbox_is_expanded_rect_witness :
    (∀ p d, threePlaces.RectByCenterXYAndSizeInMeters p d = planarSquare p d) ∧
    threePlaces.GetBboxFor ⟨0, by decide⟩ = ⟨-10, -10, 10, 10⟩ ∧
    (threePlaces.GetLimitRect (threePlaces.deref ⟨0, by decide⟩)).Inside
      (threePlaces.GetBboxFor ⟨0, by decide⟩) :=
  ⟨fun _ _ => rfl, (by decide),
    ((C16_bbox_is_expanded_rect threePlaces ⟨0, by decide⟩).2.2 (fun _ _ => rfl)
      (by decide) (by decide)).2 (by decide)⟩

end ClustersFinder

end generator

/-! ## Theorems on `base/stl_helpers.hpp` -/

namespace my

theorem sort_sorted {α : Type} [LinearOrder α] (v : List α) : (sort v).Sorted (· ≤ ·) :=
  List.sorted_insertionSort _ v

theorem sort_mem {α : Type} [LinearOrder α] (v : List α) (x : α) : x ∈ sort v ↔ x ∈ v :=
  (List.perm_insertionSort _ v).mem_iff

theorem uniqueAux_mem {α : Type} [DecidableEq α] (last : α) (l : List α) (x : α) :
    x ∈ uniqueAux last l → x ∈ l := by
  induction l generalizing last with
  | nil => intro h; cases h
  | cons y ys ih =>
    unfold uniqueAux
    split
    · intro h; exact List.mem_cons_of_mem _ (ih last h)
    · intro h
      rcases List.mem_cons.mp h with h | h
      · exact h ▸ List.mem_cons_self _ _
      · exact List.mem_cons_of_mem _ (ih y h)

theorem mem_uniqueAux {α : Type} [DecidableEq α] (last : α) (l : List α) (x : α)
    (hx : x ∈ l) : x = last ∨ x ∈ uniqueAux last l := by
  induction l generalizing last with
  | nil => cases hx
  | cons y ys ih =>
    unfold uniqueAux
    rcases List.mem_cons.mp hx with h | h
    · subst h
      by_cases hl : last = x
      · left; exact hl.symm
      · right; rw [if_neg hl]; exact List.mem_cons_self _ _
    · by_cases hl : last = y
      · rw [if_pos hl]; exact ih last h
      · rw [if_neg hl]
        rcases ih y h with h' | h'
        · right; rw [h']; exact List.mem_cons_self _ _
        · right; exact List.mem_cons_of_mem _ h'

theorem uniqueAux_sorted {α : Type} [LinearOrder α] (last : α) (l : List α)
    (h : (last :: l).Sorted (· ≤ ·)) : (last :: uniqueAux last l).Sorted (· < ·) := by
  induction l generalizing last with
  | nil => exact List.sorted_singleton _
  | cons y ys ih =>
    have hle : last ≤ y := List.rel_of_sorted_cons h y (List.mem_cons_self _ _)
    have htail : (y :: ys).Sorted (· ≤ ·) := List.Sorted.of_cons h
    unfold uniqueAux
    by_cases hl : last = y
    · rw [if_pos hl]
      subst hl
      exact ih last htail
    · rw [if_neg hl]
      have hlt : last < y := lt_of_le_of_ne hle hl
      have hrec := ih y htail
      refine List.sorted_cons.mpr ⟨?_, hrec⟩
      intro b hb
      rcases List.mem_cons.mp hb with hb | hb
      · rw [hb]; exact hlt
      · exact hlt.trans (List.rel_of_sorted_cons hrec b hb)

/-- Claim C8. After `SortUnique(v)` the vector is strictly increasing, hence
sorted and free of equal elements, and a value occurs in it if and only if it
occurred in `v`. -/
theorem C8_sortUnique {α : Type} [LinearOrder α] (v : List α) :
    (SortUnique v).Sorted (· < ·) ∧ (SortUnique v).Nodup ∧
    ∀ x, x ∈ SortUnique v ↔ x ∈ v := by
  have hs := sort_sorted v
  have hm := sort_mem v
  unfold SortUnique
  cases hsv : sort v with
  | nil =>
    refine ⟨List.sorted_nil, List.nodup_nil, fun x => ?_⟩
    rw [← hm x, hsv]
    exact Iff.rfl
  | cons a l =>
    rw [hsv] at hs
    have hst : (unique (a :: l)).Sorted (· < ·) := uniqueAux_sorted a l hs
    refine ⟨hst, hst.nodup, fun x => ?_⟩
    rw [← hm x, hsv]
    constructor
    · intro hx
      rcases List.mem_cons.mp hx with h | h
      · rw [h]; exact List.mem_cons_self _ _
      · exact List.mem_cons_of_mem _ (uniqueAux_mem a l x h)
    · intro hx
      rcases List.mem_cons.mp hx with h | h
      · rw [h]; exact List.mem_cons_self _ _
      · rcases mem_uniqueAux a l x h with h' | h'
        · rw [h']; exact List.mem_cons_self _ _
        · exact List.mem_cons_of_mem _ h'

/-- Claim C9. The comparer `LessBy(p)` applied to `(lhs, rhs)` returns
`p(lhs) < p(rhs)`, for a field and for a const method, by reference and by pointer
(the pointer overload is the reference overload on the pointed values); the
comparer of pairs by their second component returns `b < d` on `(a, b)` and
`(c, d)`, whatever the first components are. -/
theorem C9_lessBy {T C : Type} [LT T] [DecidableRel (α := T) (· < ·)] (p : C → T)
    (m : C → Unit → T) (lhs rhs : C) (mem : Nat → C) (l r : Nat) :
    ((LessBy p).call lhs rhs = true ↔ p lhs < p rhs) ∧
    ((LessByMethod m).call lhs rhs = true ↔ m lhs () < m rhs ()) ∧
    (LessBy p).callPtr mem l r = (LessBy p).call (mem l) (mem r) ∧
    (LessByMethod m).callPtr mem l r = (LessByMethod m).call (mem l) (mem r) ∧
    ((LessBy p).callPtr mem l r = true ↔ p (mem l) < p (mem r)) ∧
    ((LessByMethod m).callPtr mem l r = true ↔ m (mem l) () < m (mem r) ()) ∧
    (∀ a b c d : Int, (LessBy (Prod.snd : Int × Int → Int)).call (a, b) (c, d) = true ↔
      b < d) := by
  refine ⟨?_, ?_, rfl, rfl, ?_, ?_, ?_⟩
  · exact decide_eq_true_iff
  · exact decide_eq_true_iff
  · exact decide_eq_true_iff
  · exact decide_eq_true_iff
  · intro a b c d
    exact decide_eq_true_iff

theorem take_succ_set {T : Type} (l : List T) (w : Nat) (x : T) (h : w < l.length) :
    (l.set w x).take (w + 1) = l.take w ++ [x] := by
  rw [List.set_eq_take_append_cons_drop, if_pos h]
  have hlen : (List.take w l).length = w := by
    rw [List.length_take]; omega
  rw [List.take_append_eq_append_take, hlen]
  simp [List.take_of_length_le, hlen]

theorem removeIfLoop_spec {T : Type} (fn : T → Bool) (k i w : Nat) (buf : List T)
    (hw : w ≤ i) (hk : i + k = buf.length) :
    (removeIfLoop fn k i w buf).1.take (removeIfLoop fn k i w buf).2 =
      buf.take w ++ (buf.drop i).filter (fun x => !fn x) := by
  induction k generalizing i w buf with
  | zero =>
    have : buf.drop i = [] := List.drop_eq_nil_of_le (by omega)
    simp [removeIfLoop, this]
  | succ k ih =>
    have hi : i < buf.length := by omega
    have hdrop : buf.drop i = buf[i] :: buf.drop (i + 1) := List.drop_eq_getElem_cons hi
    unfold removeIfLoop
    rw [List.getElem?_eq_getElem hi]
    simp only
    by_cases hf : fn buf[i] = true
    · rw [if_pos hf, ih (i + 1) w buf (by omega) (by omega), hdrop,
        List.filter_cons_of_neg (by simp [hf])]
    · rw [if_neg hf]
      have hlen : (buf.set w buf[i]).length = buf.length := List.length_set _ _ _
      rw [ih (i + 1) (w + 1) (buf.set w buf[i]) (by omega) (by omega),
        take_succ_set buf w buf[i] (by omega), List.drop_set_of_lt _ _ (by omega), hdrop,
        List.filter_cons_of_pos (by simp [hf]), List.append_assoc]
      rfl

/-- Claim C20. After `EraseIf(v, fn)` the vector holds the elements of the
original `v` for which `fn` is false, in their original order: it is the
subsequence of `v` selected by the negation of `fn`; no element for which `fn`
holds remains, and every element for which `fn` is false occurs as often as
before. -/
theorem C20_eraseIf {T : Type} [DecidableEq T] (v : List T) (fn : T → Bool) :
    EraseIf v fn = v.filter (fun x => !fn x) ∧
    (EraseIf v fn).Sublist v ∧
    (∀ x ∈ EraseIf v fn, fn x = false) ∧
    (∀ x, fn x = false → (EraseIf v fn).count x = v.count x) := by
  have h : EraseIf v fn = v.filter (fun x => !fn x) := by
    unfold EraseIf remove_if
    rw [removeIfLoop_spec fn v.length 0 0 v (le_refl _) (by omega)]
    simp
  rw [h]
  refine ⟨rfl, List.filter_sublist _, ?_, ?_⟩
  · intro x hx
    have := (List.mem_filter.mp hx).2
    simpa using this
  · intro x hx
    rw [List.count_filter]
    simp [hx]

/-- Claim C21. The comparer `EqualsBy(p)` applied to `(lhs, rhs)` returns
`p(lhs) == p(rhs)`, for a field and for a const method, by reference and by
pointer (the pointer overload is the reference overload on the pointed values).
When `==` on the projected type is reflexive, symmetric and transitive, so is
`EqualsBy(p)` on `C`. On a linearly ordered projected type, whose `==` is equality,
`EqualsBy(p)(a, b)` holds if and only if neither `LessBy(p)(a, b)` nor
`LessBy(p)(b, a)` holds. -/
theorem C21_equalsBy :
    (∀ (T C : Type) [BEq T] (p : C → T) (m : C → Unit → T) (lhs rhs : C) (mem : Nat → C)
        (l r : Nat),
      (EqualsBy p).call lhs rhs = (p lhs == p rhs) ∧
      (EqualsByMethod m).call lhs rhs = (m lhs () == m rhs ()) ∧
      (EqualsBy p).callPtr mem l r = (EqualsBy p).call (mem l) (mem r) ∧
      (EqualsByMethod m).callPtr mem l r = (EqualsByMethod m).call (mem l) (mem r) ∧
      (EqualsBy p).callPtr mem l r = (p (mem l) == p (mem r)) ∧
      (EqualsByMethod m).callPtr mem l r = (m (mem l) () == m (mem r) ())) ∧
    (∀ (T C : Type) [BEq T] (p : C → T) (m : C → Unit → T),
      (∀ x : T, (x == x) = true) →
      (∀ x y : T, (x == y) = true → (y == x) = true) →
      (∀ x y z : T, (x == y) = true → (y == z) = true → (x == z) = true) →
      (∀ a, (EqualsBy p).call a a = true) ∧
      (∀ a b, (EqualsBy p).call a b = true → (EqualsBy p).call b a = true) ∧
      (∀ a b c, (EqualsBy p).call a b = true → (EqualsBy p).call b c = true →
        (EqualsBy p).call a c = true) ∧
      (∀ a, (EqualsByMethod m).call a a = true) ∧
      (∀ a b, (EqualsByMethod m).call a b = true → (EqualsByMethod m).call b a = true) ∧
      (∀ a b c, (EqualsByMethod m).call a b = true → (EqualsByMethod m).call b c = true →
        (EqualsByMethod m).call a c = true)) ∧
    (∀ (T C : Type) [LinearOrder T] (p : C → T) (m : C → Unit → T) (a b : C),
      ((EqualsBy p).call a b = true ↔
        (LessBy p).call a b = false ∧ (LessBy p).call b a = false) ∧
      ((EqualsByMethod m).call a b = true ↔
        (LessByMethod m).call a b = false ∧ (LessByMethod m).call b a = false)) := by
  refine ⟨?_, ?_, ?_⟩
  · intro T C _ p m lhs rhs mem l r
    exact ⟨rfl, rfl, rfl, rfl, rfl, rfl⟩
  · intro T C _ p m hrefl hsymm htrans
    exact ⟨fun a => hrefl (p a), fun a b h => hsymm (p a) (p b) h,
      fun a b c h1 h2 => htrans (p a) (p b) (p c) h1 h2,
      fun a => hrefl (m a ()), fun a b h => hsymm (m a ()) (m b ()) h,
      fun a b c h1 h2 => htrans (m a ()) (m b ()) (m c ()) h1 h2⟩
  · intro T C _ p m a b
    have key : ∀ x y : T, (x == y) = true ↔
        decide (x < y) = false ∧ decide (y < x) = false := by
      intro x y
      rw [beq_iff_eq, decide_eq_false_iff_not, decide_eq_false_iff_not]
      constructor
      · intro h; rw [h]; exact ⟨lt_irrefl _, lt_irrefl _⟩
      · intro h; exact le_antisymm (not_lt.mp h.2) (not_lt.mp h.1)
    exact ⟨key (p a) (p b), key (m a ()) (m b ())⟩

/-- The theorem of claim C21 at pairs of integers compared by their second
component: `(1, 5)` and `(2, 5)` are equal by it, `(1, 5)` and `(1, 6)` are not,
and neither of `(1, 5)` and `(2, 5)` is less than the other. -/
theorem C21_equalsBy_witness :
    (EqualsBy (Prod.snd : Int × Int → Int)).call (1, 5) (2, 5) = true ∧
    (EqualsBy (Prod.snd : Int × Int → Int)).call (1, 5) (1, 6) = false ∧
    (LessBy (Prod.snd : Int × Int → Int)).call (1, 5) (2, 5) = false ∧
    (LessBy (Prod.snd : Int × Int → Int)).call (2, 5) (1, 5) = false ∧
    (∀ a b c : Int × Int, (EqualsBy (Prod.snd : Int × Int → Int)).call a b = true →
      (EqualsBy (Prod.snd : Int × Int → Int)).call b c = true →
      (EqualsBy (Prod.snd : Int × Int → Int)).call a c = true) :=
  ⟨by decide, by decide, by decide, by decide,
    (C21_equalsBy.2.1 Int (Int × Int) Prod.snd (fun c _ => c.2)
      (fun x => beq_self_eq_true x)
      (fun x y h => by rw [beq_iff_eq] at h ⊢; exact h.symm)
      (fun x y z h1 h2 => by rw [beq_iff_eq] at h1 h2 ⊢; exact h1.trans h2)).2.2.1⟩

end my

/-! ## Theorems on the place processor -/

namespace generator

namespace ClustersFinder
variable {T K : Type}

/-- What `Find` returns as values: vectors that together are a rearrangement of the
container, none of them empty. -/
theorem FindValues_spec [LinearOrder K] (F : ClustersFinder T K)
    (hinj : Function.Injective F.addr) :
    ∃ cvs, F.FindValues = some cvs ∧ cvs.flatten.Perm F.m_container ∧
      ∀ c ∈ cvs, c ≠ [] := by
  obtain ⟨cs, hcs, hperm, hreach, _⟩ := F.Find_spec hinj
  refine ⟨cs.map (fun c => c.map F.deref), by unfold FindValues; rw [hcs]; rfl, ?_, ?_⟩
  · rw [← List.map_flatten]
    have h := hperm.map F.deref
    have hget : List.map F.deref (List.finRange F.m_container.length) = F.m_container :=
      List.finRange_map_get F.m_container
    rw [hget] at h
    exact h
  · intro c hc
    obtain ⟨c0, hc0, rfl⟩ := List.mem_map.mp hc
    obtain ⟨s, tl, hst, _⟩ := hreach c0 hc0
    rw [hst]
    simp

end ClustersFinder

namespace FeaturePlace
variable {K : Type}

theorem foldl_Append_fbs [LinearOrder K] (l : List (feature.FeatureBuilder K))
    (p : FeaturePlace K) : (l.foldl Append p).m_fbs = p.m_fbs ++ l := by
  induction l generalizing p with
  | nil => simp
  | cons fb l ih =>
    rw [List.foldl_cons, ih]
    show (p.m_fbs ++ [fb]) ++ l = p.m_fbs ++ fb :: l
    simp

theorem Append_valid [LinearOrder K] (p : FeaturePlace K) (fb : feature.FeatureBuilder K) :
    (p.Append fb).m_bestIndex < (p.Append fb).m_fbs.length := by
  show _ < (p.m_fbs ++ [fb]).length
  rw [List.length_append, List.length_singleton]
  unfold Append
  simp only
  cases h : p.GetFb with
  | none => simp
  | some best =>
    simp only
    have hlt : p.m_bestIndex < p.m_fbs.length := by
      unfold GetFb at h
      obtain ⟨hlt, _⟩ := List.getElem?_eq_some.mp h
      exact hlt
    split <;> omega

theorem foldl_Append_valid [LinearOrder K] (l : List (feature.FeatureBuilder K))
    (p : FeaturePlace K) (hp : p.m_bestIndex < p.m_fbs.length) :
    (l.foldl Append p).m_bestIndex < (l.foldl Append p).m_fbs.length := by
  induction l generalizing p with
  | nil => exact hp
  | cons fb l ih =>
    rw [List.foldl_cons]
    exact ih _ (Append_valid p fb)

theorem GetFb_of_valid (p : FeaturePlace K) (hp : p.m_bestIndex < p.m_fbs.length) :
    ∃ best, p.GetFb = some best :=
  ⟨p.m_fbs[p.m_bestIndex], by unfold GetFb; exact List.getElem?_eq_getElem hp⟩

theorem foldl_idLess_const (i : base.GeoObjectId) (rest : List (feature.FeatureBuilder K))
    (h : ∀ f ∈ rest, f.id = i) :
    rest.foldl (fun best f => if idLess f.id best then f.id else best) i = i := by
  induction rest with
  | nil => rfl
  | cons f rest ih =>
    rw [List.foldl_cons, h f (List.mem_cons_self _ _), ite_self]
    exact ih (fun g hg => h g (List.mem_cons_of_mem _ hg))

/-- An aggregate that holds a raw feature, and only raw features of one source
identifier, has this identifier as its most generic one. -/
theorem GetMostGenericOsmId_of_const (p : FeaturePlace K) (i : base.GeoObjectId)
    (hne : p.m_fbs ≠ []) (h : ∀ f ∈ p.m_fbs, f.id = i) :
    p.GetMostGenericOsmId = some i := by
  unfold GetMostGenericOsmId
  cases hm : p.m_fbs with
  | nil => exact absurd hm hne
  | cons fb rest =>
    rw [hm] at h
    simp only
    rw [h fb (List.mem_cons_self _ _),
      foldl_idLess_const i rest (fun g hg => h g (List.mem_cons_of_mem _ hg))]

end FeaturePlace

namespace PlaceProcessor
variable {K : Type}

theorem addToBucket_perm [LinearOrder K] (fb : feature.FeatureBuilder K)
    (b : List (base.GeoObjectId × FeaturePlace K)) :
    (bucketFbs (addToBucket fb b)).Perm (fb :: bucketFbs b) := by
  induction b with
  | nil =>
    show (bucketFbs [(fb.id, FeaturePlace.create fb)]).Perm _
    simp [bucketFbs, FeaturePlace.create]
  | cons ip rest ih =>
    obtain ⟨i, p⟩ := ip
    unfold addToBucket
    by_cases h : i = fb.id
    · rw [if_pos h]
      show ((p.m_fbs ++ [fb]) ++ bucketFbs rest).Perm (fb :: (p.m_fbs ++ bucketFbs rest))
      rw [List.append_assoc]
      exact List.perm_middle
    · rw [if_neg h]
      show (p.m_fbs ++ bucketFbs (addToBucket fb rest)).Perm (fb :: (p.m_fbs ++ bucketFbs rest))
      exact (List.Perm.append_left _ ih).trans List.perm_middle

theorem addToMap_perm [LinearOrder K] (key : String) (fb : feature.FeatureBuilder K)
    (m : List (String × List (base.GeoObjectId × FeaturePlace K))) :
    (mapFbs (addToMap key fb m)).Perm (fb :: mapFbs m) := by
  induction m with
  | nil =>
    show (mapFbs [(key, [(fb.id, FeaturePlace.create fb)])]).Perm _
    simp [mapFbs, bucketFbs, FeaturePlace.create]
  | cons kb rest ih =>
    obtain ⟨k, b⟩ := kb
    unfold addToMap
    by_cases h : k = key
    · rw [if_pos h]
      show (bucketFbs (addToBucket fb b) ++ mapFbs rest).Perm (fb :: (bucketFbs b ++ mapFbs rest))
      exact List.Perm.append_right _ (addToBucket_perm fb b)
    · rw [if_neg h]
      show (bucketFbs b ++ mapFbs (addToMap key fb rest)).Perm
        (fb :: (bucketFbs b ++ mapFbs rest))
      exact (List.Perm.append_left _ ih).trans List.perm_middle

theorem addToBucket_nonEmpty [LinearOrder K] (fb : feature.FeatureBuilder K)
    (b : List (base.GeoObjectId × FeaturePlace K)) (hb : ∀ ip ∈ b, ip.2.m_fbs ≠ []) :
    ∀ ip ∈ addToBucket fb b, ip.2.m_fbs ≠ [] := by
  induction b with
  | nil =>
    intro ip hip
    rw [show addToBucket fb [] = [(fb.id, FeaturePlace.create fb)] from rfl,
      List.mem_singleton] at hip
    rw [hip]
    exact List.cons_ne_nil _ _
  | cons jq rest ih =>
    obtain ⟨j, q⟩ := jq
    unfold addToBucket
    intro ip hip
    by_cases h : j = fb.id
    · rw [if_pos h] at hip
      rcases List.mem_cons.mp hip with h1 | h1
      · rw [h1]
        show q.m_fbs ++ [fb] ≠ []
        simp
      · exact hb ip (List.mem_cons_of_mem _ h1)
    · rw [if_neg h] at hip
      rcases List.mem_cons.mp hip with h1 | h1
      · rw [h1]; exact hb (j, q) (List.mem_cons_self _ _)
      · exact ih (fun x hx => hb x (List.mem_cons_of_mem _ hx)) ip h1

theorem addToMap_nonEmpty [LinearOrder K] (key : String) (fb : feature.FeatureBuilder K)
    (m : List (String × List (base.GeoObjectId × FeaturePlace K))) (hm : NonEmptyPlaces m) :
    NonEmptyPlaces (addToMap key fb m) := by
  induction m with
  | nil =>
    intro kb hkb ip hip
    rw [show addToMap key fb [] = [(key, [(fb.id, FeaturePlace.create fb)])] from rfl,
      List.mem_singleton] at hkb
    rw [hkb] at hip
    rw [List.mem_singleton.mp hip]
    exact List.cons_ne_nil _ _
  | cons kb0 rest ih =>
    obtain ⟨k, b⟩ := kb0
    unfold addToMap
    intro kb hkb
    by_cases h : k = key
    · rw [if_pos h] at hkb
      rcases List.mem_cons.mp hkb with h1 | h1
      · rw [h1]
        exact addToBucket_nonEmpty fb b (hm (k, b) (List.mem_cons_self _ _))
      · exact hm kb (List.mem_cons_of_mem _ h1)
    · rw [if_neg h] at hkb
      rcases List.mem_cons.mp hkb with h1 | h1
      · rw [h1]; exact hm (k, b) (List.mem_cons_self _ _)
      · exact ih (fun x hx => hm x (List.mem_cons_of_mem _ hx)) kb h1

/-- The processor holds every accepted feature once, and nothing else. -/
theorem foldl_Add_spec [LinearOrder K] (env : PlaceEnv K)
    (fbs : List (feature.FeatureBuilder K)) (st : PlaceProcessor K)
    (hst : NonEmptyPlaces st.m_nameToPlaces) :
    (mapFbs (fbs.foldl (Add env) st).m_nameToPlaces).Perm
      (mapFbs st.m_nameToPlaces ++ fbs.filter env.NeedProcessPlace) ∧
    NonEmptyPlaces (fbs.foldl (Add env) st).m_nameToPlaces := by
  induction fbs generalizing st with
  | nil => simp [hst]
  | cons fb fbs ih =>
    rw [List.foldl_cons, List.filter_cons]
    unfold Add
    by_cases h : env.NeedProcessPlace fb = true
    · rw [if_pos h, if_pos h]
      obtain ⟨h1, h2⟩ := ih { m_nameToPlaces := addToMap (env.GetKey fb) fb st.m_nameToPlaces }
        (addToMap_nonEmpty _ fb _ hst)
      refine ⟨h1.trans ?_, h2⟩
      exact (List.Perm.append_right _ (addToMap_perm _ fb _)).trans List.perm_middle.symm
    · rw [if_neg h, if_neg h]
      exact ih st hst

theorem noSharedId_iff (l : List (List base.GeoObjectId)) :
    noSharedId l = true ↔ l.Pairwise List.Disjoint := by
  induction l with
  | nil => simp [noSharedId]
  | cons ids rest ih =>
    rw [List.pairwise_cons, ← ih,
      show noSharedId (ids :: rest) =
        (rest.all (fun js => ids.all (fun i => !js.contains i)) && noSharedId rest) from rfl,
      Bool.and_eq_true, List.all_eq_true]
    constructor
    · rintro ⟨h1, h2⟩
      refine ⟨fun js hjs i hi hj => ?_, h2⟩
      have := List.all_eq_true.mp (h1 js hjs) i hi
      simp at this
      exact this hj
    · rintro ⟨h1, h2⟩
      refine ⟨fun js hjs => List.all_eq_true.mpr (fun i hi => ?_), h2⟩
      have := h1 js hjs hi
      simpa using this

theorem addToBucket_keys [LinearOrder K] (fb : feature.FeatureBuilder K)
    (b : List (base.GeoObjectId × FeaturePlace K)) :
    (addToBucket fb b).map Prod.fst =
      if fb.id ∈ b.map Prod.fst then b.map Prod.fst else b.map Prod.fst ++ [fb.id] := by
  induction b with
  | nil => rfl
  | cons ip rest ih =>
    obtain ⟨i, p⟩ := ip
    unfold addToBucket
    by_cases h : i = fb.id
    · rw [if_pos h, if_pos (by simp [h])]
      rfl
    · rw [if_neg h, List.map_cons, ih]
      have hne : ¬ fb.id = i := fun h' => h h'.symm
      by_cases hm : fb.id ∈ rest.map Prod.fst
      · rw [if_pos hm, if_pos (by simp [hm])]
        rfl
      · rw [if_neg hm, if_neg (by simp only [List.map_cons, List.mem_cons, not_or]; exact ⟨hne, hm⟩)]
        rfl

theorem addToBucket_inv [LinearOrder K] (env : PlaceEnv K) (fb : feature.FeatureBuilder K)
    (b : List (base.GeoObjectId × FeaturePlace K)) (hb : BucketInv env (env.GetKey fb) b) :
    BucketInv env (env.GetKey fb) (addToBucket fb b) := by
  refine ⟨?_, ?_⟩
  · rw [addToBucket_keys]
    by_cases hm : fb.id ∈ b.map Prod.fst
    · rw [if_pos hm]; exact hb.1
    · rw [if_neg hm]
      exact List.Nodup.append hb.1 (List.nodup_singleton _) (by
        intro x hx hx'
        rw [List.mem_singleton] at hx'
        exact hm (hx' ▸ hx))
  · have hmem := hb.2
    clear hb
    induction b with
    | nil =>
      intro ip hip
      rw [show addToBucket fb [] = [(fb.id, FeaturePlace.create fb)] from rfl,
        List.mem_singleton] at hip
      rw [hip]
      refine ⟨List.cons_ne_nil _ _, fun f hf => ?_⟩
      rw [show (FeaturePlace.create fb).m_fbs = [fb] from rfl, List.mem_singleton] at hf
      rw [hf]
      exact ⟨rfl, rfl⟩
    | cons jq rest ih =>
      obtain ⟨j, q⟩ := jq
      unfold addToBucket
      intro ip hip
      by_cases h : j = fb.id
      · rw [if_pos h] at hip
        rcases List.mem_cons.mp hip with h1 | h1
        · rw [h1]
          refine ⟨?_, fun f hf => ?_⟩
          · show q.m_fbs ++ [fb] ≠ []
            simp
          · rcases List.mem_append.mp (show f ∈ q.m_fbs ++ [fb] from hf) with h2 | h2
            · exact (hmem (j, q) (List.mem_cons_self _ _)).2 f h2
            · rw [List.mem_singleton.mp h2]
              exact ⟨h.symm, rfl⟩
        · exact hmem ip (List.mem_cons_of_mem _ h1)
      · rw [if_neg h] at hip
        rcases List.mem_cons.mp hip with h1 | h1
        · rw [h1]; exact hmem (j, q) (List.mem_cons_self _ _)
        · exact ih (fun x hx => hmem x (List.mem_cons_of_mem _ hx)) ip h1

theorem addToMap_keys [LinearOrder K] (key : String) (fb : feature.FeatureBuilder K)
    (m : List (String × List (base.GeoObjectId × FeaturePlace K))) :
    (addToMap key fb m).map Prod.fst =
      if key ∈ m.map Prod.fst then m.map Prod.fst else m.map Prod.fst ++ [key] := by
  induction m with
  | nil => rfl
  | cons kb rest ih =>
    obtain ⟨k, b⟩ := kb
    unfold addToMap
    by_cases h : k = key
    · rw [if_pos h, if_pos (by simp [h])]
      rfl
    · rw [if_neg h, List.map_cons, ih]
      have hne : ¬ key = k := fun h' => h h'.symm
      by_cases hm : key ∈ rest.map Prod.fst
      · rw [if_pos hm, if_pos (by simp [hm])]
        rfl
      · rw [if_neg hm, if_neg (by simp only [List.map_cons, List.mem_cons, not_or]; exact ⟨hne, hm⟩)]
        rfl

theorem addToMap_inv [LinearOrder K] (env : PlaceEnv K) (fb : feature.FeatureBuilder K)
    (m : List (String × List (base.GeoObjectId × FeaturePlace K))) (hm : MapInv env m) :
    MapInv env (addToMap (env.GetKey fb) fb m) := by
  refine ⟨?_, ?_⟩
  · rw [addToMap_keys]
    by_cases hk : env.GetKey fb ∈ m.map Prod.fst
    · rw [if_pos hk]; exact hm.1
    · rw [if_neg hk]
      exact List.Nodup.append hm.1 (List.nodup_singleton _) (by
        intro x hx hx'
        rw [List.mem_singleton] at hx'
        exact hk (hx' ▸ hx))
  · have hmem := hm.2
    clear hm
    induction m with
    | nil =>
      intro kb hkb
      rw [show addToMap (env.GetKey fb) fb [] =
        [(env.GetKey fb, [(fb.id, FeaturePlace.create fb)])] from rfl, List.mem_singleton] at hkb
      rw [hkb]
      exact addToBucket_inv env fb [] ⟨List.nodup_nil, fun ip hip => by cases hip⟩
    | cons kb0 rest ih =>
      obtain ⟨k, b⟩ := kb0
      unfold addToMap
      intro kb hkb
      by_cases h : k = env.GetKey fb
      · rw [if_pos h] at hkb
        rcases List.mem_cons.mp hkb with h1 | h1
        · rw [h1]
          have := hmem (k, b) (List.mem_cons_self _ _)
          show BucketInv env k (addToBucket fb b)
          rw [h]
          rw [h] at this
          exact addToBucket_inv env fb b this
        · exact hmem kb (List.mem_cons_of_mem _ h1)
      · rw [if_neg h] at hkb
        rcases List.mem_cons.mp hkb with h1 | h1
        · rw [h1]; exact hmem (k, b) (List.mem_cons_self _ _)
        · exact ih (fun x hx => hmem x (List.mem_cons_of_mem _ hx)) kb h1

theorem foldl_Add_inv [LinearOrder K] (env : PlaceEnv K)
    (fbs : List (feature.FeatureBuilder K)) (st : PlaceProcessor K)
    (hst : MapInv env st.m_nameToPlaces) :
    MapInv env (fbs.foldl (Add env) st).m_nameToPlaces := by
  induction fbs generalizing st with
  | nil => exact hst
  | cons fb fbs ih =>
    rw [List.foldl_cons]
    unfold Add
    by_cases h : env.NeedProcessPlace fb = true
    · rw [if_pos h]
      exact ih _ (addToMap_inv env fb _ hst)
    · rw [if_neg h]
      exact ih st hst

theorem processCluster_ids [LinearOrder K] (c : List (FeaturePlace K))
    (hc : c.flatMap FeaturePlace.GetFbs ≠ []) :
    ∃ best, processCluster c = some (best, c.filterMap FeaturePlace.GetMostGenericOsmId) := by
  unfold processCluster
  cases h : c.flatMap FeaturePlace.GetFbs with
  | nil => exact absurd h hc
  | cons fb rest =>
    simp only
    obtain ⟨best, hbest⟩ := FeaturePlace.GetFb_of_valid
      (rest.foldl FeaturePlace.Append (FeaturePlace.create fb))
      (FeaturePlace.foldl_Append_valid rest _ (by simp [FeaturePlace.create]))
    rw [hbest]
    exact ⟨best, rfl⟩

theorem processClusters_ids [LinearOrder K] (cs : List (List (FeaturePlace K)))
    (hcs : ∀ c ∈ cs, c.flatMap FeaturePlace.GetFbs ≠ []) :
    ∃ out, processClusters cs = some out ∧
      out.map Prod.snd = cs.map (fun c => c.filterMap FeaturePlace.GetMostGenericOsmId) := by
  induction cs with
  | nil => exact ⟨[], rfl, rfl⟩
  | cons c cs ih =>
    obtain ⟨best, hb⟩ := processCluster_ids c (hcs c (List.mem_cons_self _ _))
    obtain ⟨out, ho, hmap⟩ := ih (fun d hd => hcs d (List.mem_cons_of_mem _ hd))
    refine ⟨(best, c.filterMap FeaturePlace.GetMostGenericOsmId) :: out, ?_, ?_⟩
    · unfold processClusters
      rw [hb, ho]
    · simp only [List.map_cons, hmap]

theorem flatten_map_filterMap {α β : Type} (g : α → Option β) (cvs : List (List α)) :
    (cvs.map (fun c => c.filterMap g)).flatten = cvs.flatten.filterMap g := by
  induction cvs with
  | nil => rfl
  | cons c cvs ih =>
    rw [List.map_cons, List.flatten_cons, ih, List.flatten_cons, List.filterMap_append]

theorem filterMap_bucket_ids (env : PlaceEnv K) (k : String)
    (b : List (base.GeoObjectId × FeaturePlace K))
    (hb : ∀ ip ∈ b, ip.2.m_fbs ≠ [] ∧ ∀ f ∈ ip.2.m_fbs, f.id = ip.1 ∧ env.GetKey f = k) :
    (b.map Prod.snd).filterMap FeaturePlace.GetMostGenericOsmId = b.map Prod.fst := by
  induction b with
  | nil => rfl
  | cons ip rest ih =>
    have h := hb ip (List.mem_cons_self _ _)
    rw [List.map_cons, List.filterMap_cons,
      FeaturePlace.GetMostGenericOsmId_of_const ip.2 ip.1 h.1 (fun f hf => (h.2 f hf).1),
      ih (fun x hx => hb x (List.mem_cons_of_mem _ hx))]
    rfl

/-- The clusters of one bucket: the cluster finder returns, no cluster spans two
grouping keys, and the identifier lists of the emitted pairs hold, up to order, the
identifiers of the place aggregates of the bucket. -/
theorem bucket_spec [LinearOrder K] (env : PlaceEnv K) (k : String)
    (b : List (base.GeoObjectId × FeaturePlace K)) (hb : BucketInv env k b) :
    ∃ cvs o, (MakePlaceClustersFinder env (b.map Prod.snd)).FindValues = some cvs ∧
      cvs.all (clusterInKey env k) = true ∧ processClusters cvs = some o ∧
      (o.map Prod.snd).flatten.Perm (b.map Prod.fst) := by
  obtain ⟨cvs, hcvs, hcperm, hne⟩ :=
    (MakePlaceClustersFinder env (b.map Prod.snd)).FindValues_spec (fun _ _ h => Fin.ext h)
  have hcperm' : cvs.flatten.Perm (b.map Prod.snd) := hcperm
  have hmem : ∀ c ∈ cvs, ∀ p ∈ c, ∃ ip ∈ b, ip.2 = p := by
    intro c hc p hp
    have : p ∈ b.map Prod.snd := hcperm'.subset (List.mem_flatten.mpr ⟨c, hc, hp⟩)
    obtain ⟨ip, hip, hpe⟩ := List.mem_map.mp this
    exact ⟨ip, hip, hpe⟩
  have hfb : ∀ c ∈ cvs, c.flatMap FeaturePlace.GetFbs ≠ [] := by
    intro c hc
    cases hcl : c with
    | nil => exact absurd hcl (hne c hc)
    | cons p tl =>
      obtain ⟨ip, hip, hpe⟩ := hmem c hc p (by rw [hcl]; exact List.mem_cons_self _ _)
      have := (hb.2 ip hip).1
      rw [hpe] at this
      rw [List.flatMap_cons]
      intro happ
      exact this (List.append_eq_nil.mp happ).1
  obtain ⟨o, ho, homap⟩ := processClusters_ids cvs hfb
  refine ⟨cvs, o, hcvs, ?_, ho, ?_⟩
  · rw [List.all_eq_true]
    intro c hc
    unfold clusterInKey
    rw [List.all_eq_true]
    intro f hf
    obtain ⟨p, hp, hfp⟩ := List.mem_flatMap.mp hf
    obtain ⟨ip, hip, hpe⟩ := hmem c hc p hp
    have := ((hb.2 ip hip).2 f (by rw [hpe]; exact hfp)).2
    rw [this]
    exact beq_self_eq_true _
  · rw [homap, flatten_map_filterMap, ← filterMap_bucket_ids env k b hb.2]
    exact hcperm'.filterMap _

/-- On a processor in the state `MapInv`, the loop over the buckets returns, every
identifier list is duplicate-free, and the lists hold, up to order, the identifiers
of the place aggregates. -/
theorem processBuckets_ids [LinearOrder K] (env : PlaceEnv K)
    (m : List (String × List (base.GeoObjectId × FeaturePlace K)))
    (hm : ∀ kb ∈ m, BucketInv env kb.1 kb.2) :
    ∃ out, processBuckets env m = some out ∧
      (out.map Prod.snd).flatten.Perm (mapIds m) ∧ ∀ ids ∈ out.map Prod.snd, ids.Nodup := by
  induction m with
  | nil => exact ⟨[], rfl, List.Perm.refl _, fun ids h => by cases h⟩
  | cons kb rest ih =>
    obtain ⟨k, b⟩ := kb
    obtain ⟨outs, hos, hperm, hnd⟩ := ih (fun x hx => hm x (List.mem_cons_of_mem _ hx))
    have hb : BucketInv env k b := hm (k, b) (List.mem_cons_self _ _)
    obtain ⟨cvs, o, hcvs, hkey, ho, hop⟩ := bucket_spec env k b hb
    refine ⟨o ++ outs, ?_, ?_, ?_⟩
    · unfold processBuckets
      rw [hcvs]
      simp only
      rw [if_pos hkey, ho, hos]
    · rw [List.map_append, List.flatten_append]
      show List.Perm _ (b.map Prod.fst ++ mapIds rest)
      exact List.Perm.append hop hperm
    · intro ids hids
      rw [List.map_append] at hids
      rcases List.mem_append.mp hids with h | h
      · exact (List.nodup_flatten.mp (hop.nodup_iff.mpr hb.1)).1 ids h
      · exact hnd ids h

theorem mem_mapFbs {m : List (String × List (base.GeoObjectId × FeaturePlace K))}
    {f : feature.FeatureBuilder K} :
    f ∈ mapFbs m ↔ ∃ kb ∈ m, ∃ ip ∈ kb.2, f ∈ ip.2.m_fbs := by
  unfold mapFbs bucketFbs
  simp only [List.mem_flatMap]

theorem mem_mapIds {m : List (String × List (base.GeoObjectId × FeaturePlace K))}
    {i : base.GeoObjectId} :
    i ∈ mapIds m ↔ ∃ kb ∈ m, ∃ ip ∈ kb.2, ip.1 = i := by
  unfold mapIds
  simp only [List.mem_flatMap, List.mem_map]

/-- In the state `MapInv`, the identifiers of the place aggregates are the source
identifiers of the stored raw features. -/
theorem mem_mapIds_iff (env : PlaceEnv K)
    (m : List (String × List (base.GeoObjectId × FeaturePlace K))) (hm : MapInv env m)
    (i : base.GeoObjectId) :
    i ∈ mapIds m ↔ ∃ f ∈ mapFbs m, f.id = i := by
  rw [mem_mapIds]
  constructor
  · rintro ⟨kb, hkb, ip, hip, rfl⟩
    obtain ⟨hne, hall⟩ := (hm.2 kb hkb).2 ip hip
    obtain ⟨f, hf⟩ := List.exists_mem_of_ne_nil _ hne
    exact ⟨f, mem_mapFbs.mpr ⟨kb, hkb, ip, hip, hf⟩, (hall f hf).1⟩
  · rintro ⟨f, hf, rfl⟩
    obtain ⟨kb, hkb, ip, hip, hfp⟩ := mem_mapFbs.mp hf
    exact ⟨kb, hkb, ip, hip, ((hm.2 kb hkb).2 ip hip |>.2 f hfp).1.symm⟩

/-- In the state `MapInv`, no identifier is held in two buckets exactly when any two
stored raw features with one source identifier have one grouping key. -/
theorem mapIds_nodup_iff (env : PlaceEnv K)
    (m : List (String × List (base.GeoObjectId × FeaturePlace K))) (hm : MapInv env m) :
    (mapIds m).Nodup ↔
      ∀ a ∈ mapFbs m, ∀ b ∈ mapFbs m, a.id = b.id → env.GetKey a = env.GetKey b := by
  unfold mapIds
  rw [List.nodup_flatMap]
  constructor
  · rintro ⟨_, hpw⟩ a ha b hb hid
    obtain ⟨kb, hkb, ip, hip, hfa⟩ := mem_mapFbs.mp ha
    obtain ⟨kb', hkb', ip', hip', hfb⟩ := mem_mapFbs.mp hb
    have ha2 := (hm.2 kb hkb).2 ip hip |>.2 a hfa
    have hb2 := (hm.2 kb' hkb').2 ip' hip' |>.2 b hfb
    by_contra hne
    have hkk : kb ≠ kb' := by
      intro h
      apply hne
      rw [ha2.2, hb2.2, h]
    have hS : Symmetric (fun (x y : String × List (base.GeoObjectId × FeaturePlace K)) =>
        List.Disjoint (x.2.map Prod.fst) (y.2.map Prod.fst)) := fun x y h => h.symm
    have hd := hpw.forall hS hkb hkb' hkk
    exact hd (List.mem_map.mpr ⟨ip, hip, rfl⟩)
      (List.mem_map.mpr ⟨ip', hip', by rw [← hb2.1, ← hid, ha2.1]⟩)
  · intro h
    refine ⟨fun kb hkb => (hm.2 kb hkb).1, ?_⟩
    have hkeys : m.Pairwise (fun x y => x.1 ≠ y.1) := (List.pairwise_map.mp hm.1)
    refine hkeys.imp_of_mem ?_
    intro x y hx hy hxy i hix hiy
    obtain ⟨ip, hip, rfl⟩ := List.mem_map.mp hix
    obtain ⟨ip', hip', hid⟩ := List.mem_map.mp hiy
    obtain ⟨hne, hall⟩ := (hm.2 x hx).2 ip hip
    obtain ⟨hne', hall'⟩ := (hm.2 y hy).2 ip' hip'
    obtain ⟨a, ha⟩ := List.exists_mem_of_ne_nil _ hne
    obtain ⟨b, hb⟩ := List.exists_mem_of_ne_nil _ hne'
    have := h a (mem_mapFbs.mpr ⟨x, hx, ip, hip, ha⟩) b (mem_mapFbs.mpr ⟨y, hy, ip', hip', hb⟩)
      (by rw [(hall a ha).1, (hall' b hb).1, hid])
    rw [(hall a ha).2, (hall' b hb).2] at this
    exact hxy this

/-- Claim C10. For every sequence of `Add` calls on a fresh processor followed by one
`ProcessPlaces` call: the call returns exactly when no two accepted features (those
for which `NeedProcessPlace` holds) carry one source identifier under two different
grouping keys, which is the case that section 7 of the specification makes abort;
and whenever it returns, the contributing-identifier lists of the output pairs are
duplicate-free and pairwise disjoint, and an identifier is in one of them exactly
when it is the source identifier of an accepted feature. -/
theorem C10_contributing_ids [LinearOrder K] (env : PlaceEnv K)
    (fbs : List (feature.FeatureBuilder K)) :
    ((∃ out, ProcessPlaces env (afterAdds env fbs) = some out) ↔
      ∀ a ∈ fbs, ∀ b ∈ fbs, env.NeedProcessPlace a = true → env.NeedProcessPlace b = true →
        a.id = b.id → env.GetKey a = env.GetKey b) ∧
    ∀ out, ProcessPlaces env (afterAdds env fbs) = some out →
      (∀ ids ∈ out.map Prod.snd, ids.Nodup) ∧
      (out.map Prod.snd).Pairwise List.Disjoint ∧
      ∀ i, i ∈ (out.map Prod.snd).flatten ↔
        ∃ fb ∈ fbs, env.NeedProcessPlace fb = true ∧ fb.id = i := by
  have hinv : MapInv env (afterAdds env fbs).m_nameToPlaces :=
    foldl_Add_inv env fbs { m_nameToPlaces := [] } ⟨List.nodup_nil, fun kb hkb => by cases hkb⟩
  have hfbs : ∀ f, f ∈ mapFbs (afterAdds env fbs).m_nameToPlaces ↔
      f ∈ fbs ∧ env.NeedProcessPlace f = true := by
    intro f
    have h := (foldl_Add_spec env fbs { m_nameToPlaces := [] } (fun kb hkb => by cases hkb)).1
    rw [show mapFbs ({ m_nameToPlaces := [] } : PlaceProcessor K).m_nameToPlaces = [] from rfl,
      List.nil_append] at h
    rw [show (afterAdds env fbs) = fbs.foldl (Add env) { m_nameToPlaces := [] } from rfl,
      h.mem_iff, List.mem_filter]
  obtain ⟨out0, hout0, hperm, hnd⟩ := processBuckets_ids env _ hinv.2
  have hPP : ProcessPlaces env (afterAdds env fbs) =
      if noSharedId (out0.map Prod.snd) then some out0 else none := by
    unfold ProcessPlaces
    rw [hout0]
  have hdisj : (out0.map Prod.snd).Pairwise List.Disjoint ↔
      ∀ a ∈ fbs, ∀ b ∈ fbs, env.NeedProcessPlace a = true → env.NeedProcessPlace b = true →
        a.id = b.id → env.GetKey a = env.GetKey b := by
    have h1 : (out0.map Prod.snd).Pairwise List.Disjoint ↔ (out0.map Prod.snd).flatten.Nodup := by
      rw [List.nodup_flatten]
      exact ⟨fun h => ⟨hnd, h⟩, fun h => h.2⟩
    rw [h1, hperm.nodup_iff, mapIds_nodup_iff env _ hinv]
    constructor
    · intro h a ha b hb hna hnb hid
      exact h a ((hfbs a).mpr ⟨ha, hna⟩) b ((hfbs b).mpr ⟨hb, hnb⟩) hid
    · intro h a ha b hb hid
      exact h a ((hfbs a).mp ha).1 b ((hfbs b).mp hb).1 ((hfbs a).mp ha).2 ((hfbs b).mp hb).2 hid
  refine ⟨?_, ?_⟩
  · rw [← hdisj, ← noSharedId_iff, hPP]
    constructor
    · rintro ⟨out, hout⟩
      by_contra hn
      rw [if_neg hn] at hout
      cases hout
    · intro h
      exact ⟨out0, if_pos h⟩
  · intro out hout
    rw [hPP] at hout
    by_cases hn : noSharedId (out0.map Prod.snd) = true
    · rw [if_pos hn] at hout
      have : out0 = out := Option.some.inj hout
      subst this
      refine ⟨hnd, (noSharedId_iff _).mp hn, fun i => ?_⟩
      rw [hperm.mem_iff, mem_mapIds_iff env _ hinv]
      constructor
      · rintro ⟨f, hf, hid⟩
        exact ⟨f, ((hfbs f).mp hf).1, ((hfbs f).mp hf).2, hid⟩
      · rintro ⟨f, hf, hnf, hid⟩
        exact ⟨f, (hfbs f).mpr ⟨hf, hnf⟩, hid⟩
    · rw [if_neg hn] at hout
      cases hout

/-- The theorem of claim C10 at four `Add` calls, the two parts of a relation, a
feature that is not accepted and a node, all named A: the call returns one pair,
which lists the identifier of the relation once and the identifier of the node; and
at two accepted features with one identifier and the names A and B, where the call
aborts. -/
theorem C10_contributing_ids_witness :
    (∃ out, ProcessPlaces demoEnv
        (afterAdds demoEnv [relationPartOne, unclassified, nodeNamedA, relationPartTwo]) = some out ∧
      out.map Prod.snd = [[⟨.Relation, 2⟩, ⟨.Node, 1⟩]] ∧
      (∀ ids ∈ out.map Prod.snd, ids.Nodup) ∧
      (out.map Prod.snd).Pairwise List.Disjoint ∧
      ∀ i, i ∈ (out.map Prod.snd).flatten ↔
        ∃ fb ∈ [relationPartOne, unclassified, nodeNamedA, relationPartTwo],
          demoEnv.NeedProcessPlace fb = true ∧ fb.id = i) ∧
    ProcessPlaces demoEnv (afterAdds demoEnv [nodeNamedA, nodeNamedB]) = none ∧
    ¬ (∀ a ∈ [nodeNamedA, nodeNamedB], ∀ b ∈ [nodeNamedA, nodeNamedB],
        demoEnv.NeedProcessPlace a = true → demoEnv.NeedProcessPlace b = true →
        a.id = b.id → demoEnv.GetKey a = demoEnv.GetKey b) := by
  have hnone : ProcessPlaces demoEnv (afterAdds demoEnv [nodeNamedA, nodeNamedB]) = none := by
    decide
  refine ⟨?_, hnone, ?_⟩
  · obtain ⟨out, hout⟩ :=
      (C10_contributing_ids demoEnv [relationPartOne, unclassified, nodeNamedA, relationPartTwo]).1.mpr
        (by decide)
    have hval : (ProcessPlaces demoEnv
        (afterAdds demoEnv [relationPartOne, unclassified, nodeNamedA, relationPartTwo])).map
          (fun o => o.map Prod.snd) = some [[⟨.Relation, 2⟩, ⟨.Node, 1⟩]] := by decide
    have h := (C10_contributing_ids demoEnv
      [relationPartOne, unclassified, nodeNamedA, relationPartTwo]).2 out hout
    rw [hout] at hval
    exact ⟨out, hout, Option.some.inj hval, h⟩
  · intro hcond
    obtain ⟨out, hout⟩ := (C10_contributing_ids demoEnv [nodeNamedA, nodeNamedB]).1.mpr hcond
    rw [hnone] at hout
    cases hout

end PlaceProcessor
end generator

/-! ## Theorems on the place aggregate -/

namespace generator

namespace FeaturePlace

variable {K : Type}

theorem isBetter_irrefl (a : feature.FeatureBuilder K) : isBetter a a = false := by
  unfold isBetter
  simp

theorem isBetter_trans (a b c : feature.FeatureBuilder K) (h1 : isBetter a b = true)
    (h2 : isBetter b c = true) : isBetter a c = true := by
  unfold isBetter at h1 h2 ⊢
  generalize (a.geomType == feature.GeomType.Point) = pa at *
  generalize (b.geomType == feature.GeomType.Point) = pb at *
  generalize (c.geomType == feature.GeomType.Point) = pc at *
  generalize a.id.kind.ordinal = oa at *
  generalize b.id.kind.ordinal = ob at *
  generalize c.id.kind.ordinal = oc at *
  cases pa <;> cases pb <;> cases pc <;> simp at h1 h2 ⊢ <;>
    (split_ifs at h1 h2 ⊢ <;> omega)

theorem isBetter_point (a b : feature.FeatureBuilder K)
    (ha : a.geomType = feature.GeomType.Point) (hb : b.geomType ≠ feature.GeomType.Point) :
    isBetter a b = true := by
  unfold isBetter
  have h1 : (a.geomType == feature.GeomType.Point) = true := by rw [ha]; rfl
  have h2 : (b.geomType == feature.GeomType.Point) = false := by
    cases h : b.geomType <;> first | exact absurd h hb | rfl
  rw [h1, h2]
  rfl

theorem ordinal_injective (a b : base.OriginKind) (h : a.ordinal = b.ordinal) : a = b := by
  cases a <;> cases b <;> first | rfl | cases h

theorem isBetter_total (a b : feature.FeatureBuilder K) (h : a.id ≠ b.id) :
    isBetter a b = true ∨ isBetter b a = true := by
  have hk : a.id.serial ≠ b.id.serial ∨ a.id.kind.ordinal ≠ b.id.kind.ordinal := by
    by_contra hn
    rw [not_or, not_not, not_not] at hn
    apply h
    cases ha : a.id with
    | mk ka sa =>
      cases hb : b.id with
      | mk kb sb =>
        rw [ha, hb] at hn
        simp only at hn
        rw [hn.1, ordinal_injective ka kb hn.2]
  unfold isBetter
  generalize (a.geomType == feature.GeomType.Point) = pa at *
  generalize (b.geomType == feature.GeomType.Point) = pb at *
  generalize a.id.kind.ordinal = oa at *
  generalize b.id.kind.ordinal = ob at *
  cases pa <;> cases pb <;> simp <;> (split_ifs <;> omega)

theorem noTies_of_nodup_ids (l : List (feature.FeatureBuilder K))
    (h : (l.map (fun f => f.id)).Nodup) : NoTies l := by
  intro a ha b hb hab
  apply isBetter_total
  intro hid
  exact hab (List.inj_on_of_nodup_map h ha hb hid)

theorem GetFb_create (fb : feature.FeatureBuilder K) : (create fb).GetFb = some fb := rfl

theorem GetFb_Append [LinearOrder K] (p : FeaturePlace K) (fb best : feature.FeatureBuilder K)
    (h : p.GetFb = some best) :
    (p.Append fb).GetFb = some (if isBetter fb best = true then fb else best) := by
  have hlt : p.m_bestIndex < p.m_fbs.length := by
    unfold GetFb at h
    exact (List.getElem?_eq_some.mp h).1
  unfold Append
  simp only [h]
  unfold GetFb
  simp only
  by_cases hb : isBetter fb best = true
  · rw [if_pos hb, if_pos hb]
    simp
  · rw [if_neg hb, if_neg hb, List.getElem?_append_left hlt]
    exact h

/-- The best member of an aggregate grown by `Append` is a member that no member
is better than. -/
theorem foldl_Append_best [LinearOrder K] (rest : List (feature.FeatureBuilder K))
    (p : FeaturePlace K) (best : feature.FeatureBuilder K) (h : p.GetFb = some best)
    (hmem : best ∈ p.m_fbs) (hmax : ∀ x ∈ p.m_fbs, isBetter x best = false) :
    ∃ best', (rest.foldl Append p).GetFb = some best' ∧ best' ∈ p.m_fbs ++ rest ∧
      ∀ x ∈ p.m_fbs ++ rest, isBetter x best' = false := by
  induction rest generalizing p best with
  | nil => exact ⟨best, h, by simpa using hmem, by simpa using hmax⟩
  | cons fb rest ih =>
    rw [List.foldl_cons]
    have hfbs : (p.Append fb).m_fbs = p.m_fbs ++ [fb] := rfl
    have hstep := GetFb_Append p fb best h
    by_cases hb : isBetter fb best = true
    · rw [if_pos hb] at hstep
      obtain ⟨b', h1, h2, h3⟩ := ih (p.Append fb) fb hstep (by rw [hfbs]; simp) (by
        intro x hx
        rw [hfbs] at hx
        rcases List.mem_append.mp hx with hx | hx
        · cases hxb : isBetter x fb with
          | false => rfl
          | true =>
            have := isBetter_trans x fb best hxb hb
            rw [hmax x hx] at this
            cases this
        · rw [List.mem_singleton.mp hx]; exact isBetter_irrefl fb)
      rw [hfbs, List.append_assoc] at h2 h3
      exact ⟨b', h1, h2, h3⟩
    · rw [if_neg hb] at hstep
      obtain ⟨b', h1, h2, h3⟩ := ih (p.Append fb) best hstep
        (by rw [hfbs]; exact List.mem_append_left _ hmem) (by
        intro x hx
        rw [hfbs] at hx
        rcases List.mem_append.mp hx with hx | hx
        · exact hmax x hx
        · rw [List.mem_singleton.mp hx]
          simpa using hb)
      rw [hfbs, List.append_assoc] at h2 h3
      exact ⟨b', h1, h2, h3⟩

theorem ofList_best [LinearOrder K] (l : List (feature.FeatureBuilder K)) (hl : l ≠ []) :
    ∃ p best, ofList l = some p ∧ p.GetFb = some best ∧ best ∈ l ∧
      ∀ x ∈ l, isBetter x best = false := by
  cases l with
  | nil => exact absurd rfl hl
  | cons fb rest =>
    obtain ⟨b', h1, h2, h3⟩ := foldl_Append_best rest (create fb) fb rfl
      (List.mem_singleton.mpr rfl) (fun x hx => by
        rw [List.mem_singleton.mp hx]; exact isBetter_irrefl fb)
    exact ⟨_, b', rfl, h1, h2, h3⟩

theorem processCluster_fst [LinearOrder K] (c : List (FeaturePlace K)) :
    (PlaceProcessor.processCluster c).map Prod.fst =
      (ofList (c.flatMap GetFbs)).bind GetFb := by
  unfold PlaceProcessor.processCluster
  cases h : c.flatMap GetFbs with
  | nil => rfl
  | cons fb rest =>
    simp only [ofList, Option.some_bind]
    cases (rest.foldl Append (create fb)).GetFb <;> rfl

/-- Claim C11. For every aggregate built by `Append` calls among which at least
one feature has point geometry, whatever the other features, their ranks and the
order of the calls, `GetFb` returns a member with point geometry and `IsPoint` is
true; the canonical feature of a cluster whose members hold a feature with point
geometry has point geometry. -/
theorem C11_point_is_preferred [LinearOrder K] :
    (∀ (l : List (feature.FeatureBuilder K)),
      (∃ f ∈ l, f.geomType = feature.GeomType.Point) →
      ∃ p best, ofList l = some p ∧ p.GetFb = some best ∧ best ∈ l ∧
        best.geomType = feature.GeomType.Point ∧ p.IsPoint = true) ∧
    (∀ (cluster : List (FeaturePlace K)),
      (∃ p ∈ cluster, ∃ f ∈ p.GetFbs, f.geomType = feature.GeomType.Point) →
      ∃ best ids, PlaceProcessor.processCluster cluster = some (best, ids) ∧
        best.geomType = feature.GeomType.Point) := by
  have key : ∀ (l : List (feature.FeatureBuilder K)),
      (∃ f ∈ l, f.geomType = feature.GeomType.Point) →
      ∃ p best, ofList l = some p ∧ p.GetFb = some best ∧ best ∈ l ∧
        best.geomType = feature.GeomType.Point ∧ p.IsPoint = true := by
    intro l ⟨f, hf, hpt⟩
    obtain ⟨p, best, hp, hbest, hmem, hmax⟩ := ofList_best l (List.ne_nil_of_mem hf)
    have hbp : best.geomType = feature.GeomType.Point := by
      by_contra hne
      have := isBetter_point f best hpt hne
      rw [hmax f hf] at this
      cases this
    refine ⟨p, best, hp, hbest, hmem, hbp, ?_⟩
    unfold IsPoint
    rw [hbest]
    show (best.geomType == feature.GeomType.Point) = true
    rw [hbp]
    rfl
  refine ⟨key, ?_⟩
  intro cluster ⟨p, hp, f, hf, hpt⟩
  have hmem : f ∈ cluster.flatMap GetFbs := List.mem_flatMap.mpr ⟨p, hp, hf⟩
  obtain ⟨q, best, hq, hbest, _, hbp, _⟩ := key _ ⟨f, hmem, hpt⟩
  have hfst := processCluster_fst cluster
  rw [hq, Option.some_bind, hbest] at hfst
  cases hpc : PlaceProcessor.processCluster cluster with
  | none => rw [hpc] at hfst; cases hfst
  | some o =>
    rw [hpc] at hfst
    have ho : o.1 = best := Option.some.inj hfst
    exact ⟨o.1, o.2, rfl, by rw [ho]; exact hbp⟩

/-- The theorem of claim C11 at an area of rank 9 and a point of rank 5, appended
in both orders, and at the cluster of the two aggregates. -/
theorem C11_point_is_preferred_witness :
    (ofList [areaOfRelation, pointOfNode]).bind GetFb = some pointOfNode ∧
    (ofList [pointOfNode, areaOfRelation]).bind GetFb = some pointOfNode ∧
    (PlaceProcessor.processCluster [create areaOfRelation, create pointOfNode]).map Prod.fst =
      some pointOfNode ∧
    (∃ p best, ofList [areaOfRelation, pointOfNode] = some p ∧ p.GetFb = some best ∧
      best ∈ [areaOfRelation, pointOfNode] ∧
      best.geomType = feature.GeomType.Point ∧ p.IsPoint = true) ∧
    (∃ best ids,
      PlaceProcessor.processCluster [create areaOfRelation, create pointOfNode] =
        some (best, ids) ∧ best.geomType = feature.GeomType.Point) :=
  ⟨by decide, by decide, by decide,
    (@C11_point_is_preferred Int _).1 [areaOfRelation, pointOfNode]
      ⟨pointOfNode, by simp, rfl⟩,
    (@C11_point_is_preferred Int _).2 [create areaOfRelation, create pointOfNode]
      ⟨create pointOfNode, by simp, pointOfNode, by simp [GetFbs, create], rfl⟩⟩

/-- Claim C12, amended. For two lists of raw features that are rearrangements of
each other and in which no two different features tie under the selection rule,
appending them to an aggregate in the one order and in the other gives the same
best member, hence the same geometry, name and rank; the same holds for the
canonical feature of two clusters whose members hold such lists. No two features
tie when the source identifiers are pairwise distinct. -/
theorem C12_best_member_order_independent [LinearOrder K] :
    (∀ (l₁ l₂ : List (feature.FeatureBuilder K)), l₁.Perm l₂ → NoTies l₁ →
      (ofList l₁).bind GetFb = (ofList l₂).bind GetFb ∧
      (l₁ ≠ [] → ∃ best, (ofList l₁).bind GetFb = some best)) ∧
    (∀ (c₁ c₂ : List (FeaturePlace K)),
      (c₁.flatMap GetFbs).Perm (c₂.flatMap GetFbs) → NoTies (c₁.flatMap GetFbs) →
      (PlaceProcessor.processCluster c₁).map Prod.fst =
        (PlaceProcessor.processCluster c₂).map Prod.fst) ∧
    (∀ (l : List (feature.FeatureBuilder K)), (l.map (fun f => f.id)).Nodup → NoTies l) := by
  have key : ∀ (l₁ l₂ : List (feature.FeatureBuilder K)), l₁.Perm l₂ → NoTies l₁ →
      (ofList l₁).bind GetFb = (ofList l₂).bind GetFb ∧
      (l₁ ≠ [] → ∃ best, (ofList l₁).bind GetFb = some best) := by
    intro l₁ l₂ hperm hnt
    by_cases hl : l₁ = []
    · subst hl
      rw [hperm.nil_eq]
      exact ⟨rfl, fun h => absurd rfl h⟩
    · have hl2 : l₂ ≠ [] := fun h => hl (by rw [h] at hperm; exact hperm.eq_nil)
      obtain ⟨p, b, hp, hb, hmem, hmax⟩ := ofList_best l₁ hl
      obtain ⟨p', b', hp', hb', hmem', hmax'⟩ := ofList_best l₂ hl2
      have hbb : b = b' := by
        by_contra hne
        rcases hnt b hmem b' (hperm.mem_iff.mpr hmem') hne with h | h
        · rw [hmax' b (hperm.mem_iff.mp hmem)] at h; cases h
        · rw [hmax b' (hperm.mem_iff.mpr hmem')] at h; cases h
      rw [hp, hp', Option.some_bind, Option.some_bind, hb, hb', hbb]
      exact ⟨rfl, fun _ => ⟨b', rfl⟩⟩
  refine ⟨key, ?_, noTies_of_nodup_ids⟩
  intro c₁ c₂ hperm hnt
  rw [processCluster_fst, processCluster_fst]
  exact (key _ _ hperm hnt).1

/-- The amended theorem of claim C12 at an area and a point with different
identifiers, in the two orders. -/
theorem C12_best_member_order_independent_witness :
    [areaOfRelation, pointOfNode].Perm [pointOfNode, areaOfRelation] ∧
    NoTies [areaOfRelation, pointOfNode] ∧
    (ofList [areaOfRelation, pointOfNode]).bind GetFb = some pointOfNode ∧
    (ofList [areaOfRelation, pointOfNode]).bind GetFb =
      (ofList [pointOfNode, areaOfRelation]).bind GetFb :=
  have hnt : NoTies [areaOfRelation, pointOfNode] :=
    (@C12_best_member_order_independent Int _).2.2 _ (by decide)
  ⟨List.Perm.swap _ _ _, hnt, by decide,
    ((@C12_best_member_order_independent Int _).1 _ _ (List.Perm.swap _ _ _) hnt).1⟩

/-- Claim C12 as stated fails. The two parts of one relation have the same
geometry class, rank and identifier and different bounding rectangles; appended in
the one order the best member is the first part, in the other order it is the
second part. -/
theorem C12_counterexample :
    [PlaceProcessor.relationPartOne, PlaceProcessor.relationPartTwo].Perm
      [PlaceProcessor.relationPartTwo, PlaceProcessor.relationPartOne] ∧
    (ofList [PlaceProcessor.relationPartOne, PlaceProcessor.relationPartTwo]).bind GetFb =
      some PlaceProcessor.relationPartOne ∧
    (ofList [PlaceProcessor.relationPartTwo, PlaceProcessor.relationPartOne]).bind GetFb =
      some PlaceProcessor.relationPartTwo ∧
    PlaceProcessor.relationPartOne.limitRect ≠ PlaceProcessor.relationPartTwo.limitRect ∧
    ¬ ((ofList [PlaceProcessor.relationPartOne, PlaceProcessor.relationPartTwo]).bind GetFb =
      (ofList [PlaceProcessor.relationPartTwo, PlaceProcessor.relationPartOne]).bind GetFb) :=
  ⟨List.Perm.swap _ _ _, by decide, by decide, by decide, by decide⟩

end FeaturePlace

end generator
